import Mathlib

/-!
# English (Porter) stemmer of `xapian-core/languages/english/stem_english.c`

A shallow embedding of the stemmer and a verification development about it.

Conventions of the embedding.

* `struct stemmer` becomes the structure `stemmer`.  The buffer `z->p` is the
  memory seen through the pointer: `z.p i` is the byte at address `z->p + i`,
  for every integer offset `i`, so that a read before or after the allocated
  block has a value (whatever lies there) and can be reasoned about.
* C `int` values are `Int` (a word is far shorter than `2^31 - 75` bytes, so
  no `int` of the source overflows); positions handed to `cons` are natural
  numbers because every call site of the source guards them to be
  non-negative.
* Functions of the source that modify `*z` return the new `stemmer`; `ends`,
  which both answers and modifies, returns a pair.
* The source writes its suffix literals as `"~sses"`: the text after the `~`
  together with its length are the arguments `s` and `length` of `ends`,
  `setto` and `r`.  Here they are the list of the characters after the `~`.
* Loops run on a fuel argument that is computed from the loop bounds and is
  always enough (each iteration advances the loop index by one).

The function `clear_text` of `xapian-applications/omega`
(`handler_libetonyek_numbers.cc`, `handler_libetonyek_pages.cc`) is embedded
in the namespace `HandlerLibetonyek`: a C string is the list of the `int`
values of its bytes before the terminator, a `std::string` the list of the
bytes it holds.
-/

namespace StemEnglish

/-- A pool of irregular forms: each entry pairs a surface form with the
paradigm form it is mapped to. -/
abbrev pool := List (List Char × List Char)

/-- The `struct stemmer` of the source: buffer `p`, its capacity `p_size`,
the index `k` of the last byte of the active word, the boundary `j`, and the
pool of irregular forms. -/
structure stemmer where
  p : Int → Char
  p_size : Int
  k : Int
  j : Int
  irregulars : pool

/-- The test `memcmp(p + off, s, length) == 0`: the bytes at `off`, `off + 1`, ... are
those of `s`. -/
def memeq (p : Int → Char) (off : Int) : List Char → Bool
  | [] => true
  | c :: cs => if p off = c then memeq p (off + 1) cs else false

/-- The call `memmove(p + off, s, length)`: the bytes of `s` are written at `off`,
`off + 1`, ... -/
def memmove (p : Int → Char) (off : Int) : List Char → Int → Char
  | [] => p
  | c :: cs => memmove (Function.update p off c) (off + 1) cs

/-- The C string that starts at `p + i`: the bytes up to the first NUL. -/
def c_str (p : Int → Char) : Nat → Int → List Char
  | 0, _ => []
  | fuel + 1, i => if p i = Char.ofNat 0 then [] else p i :: c_str p fuel (i + 1)

/-- Function `cons(z, i)` is true iff `p[i]` is a consonant. -/
def cons (z : stemmer) (i : Nat) : Bool :=
  let ch := z.p i
  if ch = 'a' ∨ ch = 'e' ∨ ch = 'i' ∨ ch = 'o' ∨ ch = 'u' then false
  else if ch = 'y' then
    match i with
    | 0 => true
    | n + 1 => !cons z n
  else true

/-- The three inner loops of `m`: the leading consonants, a vowel sequence,
a consonant sequence. -/
inductive mloop where
  | lead
  | vowels
  | consonants
  deriving DecidableEq, Repr

/-- The loops of `m(z)`, from position `i` with count `n` in the loop `ph`. -/
def m_from (z : stemmer) : Nat → mloop → Nat → Int → Int
  | 0, _, _, n => n
  | fuel + 1, ph, i, n =>
    if (i : Int) > z.j then n
    else match ph with
      | mloop.lead =>
        if !cons z i then m_from z fuel mloop.vowels (i + 1) n
        else m_from z fuel mloop.lead (i + 1) n
      | mloop.vowels =>
        if cons z i then m_from z fuel mloop.consonants (i + 1) (n + 1)
        else m_from z fuel mloop.vowels (i + 1) n
      | mloop.consonants =>
        if !cons z i then m_from z fuel mloop.vowels (i + 1) n
        else m_from z fuel mloop.consonants (i + 1) n

/-- Function `m(z)` measures the number of consonant sequences between `0` and `j`. -/
def m (z : stemmer) : Int :=
  m_from z (z.j + 2).toNat mloop.lead 0 0

/-- The loop of `vowelinstem`. -/
def vowelinstem_from (z : stemmer) : Nat → Nat → Bool
  | 0, _ => false
  | fuel + 1, i =>
    if (i : Int) ≤ z.j then
      if !cons z i then true else vowelinstem_from z fuel (i + 1)
    else false

/-- Function `vowelinstem(z)` is true iff `p[0], ... p[j]` contains a vowel. -/
def vowelinstem (z : stemmer) : Bool :=
  vowelinstem_from z (z.j + 1).toNat 0

/-- Function `doublec(z, i)` is true iff `p[i], p[i - 1]` contain a double consonant. -/
def doublec (z : stemmer) (i : Int) : Bool :=
  if i < 1 then false
  else if z.p i ≠ z.p (i - 1) then false
  else cons z i.toNat

/-- Function `cvc(z, i)` is true iff `p[i - 2], p[i - 1], p[i]` has the form consonant -
vowel - consonant and the second consonant is not w, x or y. -/
def cvc (z : stemmer) (i : Int) : Bool :=
  if i < 2 || !cons z i.toNat || cons z (i - 1).toNat || !cons z (i - 2).toNat then false
  else
    let ch := z.p i
    if ch = 'w' ∨ ch = 'x' ∨ ch = 'y' then false
    else true

/-- Function `ends(z, s, length)` is true iff `p[0], ... p[k]` ends with the string
`s`; it then sets `j`. -/
def ends (z : stemmer) (s : List Char) : Bool × stemmer :=
  if (s.length : Int) > z.k + 1 then (false, z)
  else if !memeq z.p (z.k - s.length + 1) s then (false, z)
  else (true, { z with j := z.k - s.length })

/-- Function `setto(z, s, length)` sets `p[j + 1] ...` to the characters in the string
`s`, readjusting `k`. -/
def setto (z : stemmer) (s : List Char) : stemmer :=
  { z with p := memmove z.p (z.j + 1) s, k := z.j + s.length }

/-- Function `r(z, s, length)`: `setto` when `m(z) > 0`. -/
def r (z : stemmer) (s : List Char) : stemmer :=
  if m z > 0 then setto z s else z

/-- The first statement of `step_1ab`: the block `if (z->p[z->k] == 's') ...`
that gets rid of plurals. -/
def step_1ab_s (z : stemmer) : stemmer :=
  if z.p z.k = 's' then
    let e := ends z "sses".toList
    if e.1 then { e.2 with k := e.2.k - 2 }
    else
      let e := ends e.2 "ies".toList
      if e.1 then
        if e.2.j = 0 then { e.2 with k := e.2.k - 1 } else { e.2 with k := e.2.k - 2 }
      else
        if e.2.p (e.2.k - 1) ≠ 's' then { e.2 with k := e.2.k - 1 } else e.2
  else z

/-- The block of `step_1ab` that follows `z->k = z->j`, once -ed or -ing has
been taken off: -at, -bl, -iz get their e back, a double consonant is
undoubled, a short stem gets an e. -/
def step_1ab_fix (z : stemmer) : stemmer :=
  let e := ends z "at".toList
  if e.1 then setto e.2 "ate".toList
  else
    let e := ends e.2 "bl".toList
    if e.1 then setto e.2 "ble".toList
    else
      let e := ends e.2 "iz".toList
      if e.1 then setto e.2 "ize".toList
      else
        let z := e.2
        if doublec z z.k then
          let z := { z with k := z.k - 1 }
          let ch := z.p z.k
          if ch = 'l' ∨ ch = 's' ∨ ch = 'z' then { z with k := z.k + 1 } else z
        else if m z = 1 && cvc z z.k then setto z "e".toList
        else z

/-- The second statement of `step_1ab`: the chain on -ied, -eed, -ed and
-ing. -/
def step_1ab_ed (z : stemmer) : stemmer :=
  let e := ends z "ied".toList
  if e.1 then
    if e.2.j = 0 then { e.2 with k := e.2.k - 1 } else { e.2 with k := e.2.k - 2 }
  else
    let e := ends e.2 "eed".toList
    if e.1 then
      if m e.2 > 0 then { e.2 with k := e.2.k - 1 } else e.2
    else
      let e1 := ends e.2 "ed".toList
      let e := if e1.1 then e1 else ends e1.2 "ing".toList
      if e.1 && vowelinstem e.2 then step_1ab_fix { e.2 with k := e.2.j }
      else e.2

/-- Function `step_1ab(z)` gets rid of plurals and -ed or -ing. -/
def step_1ab (z : stemmer) : stemmer :=
  step_1ab_ed (step_1ab_s z)

/-- Function `step_1c(z)` turns terminal y to i when it is preceded by a consonant
that is not the whole stem. -/
def step_1c (z : stemmer) : stemmer :=
  let e := ends z "y".toList
  if e.1 && decide (e.2.j > 0) && cons e.2 (e.2.k - 1).toNat then
    { e.2 with p := Function.update e.2.p e.2.k 'i' }
  else e.2

/-- One line `if (ends(z, s)) { r(z, t); break; }` of a `switch` case of
`step_2` or `step_3`, followed by the rest of the case. -/
def rule (z : stemmer) (s t : List Char) (rest : stemmer → stemmer) : stemmer :=
  let e := ends z s
  if e.1 then r e.2 t else rest e.2

/-- Function `step_2(z)` maps double suffices to single ones. -/
def step_2 (z : stemmer) : stemmer :=
  let ch := z.p (z.k - 1)
  if ch = 'a' then
    rule z "ational".toList "ate".toList fun z =>
    rule z "tional".toList "tion".toList id
  else if ch = 'c' then
    rule z "enci".toList "ence".toList fun z =>
    rule z "anci".toList "ance".toList id
  else if ch = 'e' then
    rule z "izer".toList "ize".toList id
  else if ch = 'l' then
    rule z "bli".toList "ble".toList fun z =>
    rule z "alli".toList "al".toList fun z =>
    rule z "entli".toList "ent".toList fun z =>
    rule z "eli".toList "e".toList fun z =>
    rule z "ousli".toList "ous".toList id
  else if ch = 'o' then
    rule z "ization".toList "ize".toList fun z =>
    rule z "ation".toList "ate".toList fun z =>
    rule z "ator".toList "ate".toList id
  else if ch = 's' then
    rule z "alism".toList "al".toList fun z =>
    rule z "iveness".toList "ive".toList fun z =>
    rule z "fulness".toList "ful".toList fun z =>
    rule z "ousness".toList "ous".toList id
  else if ch = 't' then
    rule z "aliti".toList "al".toList fun z =>
    rule z "iviti".toList "ive".toList fun z =>
    rule z "biliti".toList "ble".toList id
  else if ch = 'g' then
    rule z "logi".toList "log".toList id
  else z

/-- Function `step_3(z)` deals with -ic-, -full, -ness etc. -/
def step_3 (z : stemmer) : stemmer :=
  let ch := z.p z.k
  if ch = 'e' then
    rule z "icate".toList "ic".toList fun z =>
    rule z "ative".toList "".toList fun z =>
    rule z "alize".toList "al".toList id
  else if ch = 'i' then
    rule z "iciti".toList "ic".toList id
  else if ch = 'l' then
    rule z "ical".toList "ic".toList fun z =>
    rule z "ful".toList "".toList id
  else if ch = 's' then
    rule z "ness".toList "".toList id
  else z

/-- The last line of `step_4`, reached by the `break`s of its `switch`. -/
def step_4_strip (z : stemmer) : stemmer :=
  if m z > 1 then { z with k := z.j } else z

/-- One line `if (ends(z, s)) break;` of a `switch` case of `step_4`: on a
match the statement after the `switch` runs, otherwise the rest of the
case. -/
def rule4 (z : stemmer) (s : List Char) (rest : stemmer → stemmer) : stemmer :=
  let e := ends z s
  if e.1 then step_4_strip e.2 else rest e.2

/-- The case `'o'` of the `switch` of `step_4`: -ion is taken off only after
s or t (the byte `p[j]`), then -ou is tried. -/
def step_4_o (z : stemmer) : stemmer :=
  let e := ends z "ion".toList
  if e.1 && (decide (e.2.p e.2.j = 's') || decide (e.2.p e.2.j = 't')) then step_4_strip e.2
  else rule4 e.2 "ou".toList id

/-- Function `step_4()` takes off -ant, -ence etc., in context `<c>vcvc<v>`. -/
def step_4 (z : stemmer) : stemmer :=
  let ch := z.p (z.k - 1)
  if ch = 'a' then rule4 z "al".toList id
  else if ch = 'c' then
    rule4 z "ance".toList fun z =>
    rule4 z "ence".toList id
  else if ch = 'e' then rule4 z "er".toList id
  else if ch = 'i' then rule4 z "ic".toList id
  else if ch = 'l' then
    rule4 z "able".toList fun z =>
    rule4 z "ible".toList id
  else if ch = 'n' then
    rule4 z "ant".toList fun z =>
    rule4 z "ement".toList fun z =>
    rule4 z "ment".toList fun z =>
    rule4 z "ent".toList id
  else if ch = 'o' then step_4_o z
  else if ch = 's' then rule4 z "ism".toList id
  else if ch = 't' then
    rule4 z "ate".toList fun z =>
    rule4 z "iti".toList id
  else if ch = 'u' then rule4 z "ous".toList id
  else if ch = 'v' then rule4 z "ive".toList id
  else if ch = 'z' then rule4 z "ize".toList id
  else z

/-- The first `if` of `step_5`: a final -e is removed if `m(z) > 1`, or if
`m(z) = 1` and what is before it is not consonant - vowel - consonant. -/
def step_5_e (z : stemmer) : stemmer :=
  if z.p z.k = 'e' then
    let a := m z
    if a > 1 || (a == 1 && !cvc z (z.k - 1)) then { z with k := z.k - 1 } else z
  else z

/-- The second `if` of `step_5`: -ll becomes -l if `m(z) > 1`. -/
def step_5_l (z : stemmer) : stemmer :=
  if z.p z.k = 'l' && doublec z z.k && decide (m z > 1) then { z with k := z.k - 1 } else z

/-- Function `step_5(z)` removes a final -e if `m(z) > 1`, and changes -ll to -l if
`m(z) > 1`. -/
def step_5 (z : stemmer) : stemmer :=
  step_5_l (step_5_e { z with j := z.k })

/-- The table `irregular_forms` of the source, without its `0, 0`
terminator: each paradigm form with its `/`-terminated surface forms. -/
def irregular_forms : List (String × String) :=
  [ ("sky", "sky/skies/"),
    ("die", "dying/"),
    ("lie", "lying/"),
    ("tie", "tying/"),
    ("news", "news/"),
    ("inning", "innings/inning/"),
    ("outing", "outings/outing/"),
    ("canning", "cannings/canning/"),
    ("howe", "howe/") ]

/-- The surface forms of one table entry: the pieces of `"s1/s2/.../"`, each
ended by its `/`. -/
def split_forms : List Char → List Char → List (List Char)
  | _, [] => []
  | acc, c :: cs =>
    if c = '/' then acc.reverse :: split_forms [] cs else split_forms (c :: acc) cs

/-- Modelled from the spec: `create_pool` of `pool.c`, which is not part of
the sources at hand.  The pool is "a mapping from surface form to canonical
stem, with multiple surface forms allowed per canonical stem", built from the
"(canonical-stem, `/`-delimited surface forms) pairs" of the table. -/
def create_pool (table : List (String × String)) : pool :=
  table.flatMap fun e => (split_forms [] e.2.toList).map fun s => (s, e.1.toList)

/-- Modelled from the spec: `search_pool` of `pool.c`, which is not part of
the sources at hand.  "Lookup key is the candidate word together with its
exact length (a form and its length must both match)";
the answer is the canonical stem of the surface form, or nothing (the null
pointer of the source). -/
def search_pool (pl : pool) (length : Int) (s : Int → Char) : Option (List Char) :=
  match pl with
  | [] => none
  | e :: rest =>
    if (e.1.length : Int) = length && memeq s 0 e.1 then some e.2
    else search_pool rest length s

/-- The first statements of `stem`: the buffer is replaced by a new block
(whose contents `fresh` are whatever the allocator hands out) when it is too
small, the word `q[i0..i1]` is copied in, and `k` is set.  The word is given
as the list `w` of its bytes, so `i1 - i0 = w.length - 1`. -/
def stem_load (z : stemmer) (fresh : Int → Char) (w : List Char) : stemmer :=
  let d : Int := (w.length : Int) - 1
  let z := if d + 50 > z.p_size then { z with p := fresh, p_size := d + 75 } else z
  let z := { z with p := memmove z.p 0 w }
  { z with k := d }

/-- The six stages of `stem`, with the guard `k > 1` of the source. -/
def stem_steps (z : stemmer) : stemmer :=
  if z.k > 1 then step_5 (step_4 (step_3 (step_2 (step_1c (step_1ab z))))) else z

/-- Function `stem(z, q, i0, i1)`: the returned C string and the context after the
call. -/
def stem (z : stemmer) (fresh : Int → Char) (w : List Char) : List Char × stemmer :=
  let z := stem_load z fresh w
  match search_pool z.irregulars (z.k + 1) z.p with
  | some t => (t, z)
  | none =>
    let z := stem_steps z
    let z := { z with p := Function.update z.p (z.k + 1) (Char.ofNat 0) }
    (c_str z.p (z.k + 2).toNat 0, z)

/-- Function `setup_stemmer()`: no buffer yet, the pool built from `irregular_forms`.
The fields `k` and `j`, which the source leaves unset, and the bytes behind
the null buffer pointer are given as zero. -/
def setup_stemmer : stemmer :=
  { p := fun _ => Char.ofNat 0, p_size := 0, k := 0, j := 0,
    irregulars := create_pool irregular_forms }

/-! ## Relations between states used by the proofs -/

/-- Two states are related: same `k`, within `0..N`, and the buffers agree
on `0..N`, where every byte satisfies `L`. -/
def Rel (L : Char → Prop) (N : Int) (z1 z2 : stemmer) : Prop :=
  z1.k = z2.k ∧ 0 ≤ z1.k ∧ z1.k ≤ N ∧ ∀ i : Int, 0 ≤ i → i ≤ N → z1.p i = z2.p i ∧ L (z1.p i)

/-- The state `b` has the active word and buffer of `a`. -/
def Same (a b : stemmer) : Prop := b.k = a.k ∧ b.p = a.p

/-- The state `b` has the pool and the buffer capacity of `a`. -/
def Frame (a b : stemmer) : Prop := b.irregulars = a.irregulars ∧ b.p_size = a.p_size

/-- A read of `p[i]` that is checked against the active word: the byte when
`0 <= i <= k`, nothing otherwise. -/
def peek (z : stemmer) (i : Int) : Option Char :=
  if 0 ≤ i ∧ i ≤ z.k then some (z.p i) else none

/-- The state `z` with the byte before the buffer, `p[-1]`, replaced by `c`. -/
def set_before (z : stemmer) (c : Char) : stemmer :=
  { z with p := Function.update z.p (-1) c }

/-! ## The active word, the stages, the measure as a count, the rule tables -/

/-- The active word of a state: the bytes `p[0], ..., p[k]`. -/
def active (z : stemmer) : List Char :=
  (List.range (z.k + 1).toNat).map fun (i : Nat) => z.p (i : Int)

/-- The states after each of the six pipeline stages of `stem`, in order,
when the stages are run from the state `z`. -/
def stage_states (z : stemmer) : List stemmer :=
  [step_1ab z, step_1c (step_1ab z), step_2 (step_1c (step_1ab z)),
    step_3 (step_2 (step_1c (step_1ab z))), step_4 (step_3 (step_2 (step_1c (step_1ab z)))),
    step_5 (step_4 (step_3 (step_2 (step_1c (step_1ab z)))))]

/-- The number of vowel-consonant boundaries `(t, t + 1)` with
`start <= t < start + len`: position `t` is a vowel and position `t + 1` is a
consonant under `cons`. -/
def vc_from (z : stemmer) (start len : Nat) : Nat :=
  ((List.range' start len).filter fun t => !cons z t && cons z (t + 1)).length

/-- The number of indices `i` with `1 <= i <= j` such that position `i - 1`
is a vowel and position `i` is a consonant under `cons`. -/
def vc_count (z : stemmer) : Nat :=
  ((List.range z.j.toNat).filter fun t => !cons z t && cons z (t + 1)).length

/-- The consonant pattern of the stem `p[0..j]`: `true` where `cons` holds. -/
def cons_pattern (z : stemmer) : List Bool :=
  (List.range (z.j + 1).toNat).map fun (i : Nat) => cons z i

/-- The pattern `<c>(vc)^n<v>`: `a` consonants, then for each entry `(b, c)`
of `blocks` a run of `b + 1` vowels and a run of `c + 1` consonants, then `d`
vowels. -/
def vc_shape (a : Nat) (blocks : List (Nat × Nat)) (d : Nat) : List Bool :=
  List.replicate a true
    ++ (blocks.flatMap fun bc => List.replicate (bc.1 + 1) false ++ List.replicate (bc.2 + 1) true)
    ++ List.replicate d false

/-- The number of places where a pattern goes from vowel (`false`) to
consonant (`true`). -/
def vc_pairs : List Bool → Nat
  | [] => 0
  | [_] => 0
  | a :: b :: rest => (if !a && b then 1 else 0) + vc_pairs (b :: rest)

/-- The rules of `step_2`, suffix and replacement, in the order of the
source. -/
def step_2_rules : List (List Char × List Char) :=
  [("ational", "ate"), ("tional", "tion"), ("enci", "ence"), ("anci", "ance"), ("izer", "ize"),
    ("bli", "ble"), ("alli", "al"), ("entli", "ent"), ("eli", "e"), ("ousli", "ous"),
    ("ization", "ize"), ("ation", "ate"), ("ator", "ate"), ("alism", "al"),
    ("iveness", "ive"), ("fulness", "ful"), ("ousness", "ous"), ("aliti", "al"),
    ("iviti", "ive"), ("biliti", "ble"), ("logi", "log")].map fun e => (e.1.toList, e.2.toList)

/-- The suffixes of `step_4`, in the order of the source. -/
def step_4_suffixes : List (List Char) :=
  ["al", "ance", "ence", "er", "ic", "able", "ible", "ant", "ement", "ment", "ent", "ion", "ou",
    "ism", "ate", "iti", "ous", "ive", "ize"].map String.toList

/-- The last but one character of a suffix: the character on which the
`switch` of `step_2` and `step_4` selects the case that holds the suffix. -/
def penult (s : List Char) : Char :=
  s.getD (s.length - 2) (Char.ofNat 0)

/-- The lines of one `switch` case of `step_2`, for the rules `l` of the
case: the first rule whose suffix matches is the only one applied. -/
def first_rule (z : stemmer) : List (List Char × List Char) → stemmer
  | [] => z
  | e :: rest => rule z e.1 e.2 fun y => first_rule y rest

/-- The lines of one `switch` case of `step_4`, for the suffixes `l` of the
case; the suffix -ion has its own test on the byte `p[j]`. -/
def first_suffix (z : stemmer) : List (List Char) → stemmer
  | [] => z
  | s :: rest =>
    if s = "ion".toList then
      let e := ends z s
      if e.1 && (decide (e.2.p e.2.j = 's') || decide (e.2.p e.2.j = 't')) then step_4_strip e.2
      else first_suffix e.2 rest
    else rule4 z s fun y => first_suffix y rest

end StemEnglish

/-! ## The function `clear_text` of the libetonyek handlers -/

namespace HandlerLibetonyek

/-- Function `isspace` of the C library in the "C" locale, on the value of a
`char` converted to `int`: the space and the controls `\t`, `\n`, `\v`, `\f`,
`\r` (codes 9 to 13). -/
def isspace (c : Int) : Bool :=
  c == 32 || (decide (9 ≤ c) && decide (c ≤ 13))

/-- The value `text[i]` converted to `int`, for a C string given as the list
of its bytes before the terminator: the byte at index `text.length` is the
terminator `'\0'`.  (No read of `clear_text` goes further.) -/
def char_at (text : List Int) (i : Nat) : Int :=
  text.getD i 0

/-- The `for` loop of `clear_text`, from index `i`.  The condition of the
source is `i < text[i]!='\0'`; in C++ the relational `<` binds tighter than
`!=`, so it is `(i < text[i]) != '\0'`: the comparison gives 1 or 0, which is
then compared with 0. -/
def clear_text_from (text : List Int) : Nat → Nat → List Int → List Int
  | 0, _, str => str
  | fuel + 1, i, str =>
    if (if (i : Int) < char_at text i then (1 : Int) else 0) ≠ 0 then
      clear_text_from text fuel (i + 1)
        (if !isspace (char_at text i) || (i != 0 && !isspace (char_at text (i - 1))) then
          str ++ [char_at text i]
        else str)
    else str

/-- Function `clear_text(str, text)` of `handler_libetonyek_numbers.cc` and of
`handler_libetonyek_pages.cc` (the two copies are the same): the new value of
`str`.  A null `text` is `none`. -/
def clear_text (str : List Int) (text : Option (List Int)) : List Int :=
  match text with
  | none => str
  | some t => clear_text_from t (t.length + 1) 0 str

/-- The bytes of an ASCII string literal, as `int` values. -/
def bytes (s : String) : List Int :=
  s.toList.map fun c => (c.toNat : Int)

/-- The specification of `clear_text`, in its words: the character at index
`i` is left out when it is a whitespace character that is at index 0 or
directly follows another whitespace character. -/
def left_out (text : List Int) (i : Nat) : Bool :=
  isspace (char_at text i) && (i == 0 || isspace (char_at text (i - 1)))

/-- The characters of `text` at the indices below `n` that are not left out,
in order. -/
def kept_below (text : List Int) (n : Nat) : List Int :=
  ((List.range n).filter fun i => !left_out text i).map (char_at text)

/-- The specification of `clear_text`, in its words: `str` followed by every
character of `text` before the terminator that is not left out. -/
def clear_text_spec (str text : List Int) : List Int :=
  str ++ kept_below text text.length

end HandlerLibetonyek

namespace StemEnglish

/-! ## Memory, classifier and measure -/

theorem memmove_below (s : List Char) (p : Int → Char) (off i : Int) (h : i < off) :
    memmove p off s i = p i := by
  induction s generalizing p off with
  | nil => rfl
  | cons c cs ih =>
    simp only [memmove]
    rw [ih _ _ (by omega)]
    exact Function.update_noteq (by omega) _ _

theorem memmove_above (s : List Char) (p : Int → Char) (off i : Int)
    (h : off + s.length ≤ i) : memmove p off s i = p i := by
  induction s generalizing p off with
  | nil => rfl
  | cons c cs ih =>
    simp only [List.length_cons, Nat.cast_add, Nat.cast_one] at h
    simp only [memmove]
    rw [ih _ _ (by omega)]
    exact Function.update_noteq (by omega) _ _

theorem memmove_mem (s : List Char) (p : Int → Char) (off i : Int)
    (h1 : off ≤ i) (h2 : i < off + s.length) : memmove p off s i ∈ s := by
  induction s generalizing p off with
  | nil => simp at h2; omega
  | cons c cs ih =>
    simp only [List.length_cons, Nat.cast_add, Nat.cast_one] at h2
    simp only [memmove]
    by_cases hi : i = off
    · subst hi
      rw [memmove_below _ _ _ _ (by omega)]
      simp
    · exact List.mem_cons_of_mem _ (ih _ _ (by omega) (by omega))

theorem memmove_congr (s : List Char) (p1 p2 : Int → Char) (off i : Int)
    (h : p1 i = p2 i) : memmove p1 off s i = memmove p2 off s i := by
  induction s generalizing p1 p2 off with
  | nil => exact h
  | cons c cs ih =>
    simp only [memmove]
    apply ih
    by_cases hi : i = off
    · subst hi; simp
    · simp [Function.update_noteq hi, h]

theorem memeq_congr (s : List Char) (p1 p2 : Int → Char) (off : Int)
    (h : ∀ i, off ≤ i → i < off + s.length → p1 i = p2 i) :
    memeq p1 off s = memeq p2 off s := by
  induction s generalizing off with
  | nil => rfl
  | cons c cs ih =>
    simp only [List.length_cons, Nat.cast_add, Nat.cast_one] at h
    simp only [memeq]
    rw [h off (by omega) (by omega), ih (off + 1) (fun i h1 h2 => h i (by omega) (by omega))]

theorem memeq_memmove (w s : List Char) (p : Int → Char) (off : Int)
    (h : s.length = w.length) : memeq (memmove p off w) off s = decide (s = w) := by
  induction w generalizing p off s with
  | nil =>
    cases s with
    | nil => simp [memeq]
    | cons c cs => simp at h
  | cons c cs ih =>
    cases s with
    | nil => simp at h
    | cons d ds =>
      simp only [List.length_cons, add_left_inj] at h
      simp only [memeq, memmove]
      rw [memmove_below _ _ _ _ (by omega)]
      simp only [Function.update_same]
      by_cases hcd : c = d
      · subst hcd
        simp [ih ds _ _ h]
      · have : ¬ d = c := fun e => hcd e.symm
        simp [hcd, this]

theorem cons_congr (z1 z2 : stemmer) (i : Nat)
    (h : ∀ n : Nat, n ≤ i → z1.p n = z2.p n) : cons z1 i = cons z2 i := by
  induction i with
  | zero =>
    unfold cons
    simp only [h 0 (le_refl _)]
  | succ n ih =>
    unfold cons
    simp only [h (n + 1) (le_refl _)]
    rw [ih (fun a ha => h a (by omega))]

theorem m_from_congr (z1 z2 : stemmer) (hj : z1.j = z2.j)
    (h : ∀ i : Int, 0 ≤ i → i ≤ z1.j → z1.p i = z2.p i) (fuel : Nat) (ph : mloop)
    (i : Nat) (n : Int) : m_from z1 fuel ph i n = m_from z2 fuel ph i n := by
  induction fuel generalizing ph i n with
  | zero => rfl
  | succ f ih =>
    unfold m_from
    rw [← hj]
    by_cases hi : (i : Int) > z1.j
    · simp [hi]
    · have hc : cons z1 i = cons z2 i :=
        cons_congr z1 z2 i (fun a ha => h a (by omega) (by omega))
      simp only [hi, if_false, hc, ih]

theorem m_congr (z1 z2 : stemmer) (hj : z1.j = z2.j)
    (h : ∀ i : Int, 0 ≤ i → i ≤ z1.j → z1.p i = z2.p i) : m z1 = m z2 := by
  unfold m
  rw [← hj]
  exact m_from_congr z1 z2 hj h _ _ _ _

theorem m_from_ge (z : stemmer) (fuel : Nat) (ph : mloop) (i : Nat) (n : Int) :
    n ≤ m_from z fuel ph i n := by
  induction fuel generalizing ph i n with
  | zero => simp [m_from]
  | succ f ih =>
    unfold m_from
    split
    · exact le_refl _
    · cases ph <;> simp only <;> split <;>
        first
          | exact ih _ _ _
          | exact le_trans (by omega) (ih _ _ _)

theorem m_nonneg (z : stemmer) : 0 ≤ m z := m_from_ge z _ _ _ _

theorem m_from_past (z : stemmer) (fuel : Nat) (ph : mloop) (i : Nat) (n : Int)
    (h : z.j < i) : m_from z fuel ph i n = n := by
  cases fuel with
  | zero => rfl
  | succ f => unfold m_from; simp [h]

theorem m_of_j_le_zero (z : stemmer) (h : z.j ≤ 0) : m z = 0 := by
  unfold m
  by_cases h0 : z.j = 0
  · have : (z.j + 2).toNat = 2 := by omega
    rw [this]
    unfold m_from
    simp only [h0]
    simp only [Nat.cast_zero, gt_iff_lt, lt_self_iff_false, if_false]
    split <;> exact m_from_past z _ _ _ _ (by simp [h0])
  · exact m_from_past z _ _ _ _ (by simp; omega)

theorem m_pos_j (z : stemmer) (h : 0 < m z) : 1 ≤ z.j := by
  by_contra hc
  rw [m_of_j_le_zero z (by omega)] at h
  exact lt_irrefl _ h

theorem vowelinstem_from_congr (z1 z2 : stemmer) (hj : z1.j = z2.j)
    (h : ∀ i : Int, 0 ≤ i → i ≤ z1.j → z1.p i = z2.p i) (fuel i : Nat) :
    vowelinstem_from z1 fuel i = vowelinstem_from z2 fuel i := by
  induction fuel generalizing i with
  | zero => rfl
  | succ f ih =>
    unfold vowelinstem_from
    rw [← hj]
    by_cases hi : (i : Int) ≤ z1.j
    · have hc : cons z1 i = cons z2 i :=
        cons_congr z1 z2 i (fun a ha => h a (by omega) (by omega))
      simp only [hi, if_true, hc, ih]
    · simp [hi]

theorem vowelinstem_congr (z1 z2 : stemmer) (hj : z1.j = z2.j)
    (h : ∀ i : Int, 0 ≤ i → i ≤ z1.j → z1.p i = z2.p i) :
    vowelinstem z1 = vowelinstem z2 := by
  unfold vowelinstem
  rw [← hj]
  exact vowelinstem_from_congr z1 z2 hj h _ _

theorem vowelinstem_j (z : stemmer) (h : vowelinstem z = true) : 0 ≤ z.j := by
  by_contra hc
  have : (z.j + 1).toNat = 0 := by omega
  unfold vowelinstem at h
  rw [this] at h
  simp [vowelinstem_from] at h

/-! The fuel of the loops of `m` and `vowelinstem` is enough: more fuel gives
the same result, so the loops end on their own tests. -/

theorem m_from_succ (z : stemmer) (fuel : Nat) (ph : mloop) (i : Nat) (n : Int) :
    m_from z (fuel + 1) ph i n =
      if (i : Int) > z.j then n
      else match ph with
        | mloop.lead =>
          if !cons z i then m_from z fuel mloop.vowels (i + 1) n
          else m_from z fuel mloop.lead (i + 1) n
        | mloop.vowels =>
          if cons z i then m_from z fuel mloop.consonants (i + 1) (n + 1)
          else m_from z fuel mloop.vowels (i + 1) n
        | mloop.consonants =>
          if !cons z i then m_from z fuel mloop.vowels (i + 1) n
          else m_from z fuel mloop.consonants (i + 1) n := rfl

theorem m_from_fuel (z : stemmer) (fuel : Nat) (ph : mloop) (i : Nat) (n : Int)
    (h : z.j + 1 - i < fuel) : m_from z (fuel + 1) ph i n = m_from z fuel ph i n := by
  induction fuel generalizing ph i n with
  | zero =>
    rw [m_from_past z 1 ph i n (by push_cast at h; omega)]
    rfl
  | succ f ih =>
    conv_lhs => rw [m_from_succ]
    conv_rhs => rw [m_from_succ]
    by_cases hi : (i : Int) > z.j
    · simp only [hi, if_true]
    · simp only [hi, if_false]
      have e : ∀ (q : mloop) (a : Int), m_from z (f + 1) q (i + 1) a = m_from z f q (i + 1) a :=
        fun q a => ih q (i + 1) a (by push_cast at h ⊢; omega)
      cases ph <;> simp only [e]

theorem m_fuel (z : stemmer) (fuel : Nat) (h : (z.j + 2).toNat ≤ fuel) :
    m_from z fuel mloop.lead 0 0 = m z := by
  induction fuel, h using Nat.le_induction with
  | base => rfl
  | succ f hf ih =>
    rw [← ih]
    exact m_from_fuel z f _ _ _ (by push_cast; omega)

theorem vowelinstem_from_succ (z : stemmer) (fuel i : Nat) :
    vowelinstem_from z (fuel + 1) i =
      if (i : Int) ≤ z.j then
        if !cons z i then true else vowelinstem_from z fuel (i + 1)
      else false := rfl

theorem vowelinstem_from_fuel (z : stemmer) (fuel i : Nat) (h : z.j - i < fuel) :
    vowelinstem_from z (fuel + 1) i = vowelinstem_from z fuel i := by
  induction fuel generalizing i with
  | zero =>
    rw [vowelinstem_from_succ]
    simp only [show ¬ (i : Int) ≤ z.j by push_cast at h; omega, if_false]
    rfl
  | succ f ih =>
    conv_lhs => rw [vowelinstem_from_succ]
    conv_rhs => rw [vowelinstem_from_succ]
    by_cases hi : (i : Int) ≤ z.j
    · simp only [hi, if_true]
      rw [ih (i + 1) (by push_cast at h ⊢; omega)]
    · simp only [hi, if_false]

theorem vowelinstem_fuel (z : stemmer) (fuel : Nat) (h : (z.j + 1).toNat ≤ fuel) :
    vowelinstem_from z fuel 0 = vowelinstem z := by
  induction fuel, h using Nat.le_induction with
  | base => rfl
  | succ f hf ih =>
    rw [← ih]
    exact vowelinstem_from_fuel z f _ (by push_cast; omega)

theorem doublec_congr (z1 z2 : stemmer) (i : Int)
    (h : ∀ a : Int, 0 ≤ a → a ≤ i → z1.p a = z2.p a) : doublec z1 i = doublec z2 i := by
  unfold doublec
  by_cases hi : i < 1
  · simp [hi]
  · have hc : cons z1 i.toNat = cons z2 i.toNat :=
      cons_congr z1 z2 _ (fun a ha => h a (by omega) (by omega))
    simp only [hi, if_false, h i (by omega) (le_refl _), h (i - 1) (by omega) (by omega), hc]

theorem cvc_congr (z1 z2 : stemmer) (i : Int)
    (h : ∀ a : Int, 0 ≤ a → a ≤ i → z1.p a = z2.p a) : cvc z1 i = cvc z2 i := by
  unfold cvc
  by_cases hi : i < 2
  · simp [hi]
  · have hc0 : cons z1 i.toNat = cons z2 i.toNat :=
      cons_congr z1 z2 _ (fun a ha => h a (by omega) (by omega))
    have hc1 : cons z1 (i - 1).toNat = cons z2 (i - 1).toNat :=
      cons_congr z1 z2 _ (fun a ha => h a (by omega) (by omega))
    have hc2 : cons z1 (i - 2).toNat = cons z2 (i - 2).toNat :=
      cons_congr z1 z2 _ (fun a ha => h a (by omega) (by omega))
    simp only [hc0, hc1, hc2, h i (by omega) (le_refl _)]

/-! ## `ends`, `setto`, `r` and the rule lines -/

theorem ends_k (z : stemmer) (s : List Char) : (ends z s).2.k = z.k := by
  unfold ends; split_ifs <;> rfl

theorem ends_p (z : stemmer) (s : List Char) : (ends z s).2.p = z.p := by
  unfold ends; split_ifs <;> rfl

theorem ends_irregulars (z : stemmer) (s : List Char) :
    (ends z s).2.irregulars = z.irregulars := by
  unfold ends; split_ifs <;> rfl

theorem ends_p_size (z : stemmer) (s : List Char) : (ends z s).2.p_size = z.p_size := by
  unfold ends; split_ifs <;> rfl

theorem ends_false (z : stemmer) (s : List Char) (h : (ends z s).1 = false) :
    (ends z s).2 = z := by
  unfold ends at h ⊢
  by_cases h1 : (s.length : Int) > z.k + 1
  · simp [h1]
  · by_cases h2 : (!memeq z.p (z.k - s.length + 1) s) = true
    · simp [h1, h2]
    · simp [h1, h2] at h

theorem ends_true (z : stemmer) (s : List Char) (h : (ends z s).1 = true) :
    (ends z s).2 = { z with j := z.k - s.length } ∧ (s.length : Int) ≤ z.k + 1 := by
  unfold ends at h ⊢
  by_cases h1 : (s.length : Int) > z.k + 1
  · simp [h1] at h
  · by_cases h2 : (!memeq z.p (z.k - s.length + 1) s) = true
    · simp [h1, h2] at h
    · simp only [h1, h2, if_false]
      exact ⟨rfl, by omega⟩

theorem ends_short (z : stemmer) (s : List Char) (h : z.k + 1 < s.length) :
    ends z s = (false, z) := by
  unfold ends; simp [h]

theorem ends_fst_congr {L : Char → Prop} {N : Int} {z1 z2 : stemmer} (h : Rel L N z1 z2)
    (s : List Char) : (ends z1 s).1 = (ends z2 s).1 := by
  obtain ⟨hk, h0, hN, hp⟩ := h
  unfold ends
  rw [← hk]
  by_cases hs : (s.length : Int) > z1.k + 1
  · simp [hs]
  · have : memeq z1.p (z1.k - s.length + 1) s = memeq z2.p (z1.k - s.length + 1) s :=
      memeq_congr s _ _ _ (fun i h1 h2 => (hp i (by omega) (by omega)).1)
    simp only [hs, if_false, this]
    split_ifs <;> rfl

theorem ends_rel {L : Char → Prop} {N : Int} {z1 z2 : stemmer} (h : Rel L N z1 z2)
    (s : List Char) : Rel L N (ends z1 s).2 (ends z2 s).2 := by
  unfold Rel
  simp only [ends_k, ends_p]
  exact h

theorem setto_rel {L : Char → Prop} {N : Int} {z1 z2 : stemmer} (h : Rel L N z1 z2)
    (t : List Char) (hj : z1.j = z2.j) (h0 : 0 ≤ z1.j + t.length) (hN : z1.j + t.length ≤ N)
    (hL : ∀ c ∈ t, L c) : Rel L N (setto z1 t) (setto z2 t) := by
  obtain ⟨hk, hk0, hkN, hp⟩ := h
  refine ⟨by simp [setto, hj], h0, hN, fun i hi0 hiN => ?_⟩
  simp only [setto, ← hj]
  refine ⟨memmove_congr t _ _ _ i (hp i hi0 hiN).1, ?_⟩
  by_cases h1 : i < z1.j + 1
  · rw [memmove_below _ _ _ _ h1]; exact (hp i hi0 hiN).2
  · by_cases h2 : z1.j + 1 + t.length ≤ i
    · rw [memmove_above _ _ _ _ h2]; exact (hp i hi0 hiN).2
    · exact hL _ (memmove_mem t _ _ _ (by omega) (by omega))

theorem lits_ok {L : Char → Prop} (hlow : ∀ c : Char, c.isLower = true → L c) (t : List Char)
    (ht : t.all Char.isLower = true) : ∀ c ∈ t, L c := by
  intro c hc
  exact hlow c (List.all_eq_true.mp ht c hc)

theorem r_rel {L : Char → Prop} {N : Int} {z1 z2 : stemmer} (h : Rel L N z1 z2)
    (t : List Char) (hj : z1.j = z2.j) (hjk : z1.j + t.length ≤ z1.k)
    (hL : ∀ c ∈ t, L c) : Rel L N (r z1 t) (r z2 t) := by
  have hm : m z1 = m z2 :=
    m_congr z1 z2 hj (fun i h1 h2 => (h.2.2.2 i h1 (by have := h.2.2.1; omega)).1)
  unfold r
  rw [← hm]
  by_cases hpos : m z1 > 0
  · simp only [hpos, if_true]
    have := m_pos_j z1 hpos
    exact setto_rel h t hj (by omega) (by have := h.2.2.1; omega) hL
  · simp only [hpos, if_false]; exact h

theorem rule_rel {L : Char → Prop} {N : Int} (hlow : ∀ c : Char, c.isLower = true → L c)
    (s t : List Char) (ht : t.all Char.isLower = true) (hlen : t.length ≤ s.length)
    (rest : stemmer → stemmer)
    (hrest : ∀ a b, Rel L N a b → Rel L N (rest a) (rest b))
    {z1 z2 : stemmer} (h : Rel L N z1 z2) :
    Rel L N (rule z1 s t rest) (rule z2 s t rest) := by
  have hb := ends_fst_congr h s
  unfold rule
  simp only [← hb]
  by_cases he : (ends z1 s).1 = true
  · simp only [he, if_true]
    have e1 := ends_true z1 s he
    have e2 := ends_true z2 s (hb ▸ he)
    apply r_rel (ends_rel h s) t
    · rw [e1.1, e2.1]; simp [h.1]
    · rw [e1.1]; simp; omega
    · exact lits_ok hlow t ht
  · simp only [he]
    exact hrest _ _ (ends_rel h s)

theorem step_4_strip_rel {L : Char → Prop} {N : Int} {z1 z2 : stemmer} (h : Rel L N z1 z2)
    (hj : z1.j = z2.j) (hjk : z1.j ≤ z1.k) :
    Rel L N (step_4_strip z1) (step_4_strip z2) := by
  have hm : m z1 = m z2 :=
    m_congr z1 z2 hj (fun i h1 h2 => (h.2.2.2 i h1 (by have := h.2.2.1; omega)).1)
  unfold step_4_strip
  rw [← hm]
  by_cases hpos : m z1 > 1
  · simp only [hpos, if_true]
    have := m_pos_j z1 (by omega)
    exact ⟨hj, by simp; omega, by have := h.2.2.1; simp; omega, h.2.2.2⟩
  · simp only [hpos, if_false]; exact h

theorem rule4_rel {L : Char → Prop} {N : Int} (s : List Char)
    (rest : stemmer → stemmer)
    (hrest : ∀ a b, Rel L N a b → Rel L N (rest a) (rest b))
    {z1 z2 : stemmer} (h : Rel L N z1 z2) :
    Rel L N (rule4 z1 s rest) (rule4 z2 s rest) := by
  have hb := ends_fst_congr h s
  unfold rule4
  simp only [← hb]
  by_cases he : (ends z1 s).1 = true
  · simp only [he, if_true]
    have e1 := ends_true z1 s he
    have e2 := ends_true z2 s (hb ▸ he)
    apply step_4_strip_rel (ends_rel h s)
    · rw [e1.1, e2.1]; simp [h.1]
    · rw [e1.1]; simp
  · simp only [he]
    exact hrest _ _ (ends_rel h s)

theorem id_rel {L : Char → Prop} {N : Int} :
    ∀ a b, Rel L N a b → Rel L N (id a) (id b) := fun _ _ h => h

theorem Rel.ite_rel {L : Char → Prop} {N : Int} {c : Prop} [Decidable c] {a1 a2 b1 b2 : stemmer}
    (h1 : Rel L N a1 b1) (h2 : Rel L N a2 b2) :
    Rel L N (if c then a1 else a2) (if c then b1 else b2) := by
  by_cases hc : c
  · simp only [hc, if_true]; exact h1
  · simp only [hc, if_false]; exact h2

/-! ## The stages, run on two related states -/

theorem rule_short (z : stemmer) (s t : List Char) (rest : stemmer → stemmer)
    (h : z.k + 1 < s.length) : rule z s t rest = rest z := by
  unfold rule; rw [ends_short z s h]; rfl

theorem step_2_short (z : stemmer) (hk : z.k = 0) : step_2 z = z := by
  unfold step_2
  simp only []
  repeat rw [rule_short _ _ _ _ (by rw [hk]; decide)]
  simp only [id_eq, ite_self]

theorem step_2_rel {L : Char → Prop} {N : Int} (hlow : ∀ c : Char, c.isLower = true → L c)
    {z1 z2 : stemmer} (h : Rel L N z1 z2) : Rel L N (step_2 z1) (step_2 z2) := by
  by_cases hk : z1.k = 0
  · rw [step_2_short z1 hk, step_2_short z2 (h.1 ▸ hk)]; exact h
  · have hch : z2.p (z2.k - 1) = z1.p (z1.k - 1) := by
      rw [← h.1]
      exact (h.2.2.2 (z1.k - 1) (by have := h.2.1; omega) (by have := h.2.2.1; omega)).1.symm
    unfold step_2
    simp only [hch]
    repeat (first
      | refine rule_rel hlow _ _ (by decide) (by decide) _ ?_ h
      | intro a b h
      | exact id_rel
      | exact h
      | refine Rel.ite_rel ?_ ?_)

theorem step_3_rel {L : Char → Prop} {N : Int} (hlow : ∀ c : Char, c.isLower = true → L c)
    {z1 z2 : stemmer} (h : Rel L N z1 z2) : Rel L N (step_3 z1) (step_3 z2) := by
  have hch : z2.p z2.k = z1.p z1.k := by
    rw [← h.1]
    exact (h.2.2.2 z1.k h.2.1 h.2.2.1).1.symm
  unfold step_3
  simp only [hch]
  repeat (first
    | refine rule_rel hlow _ _ (by decide) (by decide) _ ?_ h
    | intro a b h
    | exact id_rel
    | exact h
    | refine Rel.ite_rel ?_ ?_)

theorem Rel.of_same {L : Char → Prop} {N : Int} {z1 z2 a b : stemmer} (h : Rel L N z1 z2)
    (ha : Same z1 a) (hb : Same z2 b) : Rel L N a b := by
  unfold Rel
  rw [ha.1, ha.2, hb.1, hb.2]
  exact h

theorem Same.ite_same {z : stemmer} {c : Prop} [Decidable c] {a b : stemmer}
    (h1 : Same z a) (h2 : Same z b) : Same z (if c then a else b) := by
  by_cases hc : c
  · simp only [hc, if_true]; exact h1
  · simp only [hc, if_false]; exact h2

theorem step_4_strip_small (z : stemmer) (h : z.j ≤ 0) : step_4_strip z = z := by
  unfold step_4_strip
  rw [m_of_j_le_zero z h]
  simp

theorem rule4_small (z0 z : stemmer) (s : List Char) (rest : stemmer → stemmer)
    (hk : z0.k ≤ 2) (hs : 2 ≤ s.length)
    (hrest : ∀ a, Same z0 a → Same z0 (rest a)) (h : Same z0 z) :
    Same z0 (rule4 z s rest) := by
  unfold rule4
  by_cases he : (ends z s).1 = true
  · simp only [he, if_true]
    have e1 := ends_true z s he
    rw [step_4_strip_small]
    · exact ⟨by rw [ends_k]; exact h.1, by rw [ends_p]; exact h.2⟩
    · rw [e1.1]
      have := h.1
      simp only
      omega
  · simp only [he]
    exact hrest _ ⟨by rw [ends_k]; exact h.1, by rw [ends_p]; exact h.2⟩

theorem id_same (z0 : stemmer) : ∀ a, Same z0 a → Same z0 (id a) := fun _ h => h

theorem step_4_o_small (z : stemmer) (hk : z.k ≤ 2) : Same z (step_4_o z) := by
  have hs : Same z (ends z "ion".toList).2 := ⟨by rw [ends_k], by rw [ends_p]⟩
  unfold step_4_o
  simp only []
  by_cases he : (ends z "ion".toList).1 = true
  · have e1 := ends_true z _ he
    have hj : (ends z "ion".toList).2.j ≤ 0 := by
      rw [e1.1]
      have : (("ion".toList.length : Nat) : Int) = 3 := by decide
      simp only
      omega
    split_ifs
    · rw [step_4_strip_small _ hj]; exact hs
    · exact rule4_small z _ _ _ hk (by decide) (id_same z) hs
  · simp only [he, Bool.false_and, Bool.false_eq_true, if_false]
    exact rule4_small z _ _ _ hk (by decide) (id_same z) hs

theorem step_4_small (z : stemmer) (hk : z.k ≤ 2) : Same z (step_4 z) := by
  have h : Same z z := ⟨rfl, rfl⟩
  unfold step_4
  simp only []
  repeat (first
    | exact step_4_o_small z hk
    | refine rule4_small z _ _ _ hk (by decide) ?_ h
    | exact h
    | exact id_same z
    | intro a h
    | refine Same.ite_same ?_ ?_)

theorem step_4_o_rel {L : Char → Prop} {N : Int} {z1 z2 : stemmer} (h : Rel L N z1 z2) :
    Rel L N (step_4_o z1) (step_4_o z2) := by
  by_cases hk : z1.k ≤ 2
  · exact h.of_same (step_4_o_small z1 hk) (step_4_o_small z2 (h.1 ▸ hk))
  · have hb := ends_fst_congr h "ion".toList
    have hr := ends_rel h "ion".toList
    unfold step_4_o
    simp only [← hb]
    by_cases he : (ends z1 "ion".toList).1 = true
    · have e1 := ends_true z1 _ he
      have e2 := ends_true z2 _ (hb ▸ he)
      have h3 : (("ion".toList.length : Nat) : Int) = 3 := by decide
      have hj1 : (ends z1 "ion".toList).2.j = z1.k - 3 := by rw [e1.1, h3]
      have hj2 : (ends z2 "ion".toList).2.j = z1.k - 3 := by rw [e2.1, h3, h.1]
      have hp : (ends z2 "ion".toList).2.p (z1.k - 3) = (ends z1 "ion".toList).2.p (z1.k - 3) := by
        rw [ends_p, ends_p]
        exact (h.2.2.2 _ (by omega) (by have := h.2.2.1; omega)).1.symm
      simp only [hj1, hj2, hp]
      split_ifs
      · exact step_4_strip_rel hr (by rw [hj1, hj2]) (by rw [hj1, ends_k]; omega)
      · exact rule4_rel _ _ id_rel hr
    · simp only [he, Bool.false_and, Bool.false_eq_true, if_false]
      exact rule4_rel _ _ id_rel hr

theorem step_4_rel {L : Char → Prop} {N : Int} {z1 z2 : stemmer} (h : Rel L N z1 z2) :
    Rel L N (step_4 z1) (step_4 z2) := by
  by_cases hk : z1.k ≤ 2
  · exact h.of_same (step_4_small z1 hk) (step_4_small z2 (h.1 ▸ hk))
  · have hch : z2.p (z2.k - 1) = z1.p (z1.k - 1) := by
      rw [← h.1]
      exact (h.2.2.2 (z1.k - 1) (by omega) (by have := h.2.2.1; omega)).1.symm
    unfold step_4
    simp only [hch]
    repeat (first
      | exact step_4_o_rel h
      | refine rule4_rel _ _ ?_ h
      | intro a b h
      | exact id_rel
      | exact h
      | refine Rel.ite_rel ?_ ?_)

theorem Rel.set_k {L : Char → Prop} {N : Int} {z1 z2 a b : stemmer} (h : Rel L N z1 z2)
    (ha : a.p = z1.p) (hb : b.p = z2.p) (hk : a.k = b.k) (h0 : 0 ≤ a.k) (hN : a.k ≤ N) :
    Rel L N a b := by
  unfold Rel
  rw [ha, hb]
  exact ⟨hk, h0, hN, h.2.2.2⟩

theorem Rel.agree {L : Char → Prop} {N : Int} {z1 z2 : stemmer} (h : Rel L N z1 z2)
    (i : Int) (h0 : 0 ≤ i) (hi : i ≤ z1.k) : z1.p i = z2.p i :=
  (h.2.2.2 i h0 (le_trans hi h.2.2.1)).1

theorem doublec_pos (z : stemmer) (i : Int) (h : doublec z i = true) : 1 ≤ i := by
  by_contra hc
  unfold doublec at h
  simp [show i < 1 by omega] at h

theorem step_1c_rel {L : Char → Prop} {N : Int} (hlow : ∀ c : Char, c.isLower = true → L c)
    {z1 z2 : stemmer} (h : Rel L N z1 z2) : Rel L N (step_1c z1) (step_1c z2) := by
  have hb := ends_fst_congr h "y".toList
  have hr := ends_rel h "y".toList
  unfold step_1c
  simp only [← hb]
  by_cases he : (ends z1 "y".toList).1 = true
  · have e1 := ends_true z1 _ he
    have e2 := ends_true z2 _ (hb ▸ he)
    have hj : (ends z2 "y".toList).2.j = (ends z1 "y".toList).2.j := by
      rw [e1.1, e2.1]; simp [h.1]
    have hc : cons (ends z2 "y".toList).2 ((ends z2 "y".toList).2.k - 1).toNat
        = cons (ends z1 "y".toList).2 ((ends z1 "y".toList).2.k - 1).toNat := by
      rw [ends_k, ends_k, ← h.1]
      refine (cons_congr _ _ _ (fun n hn => ?_))
      rw [ends_p, ends_p]
      have := h.2.1
      exact (h.agree n (by omega) (by omega)).symm
    simp only [hj, hc]
    refine Rel.ite_rel ?_ hr
    obtain ⟨hk, hk0, hkN, hp⟩ := hr
    refine ⟨hk, hk0, hkN, fun i hi0 hiN => ?_⟩
    simp only []
    rw [← hk]
    by_cases hik : i = (ends z1 "y".toList).2.k
    · subst hik
      simp only [Function.update_same, true_and]
      exact hlow 'i' (by decide)
    · simp only [Function.update_noteq hik]
      exact hp i hi0 hiN
  · simp only [he, Bool.false_and, Bool.false_eq_true, if_false]
    exact hr

theorem step_5_e_rel {L : Char → Prop} {N : Int} {z1 z2 : stemmer} (h : Rel L N z1 z2)
    (hj1 : z1.j = z1.k) (hj2 : z2.j = z2.k) :
    Rel L N (step_5_e z1) (step_5_e z2) ∧ (step_5_e z1).j = z1.k ∧ (step_5_e z2).j = z1.k
      ∧ (step_5_e z1).k ≤ z1.k := by
  have hm : m z2 = m z1 :=
    (m_congr z1 z2 (by rw [hj1, hj2, h.1]) (fun i h1 h2 => h.agree i h1 (by omega))).symm
  have hp : z2.p z2.k = z1.p z1.k := by rw [← h.1]; exact (h.agree _ h.2.1 (le_refl _)).symm
  unfold step_5_e
  simp only [hm, hp]
  by_cases he : z1.p z1.k = 'e'
  · simp only [he, if_true]
    by_cases h1 : z1.k < 1
    · have hm0 : m z1 = 0 := m_of_j_le_zero z1 (by omega)
      have hf : ∀ b : Bool, (decide (m z1 > 1) || (m z1 == 1 && b)) = false := by
        intro b; rw [hm0]; rfl
      simp only [hf, Bool.false_eq_true, if_false]
      exact ⟨h, hj1, by rw [hj2, h.1], le_refl _⟩
    · have hc : cvc z2 (z2.k - 1) = cvc z1 (z1.k - 1) := by
        rw [← h.1]
        exact (cvc_congr z1 z2 _ (fun a h1 h2 => h.agree a h1 (by omega))).symm
      simp only [hc]
      split_ifs
      · exact ⟨h.set_k rfl rfl (by simp [h.1]) (by simp; omega)
          (by have := h.2.2.1; simp; omega), hj1, by simp [hj2, h.1], by simp⟩
      · exact ⟨h, hj1, by rw [hj2, h.1], le_refl _⟩
  · simp only [he, if_false]
    exact ⟨h, hj1, by rw [hj2, h.1], le_refl _⟩

theorem step_5_l_rel {L : Char → Prop} {N : Int} {z1 z2 : stemmer} (h : Rel L N z1 z2)
    (hj : z1.j = z2.j) (hjN : z1.j ≤ N) :
    Rel L N (step_5_l z1) (step_5_l z2) := by
  have hm : m z2 = m z1 :=
    (m_congr z1 z2 hj (fun i h1 h2 => (h.2.2.2 i h1 (by omega)).1)).symm
  have hp : z2.p z2.k = z1.p z1.k := by rw [← h.1]; exact (h.agree _ h.2.1 (le_refl _)).symm
  have hd : doublec z2 z2.k = doublec z1 z1.k := by
    rw [← h.1]
    exact (doublec_congr z1 z2 _ (fun a h1 h2 => h.agree a h1 h2)).symm
  unfold step_5_l
  simp only [hm, hp, hd]
  by_cases hdd : doublec z1 z1.k = true
  · have := doublec_pos _ _ hdd
    refine Rel.ite_rel ?_ h
    exact h.set_k rfl rfl (by simp [h.1]) (by simp; omega) (by have := h.2.2.1; simp; omega)
  · simp only [hdd, Bool.and_false, Bool.false_and, Bool.false_eq_true, if_false]
    exact h

theorem step_5_rel {L : Char → Prop} {N : Int} {z1 z2 : stemmer} (h : Rel L N z1 z2) :
    Rel L N (step_5 z1) (step_5 z2) := by
  unfold step_5
  have h0 : Rel L N { z1 with j := z1.k } { z2 with j := z2.k } := h
  obtain ⟨ha, hb, hc, _⟩ := step_5_e_rel h0 rfl rfl
  exact step_5_l_rel ha (by rw [hb, hc]) (by rw [hb]; exact h.2.2.1)

theorem step_1ab_s_rel {L : Char → Prop} {N : Int} {z1 z2 : stemmer} (h : Rel L N z1 z2)
    (hk1 : 1 ≤ z1.k) : Rel L N (step_1ab_s z1) (step_1ab_s z2) := by
  have hkN := h.2.2.1
  have hp : z2.p z2.k = z1.p z1.k := by rw [← h.1]; exact (h.agree _ h.2.1 (le_refl _)).symm
  have hp1 : z2.p (z2.k - 1) = z1.p (z1.k - 1) := by
    rw [← h.1]; exact (h.agree _ (by omega) (by omega)).symm
  have hb1 := ends_fst_congr h "sses".toList
  have hb2 := ends_fst_congr h "ies".toList
  unfold step_1ab_s
  simp only [hp]
  refine Rel.ite_rel ?_ h
  by_cases he : (ends z1 "sses".toList).1 = true
  · have e1 := ends_true z1 _ he
    have e2 := ends_true z2 _ (hb1 ▸ he)
    have hl : (("sses".toList.length : Nat) : Int) = 4 := by decide
    simp only [hb1 ▸ he, he, if_true, e1.1, e2.1]
    exact h.set_k rfl rfl (by simp [h.1]) (by simp; omega) (by simp; omega)
  · have he1 : (ends z1 "sses".toList).1 = false := by simpa using he
    have he2 : (ends z2 "sses".toList).1 = false := by rw [← hb1]; exact he1
    simp only [he1, he2, ends_false _ _ he1, ends_false _ _ he2, Bool.false_eq_true, if_false]
    by_cases hi : (ends z1 "ies".toList).1 = true
    · have e1 := ends_true z1 _ hi
      have e2 := ends_true z2 _ (hb2 ▸ hi)
      have hl : (("ies".toList.length : Nat) : Int) = 3 := by decide
      simp only [hb2 ▸ hi, hi, if_true, e1.1, e2.1, ← h.1]
      refine Rel.ite_rel ?_ ?_
      · exact h.set_k rfl rfl (by simp [h.1]) (by simp; omega) (by simp; omega)
      · exact h.set_k rfl rfl (by simp [h.1]) (by simp; omega) (by simp; omega)
    · have hi1 : (ends z1 "ies".toList).1 = false := by simpa using hi
      have hi2 : (ends z2 "ies".toList).1 = false := by rw [← hb2]; exact hi1
      simp only [hi1, hi2, ends_false _ _ hi1, ends_false _ _ hi2, Bool.false_eq_true, if_false,
        hp1]
      refine Rel.ite_rel ?_ h
      exact h.set_k rfl rfl (by simp [h.1]) (by simp; omega) (by simp; omega)

theorem step_1ab_fix_rel {L : Char → Prop} {N : Int}
    (hlow : ∀ c : Char, c.isLower = true → L c) {z1 z2 : stemmer} (h : Rel L N z1 z2)
    (hj1 : z1.j = z1.k) (hj2 : z2.j = z2.k) (hN : z1.k + 1 ≤ N) :
    Rel L N (step_1ab_fix z1) (step_1ab_fix z2) := by
  have hk0 := h.2.1
  have hk := h.1
  have hb1 := ends_fst_congr h "at".toList
  have hb2 := ends_fst_congr h "bl".toList
  have hb3 := ends_fst_congr h "iz".toList
  have l2a : (("at".toList.length : Nat) : Int) = 2 := by decide
  have l2b : (("bl".toList.length : Nat) : Int) = 2 := by decide
  have l2c : (("iz".toList.length : Nat) : Int) = 2 := by decide
  have l3a : (("ate".toList.length : Nat) : Int) = 3 := by decide
  have l3b : (("ble".toList.length : Nat) : Int) = 3 := by decide
  have l3c : (("ize".toList.length : Nat) : Int) = 3 := by decide
  have l1 : (("e".toList.length : Nat) : Int) = 1 := by decide
  unfold step_1ab_fix
  by_cases he : (ends z1 "at".toList).1 = true
  · have e1 := ends_true z1 _ he
    have e2 := ends_true z2 _ (hb1 ▸ he)
    simp only [hb1 ▸ he, he, if_true, e1.1, e2.1]
    have hr : Rel L N { z1 with j := z1.k - ("at".toList.length : Nat) }
        { z2 with j := z2.k - ("at".toList.length : Nat) } := h
    exact setto_rel hr _ (by simp only [hk]) (by simp only [l2a, l2b, l2c, l3a, l3b, l3c]; omega)
      (by simp only [l2a, l2b, l2c, l3a, l3b, l3c]; omega) (lits_ok hlow _ (by decide))
  · have he1 : (ends z1 "at".toList).1 = false := by simpa using he
    have he2 : (ends z2 "at".toList).1 = false := by rw [← hb1]; exact he1
    simp only [he1, he2, ends_false _ _ he1, ends_false _ _ he2, Bool.false_eq_true, if_false]
    by_cases hi : (ends z1 "bl".toList).1 = true
    · have e1 := ends_true z1 _ hi
      have e2 := ends_true z2 _ (hb2 ▸ hi)
      simp only [hb2 ▸ hi, hi, if_true, e1.1, e2.1]
      have hr : Rel L N { z1 with j := z1.k - ("bl".toList.length : Nat) }
          { z2 with j := z2.k - ("bl".toList.length : Nat) } := h
      exact setto_rel hr _ (by simp only [hk]) (by simp only [l2a, l2b, l2c, l3a, l3b, l3c]; omega)
        (by simp only [l2a, l2b, l2c, l3a, l3b, l3c]; omega) (lits_ok hlow _ (by decide))
    · have hi1 : (ends z1 "bl".toList).1 = false := by simpa using hi
      have hi2 : (ends z2 "bl".toList).1 = false := by rw [← hb2]; exact hi1
      simp only [hi1, hi2, ends_false _ _ hi1, ends_false _ _ hi2, Bool.false_eq_true, if_false]
      by_cases hz : (ends z1 "iz".toList).1 = true
      · have e1 := ends_true z1 _ hz
        have e2 := ends_true z2 _ (hb3 ▸ hz)
        simp only [hb3 ▸ hz, hz, if_true, e1.1, e2.1]
        have hr : Rel L N { z1 with j := z1.k - ("iz".toList.length : Nat) }
            { z2 with j := z2.k - ("iz".toList.length : Nat) } := h
        exact setto_rel hr _ (by simp only [hk])
          (by simp only [l2a, l2b, l2c, l3a, l3b, l3c]; omega)
          (by simp only [l2a, l2b, l2c, l3a, l3b, l3c]; omega) (lits_ok hlow _ (by decide))
      · have hz1 : (ends z1 "iz".toList).1 = false := by simpa using hz
        have hz2 : (ends z2 "iz".toList).1 = false := by rw [← hb3]; exact hz1
        simp only [hz1, hz2, ends_false _ _ hz1, ends_false _ _ hz2, Bool.false_eq_true,
          if_false]
        have hd : doublec z2 z2.k = doublec z1 z1.k := by
          rw [← hk]
          exact (doublec_congr z1 z2 _ (fun a h1 h2 => h.agree a h1 h2)).symm
        have hm : m z2 = m z1 :=
          (m_congr z1 z2 (by rw [hj1, hj2, hk]) (fun i h1 h2 => h.agree i h1 (by omega))).symm
        have hc : cvc z2 z2.k = cvc z1 z1.k := by
          rw [← hk]
          exact (cvc_congr z1 z2 _ (fun a h1 h2 => h.agree a h1 h2)).symm
        simp only [hd, hm, hc]
        by_cases hdd : doublec z1 z1.k = true
        · have hk1 := doublec_pos _ _ hdd
          have hp1 : z2.p (z2.k - 1) = z1.p (z1.k - 1) := by
            rw [← hk]; exact (h.agree _ (by omega) (by omega)).symm
          simp only [hdd, if_true, hp1]
          refine Rel.ite_rel ?_ ?_
          · exact h.set_k rfl rfl (by simp [hk]) (by simp; omega) (by simp; omega)
          · exact h.set_k rfl rfl (by simp [hk]) (by simp; omega) (by simp; omega)
        · simp only [hdd, Bool.false_eq_true, if_false]
          refine Rel.ite_rel ?_ h
          exact setto_rel h _ (by rw [hj1, hj2, hk]) (by rw [hj1]; omega) (by rw [hj1, l1]; omega)
            (lits_ok hlow _ (by decide))

theorem step_1ab_ed_rel {L : Char → Prop} {N : Int}
    (hlow : ∀ c : Char, c.isLower = true → L c) {z1 z2 : stemmer} (h : Rel L N z1 z2) :
    Rel L N (step_1ab_ed z1) (step_1ab_ed z2) := by
  have hk0 := h.2.1
  have hk := h.1
  have hkN := h.2.2.1
  have hb1 := ends_fst_congr h "ied".toList
  have hb2 := ends_fst_congr h "eed".toList
  have hb3 := ends_fst_congr h "ed".toList
  have hb4 := ends_fst_congr h "ing".toList
  have l3a : (("ied".toList.length : Nat) : Int) = 3 := by decide
  have l3b : (("eed".toList.length : Nat) : Int) = 3 := by decide
  have l2 : (("ed".toList.length : Nat) : Int) = 2 := by decide
  have l3c : (("ing".toList.length : Nat) : Int) = 3 := by decide
  unfold step_1ab_ed
  by_cases he : (ends z1 "ied".toList).1 = true
  · have e1 := ends_true z1 _ he
    have e2 := ends_true z2 _ (hb1 ▸ he)
    simp only [hb1 ▸ he, he, if_true, e1.1, e2.1, ← hk]
    refine Rel.ite_rel ?_ ?_
    · exact h.set_k rfl rfl (by simp [hk]) (by simp; omega) (by simp; omega)
    · exact h.set_k rfl rfl (by simp [hk]) (by simp; omega) (by simp; omega)
  · have he1 : (ends z1 "ied".toList).1 = false := by simpa using he
    have he2 : (ends z2 "ied".toList).1 = false := by rw [← hb1]; exact he1
    simp only [he1, he2, ends_false _ _ he1, ends_false _ _ he2, Bool.false_eq_true, if_false]
    by_cases hi : (ends z1 "eed".toList).1 = true
    · have e1 := ends_true z1 _ hi
      have e2 := ends_true z2 _ (hb2 ▸ hi)
      have hr : Rel L N { z1 with j := z1.k - ("eed".toList.length : Nat) }
          { z2 with j := z2.k - ("eed".toList.length : Nat) } := h
      have hm : m { z2 with j := z2.k - ("eed".toList.length : Nat) }
          = m { z1 with j := z1.k - ("eed".toList.length : Nat) } :=
        (m_congr { z1 with j := z1.k - ("eed".toList.length : Nat) }
          { z2 with j := z2.k - ("eed".toList.length : Nat) } (by simp only [hk])
          (fun i h1 h2 => h.agree i h1 (by simp only at h2; omega))).symm
      simp only [hb2 ▸ hi, hi, if_true, e1.1, e2.1, hm]
      refine Rel.ite_rel ?_ hr
      exact h.set_k rfl rfl (by simp [hk]) (by simp; omega) (by simp; omega)
    · have hi1 : (ends z1 "eed".toList).1 = false := by simpa using hi
      have hi2 : (ends z2 "eed".toList).1 = false := by rw [← hb2]; exact hi1
      simp only [hi1, hi2, ends_false _ _ hi1, ends_false _ _ hi2, Bool.false_eq_true, if_false]
      -- the condition `(ends(z, "ed") || ends(z, "ing")) && vowelinstem(z)`
      have key : ∀ s : List Char, (2 : Int) ≤ s.length → (ends z1 s).1 = true →
          Rel L N
            (if vowelinstem (ends z1 s).2 = true then
              step_1ab_fix { (ends z1 s).2 with k := (ends z1 s).2.j } else (ends z1 s).2)
            (if vowelinstem (ends z2 s).2 = true then
              step_1ab_fix { (ends z2 s).2 with k := (ends z2 s).2.j } else (ends z2 s).2) := by
        intro s hs hd
        have hbs := ends_fst_congr h s
        have e1 := ends_true z1 _ hd
        have e2 := ends_true z2 _ (hbs ▸ hd)
        have hr : Rel L N { z1 with j := z1.k - (s.length : Nat) }
            { z2 with j := z2.k - (s.length : Nat) } := h
        have hv : vowelinstem { z2 with j := z2.k - (s.length : Nat) }
            = vowelinstem { z1 with j := z1.k - (s.length : Nat) } :=
          (vowelinstem_congr { z1 with j := z1.k - (s.length : Nat) }
            { z2 with j := z2.k - (s.length : Nat) } (by simp only [hk])
            (fun i h1 h2 => h.agree i h1 (by simp only at h2; omega))).symm
        simp only [e1.1, e2.1, hv]
        by_cases hvv : vowelinstem { z1 with j := z1.k - (s.length : Nat) } = true
        · have hj := vowelinstem_j _ hvv
          simp only at hj
          simp only [hvv, if_true]
          exact step_1ab_fix_rel hlow
            (h.set_k rfl rfl (by simp [hk]) (by simp; omega) (by simp; omega)) rfl rfl
            (by simp; omega)
        · simp only [hvv, Bool.false_eq_true, if_false]
          exact hr
      by_cases hd : (ends z1 "ed".toList).1 = true
      · simp only [hb3 ▸ hd, hd, if_true, Bool.true_and]
        exact key _ (by rw [l2]) hd
      · have hd1 : (ends z1 "ed".toList).1 = false := by simpa using hd
        have hd2 : (ends z2 "ed".toList).1 = false := by rw [← hb3]; exact hd1
        simp only [hd1, hd2, ends_false _ _ hd1, ends_false _ _ hd2, Bool.false_eq_true,
          if_false]
        by_cases hg : (ends z1 "ing".toList).1 = true
        · simp only [hb4 ▸ hg, hg, Bool.true_and]
          exact key _ (by rw [l3c]; omega) hg
        · have hg1 : (ends z1 "ing".toList).1 = false := by simpa using hg
          have hg2 : (ends z2 "ing".toList).1 = false := by rw [← hb4]; exact hg1
          simp only [hg1, hg2, ends_false _ _ hg1, ends_false _ _ hg2, Bool.false_and,
            Bool.false_eq_true, if_false]
          exact h

theorem step_1ab_rel {L : Char → Prop} {N : Int}
    (hlow : ∀ c : Char, c.isLower = true → L c) {z1 z2 : stemmer} (h : Rel L N z1 z2)
    (hk1 : 1 ≤ z1.k) : Rel L N (step_1ab z1) (step_1ab z2) :=
  step_1ab_ed_rel hlow (step_1ab_s_rel h hk1)

/-! ## Loading the word, the pool lookup and the returned C string -/

theorem memmove_inside (s : List Char) (p1 p2 : Int → Char) (off i : Int)
    (h1 : off ≤ i) (h2 : i < off + s.length) : memmove p1 off s i = memmove p2 off s i := by
  induction s generalizing p1 p2 off with
  | nil => simp at h2; omega
  | cons c cs ih =>
    simp only [List.length_cons, Nat.cast_add, Nat.cast_one] at h2
    simp only [memmove]
    by_cases hi : i = off
    · subst hi
      rw [memmove_below _ _ _ _ (by omega), memmove_below _ _ _ _ (by omega)]
      simp
    · exact ih _ _ _ (by omega) (by omega)

theorem c_str_congr (p1 p2 : Int → Char) (fuel : Nat) (off : Int)
    (h : ∀ i : Int, off ≤ i → i < off + fuel → p1 i = p2 i) :
    c_str p1 fuel off = c_str p2 fuel off := by
  induction fuel generalizing off with
  | zero => rfl
  | succ f ih =>
    simp only [Nat.cast_add, Nat.cast_one] at h
    simp only [c_str]
    rw [h off (le_refl _) (by omega), ih (off + 1) (fun i h1 h2 => h i (by omega) (by omega))]

theorem c_str_mem (p : Int → Char) (fuel : Nat) (off : Int) (c : Char)
    (h : c ∈ c_str p fuel off) :
    ∃ i : Int, off ≤ i ∧ i < off + fuel ∧ p i = c ∧ c ≠ Char.ofNat 0 := by
  induction fuel generalizing off with
  | zero => simp [c_str] at h
  | succ f ih =>
    simp only [c_str] at h
    by_cases h0 : p off = Char.ofNat 0
    · simp [h0] at h
    · simp only [h0, if_false, List.mem_cons] at h
      rcases h with h | h
      · exact ⟨off, le_refl _, by push_cast; omega, h.symm, h ▸ h0⟩
      · obtain ⟨i, h1, h2, h3⟩ := ih _ h
        exact ⟨i, by omega, by push_cast; omega, h3⟩

theorem c_str_length (p : Int → Char) (fuel : Nat) (off : Int) (n : Nat) (hn : n < fuel)
    (h : p (off + n) = Char.ofNat 0) : (c_str p fuel off).length ≤ n := by
  induction fuel generalizing off n with
  | zero => omega
  | succ f ih =>
    simp only [c_str]
    by_cases h0 : p off = Char.ofNat 0
    · simp [h0]
    · simp only [h0, if_false, List.length_cons]
      cases n with
      | zero => simp at h; exact absurd h h0
      | succ n' =>
        have := ih (off + 1) n' (by omega) (by rw [← h]; congr 1; push_cast; omega)
        omega

theorem c_str_spec (w : List Char) (p : Int → Char) (off : Int) (fuel : Nat)
    (hw : ∀ c ∈ w, c ≠ Char.ofNat 0) (hp : memeq p off w = true)
    (hz : p (off + w.length) = Char.ofNat 0) (hf : w.length < fuel) :
    c_str p fuel off = w := by
  induction w generalizing off fuel with
  | nil =>
    cases fuel with
    | zero => rfl
    | succ f => simp at hz; simp [c_str, hz]
  | cons c cs ih =>
    cases fuel with
    | zero => simp at hf
    | succ f =>
      simp only [memeq] at hp
      by_cases hc : p off = c
      · simp only [hc, if_true] at hp
        simp only [c_str, hc]
        have hc0 : c ≠ Char.ofNat 0 := hw c (List.mem_cons_self _ _)
        simp only [hc0, if_false]
        congr 1
        refine ih (off + 1) f (fun d hd => hw d (List.mem_cons_of_mem _ hd)) hp ?_ ?_
        · rw [← hz]; congr 1; simp only [List.length_cons]; push_cast; omega
        · simp only [List.length_cons] at hf; omega
      · simp [hc] at hp

theorem memeq_self (w : List Char) (p : Int → Char) (off : Int) :
    memeq (memmove p off w) off w = true := by
  rw [memeq_memmove w w p off rfl]; simp

theorem search_pool_congr (pl : pool) (len : Int) (p1 p2 : Int → Char)
    (h : ∀ i : Int, 0 ≤ i → i < len → p1 i = p2 i) :
    search_pool pl len p1 = search_pool pl len p2 := by
  induction pl with
  | nil => rfl
  | cons e rest ih =>
    simp only [search_pool]
    by_cases hl : (e.1.length : Int) = len
    · have : memeq p1 0 e.1 = memeq p2 0 e.1 :=
        memeq_congr _ _ _ _ (fun i h1 h2 => h i h1 (by omega))
      rw [this, ih]
    · simp [hl, ih]

theorem search_pool_some (pl : pool) (len : Int) (p : Int → Char) (t : List Char)
    (h : search_pool pl len p = some t) :
    ∃ e ∈ pl, e.2 = t ∧ (e.1.length : Int) = len ∧ memeq p 0 e.1 = true := by
  induction pl with
  | nil => simp [search_pool] at h
  | cons e rest ih =>
    simp only [search_pool] at h
    by_cases hc : ((decide ((e.1.length : Int) = len)) && memeq p 0 e.1) = true
    · simp only [hc, if_true, Option.some.injEq] at h
      simp only [Bool.and_eq_true, decide_eq_true_eq] at hc
      exact ⟨e, List.mem_cons_self _ _, h, hc.1, hc.2⟩
    · simp only [hc, if_false] at h
      obtain ⟨e', h1, h2⟩ := ih h
      exact ⟨e', List.mem_cons_of_mem _ h1, h2⟩

theorem search_pool_none (pl : pool) (len : Int) (p : Int → Char)
    (h : ∀ e ∈ pl, (e.1.length : Int) ≠ len) : search_pool pl len p = none := by
  cases hs : search_pool pl len p with
  | none => rfl
  | some t =>
    obtain ⟨e, h1, _, h3, _⟩ := search_pool_some pl len p t hs
    exact absurd h3 (h e h1)

theorem stem_load_k (z : stemmer) (fresh : Int → Char) (w : List Char) :
    (stem_load z fresh w).k = (w.length : Int) - 1 := rfl

theorem stem_load_irregulars (z : stemmer) (fresh : Int → Char) (w : List Char) :
    (stem_load z fresh w).irregulars = z.irregulars := by
  unfold stem_load
  simp only []
  split_ifs <;> rfl

theorem stem_load_p (z : stemmer) (fresh : Int → Char) (w : List Char) :
    ∃ q : Int → Char, (stem_load z fresh w).p = memmove q 0 w := by
  unfold stem_load
  simp only []
  split_ifs
  · exact ⟨fresh, rfl⟩
  · exact ⟨z.p, rfl⟩

theorem stem_load_agree (z1 z2 : stemmer) (f1 f2 : Int → Char) (w : List Char) (i : Int)
    (h0 : 0 ≤ i) (h1 : i < w.length) :
    (stem_load z1 f1 w).p i = (stem_load z2 f2 w).p i ∧ (stem_load z1 f1 w).p i ∈ w := by
  obtain ⟨q1, e1⟩ := stem_load_p z1 f1 w
  obtain ⟨q2, e2⟩ := stem_load_p z2 f2 w
  rw [e1, e2]
  exact ⟨memmove_inside w _ _ 0 i h0 (by omega), memmove_mem w _ 0 i h0 (by omega)⟩

theorem stem_load_rel {L : Char → Prop} (z1 z2 : stemmer) (f1 f2 : Int → Char) (w : List Char)
    (hw : ∀ c ∈ w, L c) (hne : w ≠ []) :
    Rel L ((w.length : Int) - 1) (stem_load z1 f1 w) (stem_load z2 f2 w) := by
  have hlen : 0 < w.length := List.length_pos.mpr hne
  refine ⟨rfl, by rw [stem_load_k]; omega, by rw [stem_load_k], fun i h0 hi => ?_⟩
  have := stem_load_agree z1 z2 f1 f2 w i h0 (by omega)
  exact ⟨this.1, hw _ this.2⟩

theorem stem_steps_rel {L : Char → Prop} {N : Int}
    (hlow : ∀ c : Char, c.isLower = true → L c) {z1 z2 : stemmer} (h : Rel L N z1 z2) :
    Rel L N (stem_steps z1) (stem_steps z2) := by
  unfold stem_steps
  rw [← h.1]
  by_cases hk : z1.k > 1
  · simp only [hk, if_true]
    exact step_5_rel (step_4_rel (step_3_rel hlow (step_2_rel hlow (step_1c_rel hlow
      (step_1ab_rel hlow h (by omega))))))
  · simp only [hk, if_false]; exact h

theorem stem_of_some (z : stemmer) (fresh : Int → Char) (w t : List Char)
    (h : search_pool (stem_load z fresh w).irregulars ((stem_load z fresh w).k + 1)
      (stem_load z fresh w).p = some t) :
    stem z fresh w = (t, stem_load z fresh w) := by
  unfold stem
  simp only [h]

theorem stem_of_none (z : stemmer) (fresh : Int → Char) (w : List Char)
    (h : search_pool (stem_load z fresh w).irregulars ((stem_load z fresh w).k + 1)
      (stem_load z fresh w).p = none) :
    stem z fresh w =
      (c_str (Function.update (stem_steps (stem_load z fresh w)).p
          ((stem_steps (stem_load z fresh w)).k + 1) (Char.ofNat 0))
        ((stem_steps (stem_load z fresh w)).k + 2).toNat 0,
       { stem_steps (stem_load z fresh w) with
          p := Function.update (stem_steps (stem_load z fresh w)).p
            ((stem_steps (stem_load z fresh w)).k + 1) (Char.ofNat 0) }) := by
  unfold stem
  simp only [h]

theorem stem_steps_small (z : stemmer) (h : z.k ≤ 1) : stem_steps z = z := by
  unfold stem_steps
  simp [show ¬ z.k > 1 by omega]

theorem stem_search_congr (z1 z2 : stemmer) (f1 f2 : Int → Char) (w : List Char)
    (hz : z1.irregulars = z2.irregulars) :
    search_pool (stem_load z1 f1 w).irregulars ((stem_load z1 f1 w).k + 1) (stem_load z1 f1 w).p
      = search_pool (stem_load z2 f2 w).irregulars ((stem_load z2 f2 w).k + 1)
          (stem_load z2 f2 w).p := by
  rw [stem_load_irregulars, stem_load_irregulars, stem_load_k, stem_load_k, hz]
  exact search_pool_congr _ _ _ _
    (fun i h0 h1 => (stem_load_agree z1 z2 f1 f2 w i h0 (by omega)).1)

theorem c_str_final_congr {L : Char → Prop} {N : Int} {z1 z2 : stemmer} (h : Rel L N z1 z2) :
    c_str (Function.update z1.p (z1.k + 1) (Char.ofNat 0)) (z1.k + 2).toNat 0
      = c_str (Function.update z2.p (z2.k + 1) (Char.ofNat 0)) (z2.k + 2).toNat 0 := by
  rw [← h.1]
  refine c_str_congr _ _ _ _ (fun i h0 h1 => ?_)
  have hk0 := h.2.1
  by_cases hi : i = z1.k + 1
  · subst hi; simp
  · rw [Function.update_noteq hi, Function.update_noteq hi]
    exact h.agree i h0 (by omega)

theorem stem_fst_indep (z1 z2 : stemmer) (f1 f2 : Int → Char) (w : List Char)
    (hz : z1.irregulars = z2.irregulars) : (stem z1 f1 w).1 = (stem z2 f2 w).1 := by
  have hs := stem_search_congr z1 z2 f1 f2 w hz
  cases hsp : search_pool (stem_load z1 f1 w).irregulars ((stem_load z1 f1 w).k + 1)
      (stem_load z1 f1 w).p with
  | some t => rw [stem_of_some z1 f1 w t hsp, stem_of_some z2 f2 w t (hs ▸ hsp)]
  | none =>
    rw [stem_of_none z1 f1 w hsp, stem_of_none z2 f2 w (hs ▸ hsp)]
    simp only
    by_cases hw : w = []
    · subst hw
      rw [stem_steps_small _ (by rw [stem_load_k]; simp),
        stem_steps_small _ (by rw [stem_load_k]; simp)]
      simp only [stem_load_k]
      rfl
    · exact c_str_final_congr (stem_steps_rel (fun _ _ => trivial)
        (stem_load_rel (L := fun _ => True) z1 z2 f1 f2 w (fun _ _ => trivial) hw))

/-! ## The pool and the capacity are left alone -/

theorem Frame.ite_frame {z : stemmer} {c : Prop} [Decidable c] {a b : stemmer}
    (h1 : Frame z a) (h2 : Frame z b) : Frame z (if c then a else b) := by
  by_cases hc : c
  · simp only [hc, if_true]; exact h1
  · simp only [hc, if_false]; exact h2

theorem Frame.ends {z a : stemmer} (h : Frame z a) (s : List Char) : Frame z (ends a s).2 :=
  ⟨by rw [ends_irregulars]; exact h.1, by rw [ends_p_size]; exact h.2⟩

theorem Frame.setto {z a : stemmer} (h : Frame z a) (t : List Char) : Frame z (setto a t) := h

theorem Frame.r {z a : stemmer} (h : Frame z a) (t : List Char) : Frame z (r a t) := by
  unfold StemEnglish.r
  exact Frame.ite_frame (h.setto t) h

theorem Frame.rule {z a : stemmer} (s t : List Char) (rest : stemmer → stemmer)
    (hrest : ∀ b, Frame z b → Frame z (rest b)) (h : Frame z a) :
    Frame z (rule a s t rest) := by
  unfold StemEnglish.rule
  exact Frame.ite_frame ((h.ends s).r t) (hrest _ (h.ends s))

theorem Frame.strip {z a : stemmer} (h : Frame z a) : Frame z (step_4_strip a) := by
  unfold step_4_strip
  exact Frame.ite_frame h h

theorem Frame.rule4 {z a : stemmer} (s : List Char) (rest : stemmer → stemmer)
    (hrest : ∀ b, Frame z b → Frame z (rest b)) (h : Frame z a) :
    Frame z (rule4 a s rest) := by
  unfold StemEnglish.rule4
  exact Frame.ite_frame (h.ends s).strip (hrest _ (h.ends s))

theorem Frame.id (z : stemmer) : ∀ b, Frame z b → Frame z (id b) := fun _ h => h

theorem Frame.step_1ab_s {z a : stemmer} (h : Frame z a) : Frame z (step_1ab_s a) := by
  unfold StemEnglish.step_1ab_s
  refine Frame.ite_frame (Frame.ite_frame ?_ (Frame.ite_frame (Frame.ite_frame ?_ ?_) (Frame.ite_frame ?_ ?_))) h
  · exact h.ends _
  · exact (h.ends _).ends _
  · exact (h.ends _).ends _
  · exact (h.ends _).ends _
  · exact (h.ends _).ends _

theorem Frame.step_1ab_fix {z a : stemmer} (h : Frame z a) : Frame z (step_1ab_fix a) := by
  unfold StemEnglish.step_1ab_fix
  refine Frame.ite_frame ?_ (Frame.ite_frame ?_ (Frame.ite_frame ?_ (Frame.ite_frame (Frame.ite_frame ?_ ?_) (Frame.ite_frame ?_ ?_))))
  · exact (h.ends _).setto _
  · exact ((h.ends _).ends _).setto _
  · exact (((h.ends _).ends _).ends _).setto _
  · exact ((h.ends _).ends _).ends _
  · exact ((h.ends _).ends _).ends _
  · exact (((h.ends _).ends _).ends _).setto _
  · exact ((h.ends _).ends _).ends _

theorem Frame.step_1ab_ed {z a : stemmer} (h : Frame z a) : Frame z (step_1ab_ed a) := by
  unfold StemEnglish.step_1ab_ed
  have key : ∀ b : stemmer, Frame z b →
      Frame z (if (StemEnglish.ends b "ed".toList).1 = true then StemEnglish.ends b "ed".toList
        else StemEnglish.ends (StemEnglish.ends b "ed".toList).2 "ing".toList).2 := by
    intro b hb
    split_ifs
    · exact hb.ends _
    · exact (hb.ends _).ends _
  have key := key _ ((h.ends "ied".toList).ends "eed".toList)
  refine Frame.ite_frame (Frame.ite_frame ?_ ?_) (Frame.ite_frame (Frame.ite_frame ?_ ?_) (Frame.ite_frame ?_ ?_))
  · exact h.ends _
  · exact h.ends _
  · exact (h.ends _).ends _
  · exact (h.ends _).ends _
  · exact Frame.step_1ab_fix key
  · exact key

theorem Frame.step_1ab {z a : stemmer} (h : Frame z a) : Frame z (step_1ab a) :=
  h.step_1ab_s.step_1ab_ed

theorem Frame.step_1c {z a : stemmer} (h : Frame z a) : Frame z (step_1c a) := by
  unfold StemEnglish.step_1c
  exact Frame.ite_frame (h.ends _) (h.ends _)

theorem Frame.step_2 {z a : stemmer} (h : Frame z a) : Frame z (step_2 a) := by
  unfold StemEnglish.step_2
  repeat (first
    | refine Frame.rule _ _ _ ?_ h
    | intro b h
    | exact Frame.id z
    | exact h
    | refine Frame.ite_frame ?_ ?_)

theorem Frame.step_3 {z a : stemmer} (h : Frame z a) : Frame z (step_3 a) := by
  unfold StemEnglish.step_3
  repeat (first
    | refine Frame.rule _ _ _ ?_ h
    | intro b h
    | exact Frame.id z
    | exact h
    | refine Frame.ite_frame ?_ ?_)

theorem Frame.step_4_o {z a : stemmer} (h : Frame z a) : Frame z (step_4_o a) := by
  unfold StemEnglish.step_4_o
  exact Frame.ite_frame (h.ends _).strip (Frame.rule4 _ _ (Frame.id z) (h.ends _))

theorem Frame.step_4 {z a : stemmer} (h : Frame z a) : Frame z (step_4 a) := by
  unfold StemEnglish.step_4
  repeat (first
    | exact h.step_4_o
    | refine Frame.rule4 _ _ ?_ h
    | intro b h
    | exact Frame.id z
    | exact h
    | refine Frame.ite_frame ?_ ?_)

theorem Frame.step_5 {z a : stemmer} (h : Frame z a) : Frame z (step_5 a) := by
  unfold StemEnglish.step_5 step_5_l step_5_e
  refine Frame.ite_frame ?_ (Frame.ite_frame (Frame.ite_frame ?_ ?_) ?_) <;>
    first
      | exact h
      | exact Frame.ite_frame (Frame.ite_frame h h) h

theorem Frame.stem_steps {z a : stemmer} (h : Frame z a) : Frame z (stem_steps a) := by
  unfold StemEnglish.stem_steps
  exact Frame.ite_frame h.step_1ab.step_1c.step_2.step_3.step_4.step_5 h

theorem stem_irregulars (z : stemmer) (fresh : Int → Char) (w : List Char) :
    (stem z fresh w).2.irregulars = z.irregulars := by
  have hl : Frame (stem_load z fresh w) (stem_load z fresh w) := ⟨rfl, rfl⟩
  cases hsp : search_pool (stem_load z fresh w).irregulars ((stem_load z fresh w).k + 1)
      (stem_load z fresh w).p with
  | some t => rw [stem_of_some z fresh w t hsp]; exact stem_load_irregulars z fresh w
  | none =>
    rw [stem_of_none z fresh w hsp]
    exact hl.stem_steps.1.trans (stem_load_irregulars z fresh w)

/-! ## Results about `stem` -/

theorem isLower_ne_nul (c : Char) (h : c.isLower = true) : c ≠ Char.ofNat 0 := by
  intro hc
  rw [hc] at h
  exact absurd h (by decide)

theorem stem_fst_of_setup (z : stemmer) (fresh : Int → Char) (w t : List Char)
    (hz : z.irregulars = create_pool irregular_forms)
    (h : (stem setup_stemmer setup_stemmer.p w).1 = t) : (stem z fresh w).1 = t := by
  rw [stem_fst_indep z setup_stemmer fresh setup_stemmer.p w hz]
  exact h

theorem stem_length_le (z : stemmer) (fresh : Int → Char) (w : List Char)
    (hz : z.irregulars = create_pool irregular_forms) :
    (stem z fresh w).1.length ≤ w.length := by
  cases hsp : search_pool (stem_load z fresh w).irregulars ((stem_load z fresh w).k + 1)
      (stem_load z fresh w).p with
  | some t =>
    rw [stem_of_some z fresh w t hsp]
    obtain ⟨e, he, h1, h2, _⟩ := search_pool_some _ _ _ _ hsp
    rw [stem_load_irregulars, hz] at he
    rw [stem_load_k] at h2
    have hpool : ∀ e ∈ create_pool irregular_forms, e.2.length ≤ e.1.length := by decide
    have := hpool e he
    simp only [← h1]
    omega
  | none =>
    rw [stem_of_none z fresh w hsp]
    simp only
    by_cases hw : w = []
    · subst hw
      rw [stem_steps_small _ (by rw [stem_load_k]; simp)]
      exact c_str_length _ _ 0 0 (by rw [stem_load_k]; simp) (by rw [stem_load_k]; simp)
    · have hr := stem_steps_rel (L := fun _ => True) (fun _ _ => trivial)
        (stem_load_rel (L := fun _ => True) z z fresh fresh w (fun _ _ => trivial) hw)
      have h0 := hr.2.1
      have hN := hr.2.2.1
      have := c_str_length
        (Function.update (stem_steps (stem_load z fresh w)).p
          ((stem_steps (stem_load z fresh w)).k + 1) (Char.ofNat 0))
        ((stem_steps (stem_load z fresh w)).k + 2).toNat 0
        ((stem_steps (stem_load z fresh w)).k + 1).toNat (by omega)
        (by rw [show (0 : Int) + (((stem_steps (stem_load z fresh w)).k + 1).toNat : Int)
              = (stem_steps (stem_load z fresh w)).k + 1 by omega]; simp)
      omega

theorem stem_lower (z : stemmer) (fresh : Int → Char) (w : List Char)
    (hz : z.irregulars = create_pool irregular_forms) (hne : w ≠ [])
    (hw : ∀ c ∈ w, c.isLower = true) :
    0 ≤ (stem z fresh w).2.k ∧ (stem z fresh w).1 ≠ [] ∧
      ∀ c ∈ (stem z fresh w).1, c.isLower = true := by
  have hlen : 0 < w.length := List.length_pos.mpr hne
  cases hsp : search_pool (stem_load z fresh w).irregulars ((stem_load z fresh w).k + 1)
      (stem_load z fresh w).p with
  | some t =>
    rw [stem_of_some z fresh w t hsp]
    obtain ⟨e, he, h1, _⟩ := search_pool_some _ _ _ _ hsp
    rw [stem_load_irregulars, hz] at he
    have hpool : ∀ e ∈ create_pool irregular_forms,
        e.2 ≠ [] ∧ ∀ c ∈ e.2, c.isLower = true := by decide
    have := hpool e he
    rw [h1] at this
    exact ⟨by simp only [stem_load_k]; omega, this⟩
  | none =>
    rw [stem_of_none z fresh w hsp]
    simp only
    have hr := stem_steps_rel (L := fun c => c.isLower = true) (fun _ h => h)
      (stem_load_rel (L := fun c => c.isLower = true) z z fresh fresh w hw hne)
    have h0 := hr.2.1
    have hN := hr.2.2.1
    refine ⟨h0, ?_, ?_⟩
    · have hf : ((stem_steps (stem_load z fresh w)).k + 2).toNat
          = ((stem_steps (stem_load z fresh w)).k + 1).toNat + 1 := by omega
      rw [hf]
      simp only [c_str]
      rw [Function.update_noteq (by omega)]
      have := isLower_ne_nul _ (hr.2.2.2 0 (le_refl _) (by omega)).2
      simp [this]
    · intro c hc
      obtain ⟨i, hi0, hi1, hi2, hi3⟩ := c_str_mem _ _ _ _ hc
      by_cases hik : i = (stem_steps (stem_load z fresh w)).k + 1
      · rw [hik] at hi2
        simp at hi2
        exact absurd hi2.symm hi3
      · rw [Function.update_noteq hik] at hi2
        rw [← hi2]
        exact (hr.2.2.2 i hi0 (by omega)).2

/-! ## The properties of the specification, C1 to C10 -/

/-- C1: for every surface form registered in the irregular-forms table (sky,
skies, dying, lying, tying, news, innings, inning, outings, outing, cannings,
canning, howe), `stem` returns exactly the canonical stem paired with it and
leaves the context as it is after loading the word, so no pipeline stage has
run; in particular skies gives sky, dying gives die, lying gives lie and tying
gives tie. -/
theorem C1_irregular_forms (z : stemmer) (fresh : Int → Char)
    (hz : z.irregulars = create_pool irregular_forms) :
    (create_pool irregular_forms).map Prod.fst =
        ["sky", "skies", "dying", "lying", "tying", "news", "innings", "inning", "outings",
          "outing", "cannings", "canning", "howe"].map String.toList ∧
      (∀ e ∈ create_pool irregular_forms, stem z fresh e.1 = (e.2, stem_load z fresh e.1)) ∧
      (stem z fresh "skies".toList).1 = "sky".toList ∧
      (stem z fresh "dying".toList).1 = "die".toList ∧
      (stem z fresh "lying".toList).1 = "lie".toList ∧
      (stem z fresh "tying".toList).1 = "tie".toList := by
  have hall : ∀ e ∈ create_pool irregular_forms,
      stem z fresh e.1 = (e.2, stem_load z fresh e.1) := by
    intro e he
    apply stem_of_some
    rw [stem_search_congr z setup_stemmer fresh setup_stemmer.p e.1 hz]
    have hpool : ∀ e ∈ create_pool irregular_forms,
        search_pool (stem_load setup_stemmer setup_stemmer.p e.1).irregulars
          ((stem_load setup_stemmer setup_stemmer.p e.1).k + 1)
          (stem_load setup_stemmer setup_stemmer.p e.1).p = some e.2 := by decide
    exact hpool e he
  refine ⟨by decide, hall, ?_, ?_, ?_, ?_⟩
  · exact congrArg Prod.fst (hall ("skies".toList, "sky".toList) (by decide))
  · exact congrArg Prod.fst (hall ("dying".toList, "die".toList) (by decide))
  · exact congrArg Prod.fst (hall ("lying".toList, "lie".toList) (by decide))
  · exact congrArg Prod.fst (hall ("tying".toList, "tie".toList) (by decide))

/-- Witness of C1 at the context made by `setup_stemmer`. -/
theorem C1_irregular_forms_witness :
    setup_stemmer.irregulars = create_pool irregular_forms ∧
      (stem setup_stemmer setup_stemmer.p "skies".toList).1 = "sky".toList :=
  ⟨rfl, (C1_irregular_forms setup_stemmer setup_stemmer.p rfl).2.2.1⟩

/-- C2: for every word `w` of one or two lowercase ASCII letters, `stem`
returns `w` unchanged: no irregular form has length 1 or 2, no pipeline stage
runs, and the active word keeps its length. -/
theorem C2_short_words_unchanged (z : stemmer) (fresh : Int → Char) (w : List Char)
    (hz : z.irregulars = create_pool irregular_forms)
    (hlen : w.length = 1 ∨ w.length = 2) (hw : ∀ c ∈ w, c.isLower = true) :
    (stem z fresh w).1 = w ∧
      (∀ e ∈ create_pool irregular_forms, 2 < e.1.length) ∧
      stem_steps (stem_load z fresh w) = stem_load z fresh w ∧
      (stem z fresh w).2.k = (w.length : Int) - 1 := by
  have hsmall : stem_steps (stem_load z fresh w) = stem_load z fresh w :=
    stem_steps_small _ (by rw [stem_load_k]; omega)
  have hpool : ∀ e ∈ create_pool irregular_forms, 2 < e.1.length := by decide
  have hsp : search_pool (stem_load z fresh w).irregulars ((stem_load z fresh w).k + 1)
      (stem_load z fresh w).p = none := by
    apply search_pool_none
    intro e he
    rw [stem_load_irregulars, hz] at he
    have := hpool e he
    rw [stem_load_k]
    omega
  rw [stem_of_none z fresh w hsp, hsmall]
  refine ⟨?_, hpool, rfl, rfl⟩
  simp only [stem_load_k]
  obtain ⟨q, hq⟩ := stem_load_p z fresh w
  rw [hq]
  refine c_str_spec w _ 0 _ (fun c hc => isLower_ne_nul c (hw c hc)) ?_ ?_ (by omega)
  · rw [memeq_congr w _ (memmove q 0 w) 0
      (fun i h0 h1 => Function.update_noteq (by omega) _ _)]
    exact memeq_self w q 0
  · rw [show (0 : Int) + (w.length : Int) = (w.length : Int) - 1 + 1 by omega]
    simp

/-- Witness of C2 at the word "is". -/
theorem C2_short_words_unchanged_witness :
    setup_stemmer.irregulars = create_pool irregular_forms ∧
      ("is".toList.length = 1 ∨ "is".toList.length = 2) ∧
      (∀ c ∈ "is".toList, c.isLower = true) ∧
      (stem setup_stemmer setup_stemmer.p "is".toList).1 = "is".toList :=
  ⟨rfl, by decide, by decide,
    (C2_short_words_unchanged setup_stemmer setup_stemmer.p "is".toList rfl (by decide)
      (by decide)).1⟩

/-- C3: the plural regression vectors hold for the full `stem` operation, in
every context that carries the irregular-forms table: caresses gives caress,
ponies gives poni, caress gives caress, cats gives cat. -/
theorem C3_plural_vectors (z : stemmer) (fresh : Int → Char)
    (hz : z.irregulars = create_pool irregular_forms) :
    (stem z fresh "caresses".toList).1 = "caress".toList ∧
      (stem z fresh "ponies".toList).1 = "poni".toList ∧
      (stem z fresh "caress".toList).1 = "caress".toList ∧
      (stem z fresh "cats".toList).1 = "cat".toList :=
  ⟨stem_fst_of_setup z fresh _ _ hz (by decide), stem_fst_of_setup z fresh _ _ hz (by decide),
    stem_fst_of_setup z fresh _ _ hz (by decide), stem_fst_of_setup z fresh _ _ hz (by decide)⟩

/-- Witness of C3 at the context made by `setup_stemmer`. -/
theorem C3_plural_vectors_witness :
    setup_stemmer.irregulars = create_pool irregular_forms ∧
      (stem setup_stemmer setup_stemmer.p "ponies".toList).1 = "poni".toList :=
  ⟨rfl, (C3_plural_vectors setup_stemmer setup_stemmer.p rfl).2.1⟩

/-- C4, as stated, fails: the full `stem` operation does not give agree for
agreed, nor disable for disabled (`step_5` takes the final e off). -/
theorem C4_counterexample :
    (stem setup_stemmer setup_stemmer.p "agreed".toList).1 ≠ "agree".toList ∧
      (stem setup_stemmer setup_stemmer.p "disabled".toList).1 ≠ "disable".toList := by
  decide

/-- C4, amended: for the full `stem` operation, in every context that carries
the irregular-forms table, feed gives feed, agreed gives agre and disabled
gives disabl. -/
theorem C4_eed_ed_vectors (z : stemmer) (fresh : Int → Char)
    (hz : z.irregulars = create_pool irregular_forms) :
    (stem z fresh "feed".toList).1 = "feed".toList ∧
      (stem z fresh "agreed".toList).1 = "agre".toList ∧
      (stem z fresh "disabled".toList).1 = "disabl".toList :=
  ⟨stem_fst_of_setup z fresh _ _ hz (by decide), stem_fst_of_setup z fresh _ _ hz (by decide),
    stem_fst_of_setup z fresh _ _ hz (by decide)⟩

/-- Witness of the amended C4 at the context made by `setup_stemmer`. -/
theorem C4_eed_ed_vectors_witness :
    setup_stemmer.irregulars = create_pool irregular_forms ∧
      (stem setup_stemmer setup_stemmer.p "agreed".toList).1 = "agre".toList :=
  ⟨rfl, (C4_eed_ed_vectors setup_stemmer setup_stemmer.p rfl).2.1⟩

/-- C5: the -ing regression vectors hold for the full `stem` operation, in
every context that carries the irregular-forms table: matting gives mat,
mating gives mate, meeting gives meet, milling gives mill, messing gives mess,
meetings gives meet. -/
theorem C5_ing_vectors (z : stemmer) (fresh : Int → Char)
    (hz : z.irregulars = create_pool irregular_forms) :
    (stem z fresh "matting".toList).1 = "mat".toList ∧
      (stem z fresh "mating".toList).1 = "mate".toList ∧
      (stem z fresh "meeting".toList).1 = "meet".toList ∧
      (stem z fresh "milling".toList).1 = "mill".toList ∧
      (stem z fresh "messing".toList).1 = "mess".toList ∧
      (stem z fresh "meetings".toList).1 = "meet".toList :=
  ⟨stem_fst_of_setup z fresh _ _ hz (by decide), stem_fst_of_setup z fresh _ _ hz (by decide),
    stem_fst_of_setup z fresh _ _ hz (by decide), stem_fst_of_setup z fresh _ _ hz (by decide),
    stem_fst_of_setup z fresh _ _ hz (by decide), stem_fst_of_setup z fresh _ _ hz (by decide)⟩

/-- Witness of C5 at the context made by `setup_stemmer`. -/
theorem C5_ing_vectors_witness :
    setup_stemmer.irregulars = create_pool irregular_forms ∧
      (stem setup_stemmer setup_stemmer.p "mating".toList).1 = "mate".toList :=
  ⟨rfl, (C5_ing_vectors setup_stemmer setup_stemmer.p rfl).2.1⟩

/-- C6: monotonic shrink.  For every non-empty word `w` of lowercase ASCII
letters, in every context that carries the irregular-forms table, the stem
returned by `stem` is no longer than `w`. -/
theorem C6_monotonic_shrink (z : stemmer) (fresh : Int → Char) (w : List Char)
    (hz : z.irregulars = create_pool irregular_forms) (_hne : w ≠ [])
    (_hw : ∀ c ∈ w, c.isLower = true) :
    (stem z fresh w).1.length ≤ w.length :=
  stem_length_le z fresh w hz

/-- Witness of C6 at the word "hoping", whose stem "hope" has its e put back. -/
theorem C6_monotonic_shrink_witness :
    setup_stemmer.irregulars = create_pool irregular_forms ∧ "hoping".toList ≠ [] ∧
      (∀ c ∈ "hoping".toList, c.isLower = true) ∧
      (stem setup_stemmer setup_stemmer.p "hoping".toList).1.length ≤ "hoping".toList.length :=
  ⟨rfl, by decide, by decide,
    C6_monotonic_shrink setup_stemmer setup_stemmer.p "hoping".toList rfl (by decide)
      (by decide)⟩

/-- C7: the result of `stem` depends only on the input word.  Two contexts
that share the irregular table, whatever their buffer contents, capacity, `k`
and `j`, and whatever the allocator puts in a new buffer, give the same
output for the same word; and `stem` leaves the table of the context as it
was, so this holds again for the next call. -/
theorem C7_context_independent (z1 z2 : stemmer) (f1 f2 : Int → Char) (w : List Char)
    (hz : z1.irregulars = z2.irregulars) :
    (stem z1 f1 w).1 = (stem z2 f2 w).1 ∧ (stem z1 f1 w).2.irregulars = z1.irregulars :=
  ⟨stem_fst_indep z1 z2 f1 f2 w hz, stem_irregulars z1 f1 w⟩

/-- Witness of C7: "cats" stemmed in the context left by stemming
"generalization", and in a new context. -/
theorem C7_context_independent_witness :
    (stem setup_stemmer setup_stemmer.p "generalization".toList).2.irregulars
        = setup_stemmer.irregulars ∧
      (stem (stem setup_stemmer setup_stemmer.p "generalization".toList).2 setup_stemmer.p
          "cats".toList).1
        = (stem setup_stemmer setup_stemmer.p "cats".toList).1 :=
  ⟨stem_irregulars _ _ _,
    (C7_context_independent _ setup_stemmer setup_stemmer.p setup_stemmer.p "cats".toList
      (stem_irregulars _ _ _)).1⟩

/-- C8, evaluated at the words "ies" and "ion", where the code reads outside
the active word.  "ies" is not an irregular form and enters the pipeline;
`step_1ab` leaves the active word "i" (`k = 0`), so the byte `p[k - 1]` on
which `step_2` dispatches is `p[-1]`, and so is the one `step_4` dispatches
on.  "ion" reaches `step_4` unchanged, `ends` matches "ion" with `j = -1`, and
the byte `p[j]` then read is `p[-1]`. -/
theorem C8_reads_outside_active_word :
    search_pool (stem_load setup_stemmer setup_stemmer.p "ies".toList).irregulars
        ((stem_load setup_stemmer setup_stemmer.p "ies".toList).k + 1)
        (stem_load setup_stemmer setup_stemmer.p "ies".toList).p = none ∧
      (stem_load setup_stemmer setup_stemmer.p "ies".toList).k > 1 ∧
      (step_1c (step_1ab (stem_load setup_stemmer setup_stemmer.p "ies".toList))).k = 0 ∧
      peek (step_1c (step_1ab (stem_load setup_stemmer setup_stemmer.p "ies".toList)))
        ((step_1c (step_1ab (stem_load setup_stemmer setup_stemmer.p "ies".toList))).k - 1)
        = none ∧
      peek (step_3 (step_2 (step_1c (step_1ab
          (stem_load setup_stemmer setup_stemmer.p "ies".toList)))))
        ((step_3 (step_2 (step_1c (step_1ab
          (stem_load setup_stemmer setup_stemmer.p "ies".toList))))).k - 1) = none ∧
      (stem_load setup_stemmer setup_stemmer.p "ion".toList).k > 1 ∧
      (ends (step_3 (step_2 (step_1c (step_1ab
          (stem_load setup_stemmer setup_stemmer.p "ion".toList))))) "ion".toList).1 = true ∧
      (ends (step_3 (step_2 (step_1c (step_1ab
          (stem_load setup_stemmer setup_stemmer.p "ion".toList))))) "ion".toList).2.j = -1 ∧
      peek (ends (step_3 (step_2 (step_1c (step_1ab
          (stem_load setup_stemmer setup_stemmer.p "ion".toList))))) "ion".toList).2
        (ends (step_3 (step_2 (step_1c (step_1ab
          (stem_load setup_stemmer setup_stemmer.p "ion".toList))))) "ion".toList).2.j
        = none := by
  decide

/-- C9: the measure `m(z)` is never negative, for any buffer and boundary
`j`, and when the boundary `j` is -1 (empty stem) `m(z)` is 0. -/
theorem C9_measure_nonneg :
    (∀ z : stemmer, 0 ≤ m z) ∧ (∀ z : stemmer, z.j = -1 → m z = 0) :=
  ⟨m_nonneg, fun z h => m_of_j_le_zero z (by omega)⟩

/-- Witness of C9 at the state `setup_stemmer` with `j = -1`. -/
theorem C9_measure_nonneg_witness :
    ({ setup_stemmer with j := -1 } : stemmer).j = -1 ∧
      m { setup_stemmer with j := -1 } = 0 :=
  ⟨rfl, C9_measure_nonneg.2 _ rfl⟩

/-- C10: for every non-empty word of lowercase ASCII letters, in every context
that carries the irregular-forms table, the active word is never empty:
`k >= 0` once the word is loaded, after each of the six pipeline stages when
they run (`k > 1`), and when `stem` returns; and the returned stem is not empty
and every byte of it is a lowercase ASCII letter. -/
theorem C10_active_word_nonempty (z : stemmer) (fresh : Int → Char) (w : List Char)
    (hz : z.irregulars = create_pool irregular_forms) (hne : w ≠ [])
    (hw : ∀ c ∈ w, c.isLower = true) :
    0 ≤ (stem_load z fresh w).k ∧
      ((stem_load z fresh w).k > 1 →
        0 ≤ (step_1ab (stem_load z fresh w)).k ∧
        0 ≤ (step_1c (step_1ab (stem_load z fresh w))).k ∧
        0 ≤ (step_2 (step_1c (step_1ab (stem_load z fresh w)))).k ∧
        0 ≤ (step_3 (step_2 (step_1c (step_1ab (stem_load z fresh w))))).k ∧
        0 ≤ (step_4 (step_3 (step_2 (step_1c (step_1ab (stem_load z fresh w)))))).k ∧
        0 ≤ (step_5 (step_4 (step_3 (step_2 (step_1c (step_1ab
          (stem_load z fresh w))))))).k) ∧
      0 ≤ (stem z fresh w).2.k ∧
      (stem z fresh w).1 ≠ [] ∧
      ∀ c ∈ (stem z fresh w).1, c.isLower = true := by
  have hlen : 0 < w.length := List.length_pos.mpr hne
  have h0 := stem_load_rel (L := fun c => c.isLower = true) z z fresh fresh w hw hne
  refine ⟨by rw [stem_load_k]; omega, fun hk => ?_, stem_lower z fresh w hz hne hw⟩
  have hlow : ∀ c : Char, c.isLower = true → (fun c => c.isLower = true) c := fun _ h => h
  have h1 := step_1ab_rel hlow h0 (by omega)
  have h2 := step_1c_rel hlow h1
  have h3 := step_2_rel hlow h2
  have h4 := step_3_rel hlow h3
  have h5 := step_4_rel h4
  have h6 := step_5_rel h5
  exact ⟨h1.2.1, h2.2.1, h3.2.1, h4.2.1, h5.2.1, h6.2.1⟩

/-- Witness of C10 at the word "ies", whose stem is the single letter "i". -/
theorem C10_active_word_nonempty_witness :
    setup_stemmer.irregulars = create_pool irregular_forms ∧ "ies".toList ≠ [] ∧
      (∀ c ∈ "ies".toList, c.isLower = true) ∧
      0 ≤ (stem setup_stemmer setup_stemmer.p "ies".toList).2.k ∧
      (stem setup_stemmer setup_stemmer.p "ies".toList).1 ≠ [] :=
  ⟨rfl, by decide, by decide,
    (C10_active_word_nonempty setup_stemmer setup_stemmer.p "ies".toList rfl (by decide)
      (by decide)).2.2.1,
    (C10_active_word_nonempty setup_stemmer setup_stemmer.p "ies".toList rfl (by decide)
      (by decide)).2.2.2.1⟩

/-! ## The active word as a list -/

theorem memeq_iff (w : List Char) (p : Int → Char) (off : Int) :
    memeq p off w = true ↔ ∀ (i : Nat) (h : i < w.length), p (off + i) = w[i] := by
  induction w generalizing off with
  | nil => simp [memeq]
  | cons c cs ih =>
    simp only [memeq]
    constructor
    · intro h i hi
      by_cases hc : p off = c
      · simp only [hc, if_true] at h
        cases i with
        | zero => simpa using hc
        | succ n =>
          have := (ih (off + 1)).mp h n (by simpa using hi)
          simp only [List.getElem_cons_succ]
          rw [← this]
          congr 1
          push_cast
          omega
      · simp [hc] at h
    · intro h
      have h0 := h 0 (by simp)
      simp only [Nat.cast_zero, add_zero, List.getElem_cons_zero] at h0
      simp only [h0, if_true]
      refine (ih (off + 1)).mpr (fun i hi => ?_)
      have := h (i + 1) (by simpa using hi)
      simp only [List.getElem_cons_succ] at this
      rw [← this]
      congr 1
      push_cast
      omega

theorem memeq_append (a b : List Char) (p : Int → Char) (off : Int) :
    memeq p off (a ++ b) = (memeq p off a && memeq p (off + a.length) b) := by
  induction a generalizing off with
  | nil => simp [memeq]
  | cons c cs ih =>
    show memeq p off (c :: (cs ++ b)) = (memeq p off (c :: cs) && _)
    simp only [memeq, List.length_cons]
    by_cases hc : p off = c
    · simp only [hc, if_true]
      rw [ih (off + 1)]
      congr 2
      push_cast
      omega
    · simp [hc]

theorem active_length (z : stemmer) : (active z).length = (z.k + 1).toNat := by
  simp [active]

theorem active_memeq (z : stemmer) : memeq z.p 0 (active z) = true := by
  rw [memeq_iff]
  intro i hi
  simp [active]

theorem active_eq_iff (z : stemmer) (w : List Char) :
    active z = w ↔ (z.k + 1).toNat = w.length ∧ memeq z.p 0 w = true := by
  constructor
  · intro h
    subst h
    exact ⟨(active_length z).symm, active_memeq z⟩
  · rintro ⟨hl, hm⟩
    apply List.ext_getElem
    · rw [active_length]; exact hl
    · intro i h1 h2
      have := (memeq_iff w z.p 0).mp hm i h2
      simp only [zero_add] at this
      simp [active, this]

theorem active_of_same {a b : stemmer} (h : Same a b) : active b = active a := by
  unfold active
  rw [h.1, h.2]

theorem active_shrink (z z1 : stemmer) (a b : List Char) (h : active z = a ++ b)
    (hk : z1.k = z.k - b.length) (hp : z1.p = z.p) : active z1 = a := by
  obtain ⟨hl, hm⟩ := (active_eq_iff z _).mp h
  rw [memeq_append] at hm
  simp only [Bool.and_eq_true] at hm
  simp only [List.length_append] at hl
  refine (active_eq_iff z1 a).mpr ⟨by omega, by rw [hp]; exact hm.1⟩

theorem active_setto (z : stemmer) (s t : List Char) (hj : z.j + 1 = s.length)
    (hs : memeq z.p 0 s = true) : active (setto z t) = s ++ t := by
  refine (active_eq_iff _ _).mpr ⟨?_, ?_⟩
  · simp only [setto, List.length_append]; omega
  · rw [memeq_append]
    simp only [setto, Bool.and_eq_true]
    constructor
    · rw [memeq_congr s _ z.p 0 (fun i h0 h1 => memmove_below t _ _ _ (by omega))]
      exact hs
    · rw [zero_add, ← hj]
      exact memeq_self t z.p _

theorem ends_iff_suffix (z : stemmer) (s : List Char) (hk : -1 ≤ z.k) :
    (ends z s).1 = true ↔ s <:+ active z := by
  constructor
  · intro h
    have e1 := ends_true z s h
    have hm : memeq z.p (z.k - s.length + 1) s = true := by
      unfold ends at h
      by_cases h1 : (s.length : Int) > z.k + 1
      · simp [h1] at h
      · by_cases h2 : (!memeq z.p (z.k - s.length + 1) s) = true
        · simp [h1, h2] at h
        · simpa using h2
    refine ⟨active { z with k := z.k - s.length }, ?_⟩
    refine ((active_eq_iff z _).mpr ⟨?_, ?_⟩).symm
    · simp only [List.length_append, active_length]; omega
    · rw [memeq_append, active_memeq { z with k := z.k - s.length }]
      simp only [Bool.true_and, active_length, zero_add]
      rw [← hm]
      congr 1
      omega
  · rintro ⟨pre, hpre⟩
    obtain ⟨hl, hm⟩ := (active_eq_iff z _).mp hpre.symm
    rw [memeq_append] at hm
    simp only [Bool.and_eq_true, zero_add] at hm
    simp only [List.length_append] at hl
    unfold ends
    have h1 : ¬ (s.length : Int) > z.k + 1 := by omega
    have h2 : memeq z.p (z.k - s.length + 1) s = true := by
      rw [← hm.2]; congr 1; omega
    simp [h1, h2]

theorem ends_of_active (z : stemmer) (a s : List Char) (hk : -1 ≤ z.k)
    (h : active z = a ++ s) :
    (ends z s).1 = true ∧ (ends z s).2 = { z with j := (a.length : Int) - 1 } := by
  have hl := (active_eq_iff z _).mp h
  simp only [List.length_append] at hl
  have ht := (ends_iff_suffix z s hk).mpr ⟨a, h.symm⟩
  refine ⟨ht, ?_⟩
  rw [(ends_true z s ht).1]
  congr 1
  omega

theorem ends_excl (z : stemmer) (a b : List Char) (hk : -1 ≤ z.k) (ha : (ends z a).1 = true)
    (hn : ¬ (a <:+ b ∨ b <:+ a)) : (ends z b).1 = false := by
  cases hb : (ends z b).1 with
  | false => rfl
  | true =>
    exact absurd (List.suffix_or_suffix_of_suffix ((ends_iff_suffix z a hk).mp ha)
      ((ends_iff_suffix z b hk).mp hb)) hn

theorem Rel.active_eq {L : Char → Prop} {N : Int} {a b : stemmer} (h : Rel L N a b) :
    active a = active b := by
  refine (active_eq_iff a _).mpr ⟨by rw [active_length, h.1], ?_⟩
  rw [memeq_congr (active b) a.p b.p 0 (fun i h0 h1 => h.agree i h0 (by
    rw [active_length, ← h.1] at h1; omega))]
  exact active_memeq b

theorem rel_of_active (a b : stemmer) (h : active a = active b) (hk : 0 ≤ a.k) :
    Rel (fun _ => True) a.k a b := by
  have hl : (a.k + 1).toNat = (b.k + 1).toNat := by
    rw [← active_length, ← active_length, h]
  refine ⟨by omega, hk, le_refl _, fun i h0 h1 => ⟨?_, trivial⟩⟩
  have ha := (memeq_iff _ _ _).mp (active_memeq a) i.toNat (by rw [active_length]; omega)
  have hb := (memeq_iff _ _ _).mp (active_memeq b) i.toNat (by rw [active_length]; omega)
  have hi : (0 : Int) + (i.toNat : Int) = i := by omega
  rw [hi] at ha hb
  rw [ha, hb]
  simp only [h]

theorem active_stem_load (z : stemmer) (fresh : Int → Char) (w : List Char) :
    active (stem_load z fresh w) = w := by
  obtain ⟨q, hq⟩ := stem_load_p z fresh w
  refine (active_eq_iff _ _).mpr ⟨by rw [stem_load_k]; omega, ?_⟩
  rw [hq]
  exact memeq_self w q 0

theorem step_1ab_active (z : stemmer) (w t : List Char) (hw : 2 ≤ w.length)
    (h0 : active (step_1ab (stem_load setup_stemmer setup_stemmer.p w)) = t)
    (hz : active z = w) : active (step_1ab z) = t := by
  have hl := (active_eq_iff z w).mp hz
  have hr := rel_of_active z (stem_load setup_stemmer setup_stemmer.p w)
    (by rw [hz, active_stem_load]) (by omega)
  rw [← h0]
  exact (step_1ab_rel (fun _ _ => trivial) hr (by omega)).active_eq

theorem stem_steps_k (z : stemmer) (h : -1 ≤ z.k) :
    -1 ≤ (stem_steps z).k ∧ (stem_steps z).k ≤ z.k := by
  by_cases hk : z.k > 1
  · have hr : Rel (fun _ => True) z.k z z :=
      ⟨rfl, by omega, le_refl _, fun _ _ _ => ⟨rfl, trivial⟩⟩
    have := stem_steps_rel (fun _ _ => trivial) hr
    exact ⟨by have := this.2.1; omega, this.2.2.1⟩
  · rw [stem_steps_small z (by omega)]
    exact ⟨h, le_refl _⟩

theorem stem_load_p_size (z : stemmer) (fresh : Int → Char) (w : List Char) :
    z.p_size ≤ (stem_load z fresh w).p_size ∧
      (w.length : Int) + 49 ≤ (stem_load z fresh w).p_size := by
  by_cases h : (w.length : Int) - 1 + 50 > z.p_size
  · simp only [stem_load, h, if_true]; omega
  · simp only [stem_load, h, if_false]; omega

theorem stem_snd (z : stemmer) (fresh : Int → Char) (w : List Char) :
    (stem z fresh w).2.p_size = (stem_load z fresh w).p_size ∧
      -1 ≤ (stem z fresh w).2.k ∧ (stem z fresh w).2.k ≤ (w.length : Int) - 1 := by
  cases hsp : search_pool (stem_load z fresh w).irregulars ((stem_load z fresh w).k + 1)
      (stem_load z fresh w).p with
  | some t =>
    rw [stem_of_some z fresh w t hsp]
    exact ⟨rfl, by simp only [stem_load_k]; omega, by simp only [stem_load_k]; omega⟩
  | none =>
    rw [stem_of_none z fresh w hsp]
    have hf : Frame (stem_load z fresh w) (stem_load z fresh w) := ⟨rfl, rfl⟩
    have hk := stem_steps_k (stem_load z fresh w) (by rw [stem_load_k]; omega)
    rw [stem_load_k] at hk
    exact ⟨hf.stem_steps.2, hk.1, hk.2⟩

theorem stage_states_frame (z : stemmer) : ∀ y ∈ stage_states z, Frame z y := by
  have h0 : Frame z z := ⟨rfl, rfl⟩
  intro y hy
  unfold stage_states at hy
  rcases List.mem_cons.mp hy with h | hy
  · rw [h]; exact h0.step_1ab
  rcases List.mem_cons.mp hy with h | hy
  · rw [h]; exact h0.step_1ab.step_1c
  rcases List.mem_cons.mp hy with h | hy
  · rw [h]; exact h0.step_1ab.step_1c.step_2
  rcases List.mem_cons.mp hy with h | hy
  · rw [h]; exact h0.step_1ab.step_1c.step_2.step_3
  rcases List.mem_cons.mp hy with h | hy
  · rw [h]; exact h0.step_1ab.step_1c.step_2.step_3.step_4
  rcases List.mem_cons.mp hy with h | hy
  · rw [h]; exact h0.step_1ab.step_1c.step_2.step_3.step_4.step_5
  · exact absurd hy (List.not_mem_nil _)

theorem stage_states_k (z : stemmer) (hk : 1 ≤ z.k) :
    ∀ y ∈ stage_states z, 0 ≤ y.k ∧ y.k ≤ z.k := by
  have hr : Rel (fun _ => True) z.k z z :=
    ⟨rfl, by omega, le_refl _, fun _ _ _ => ⟨rfl, trivial⟩⟩
  have h1 := step_1ab_rel (fun _ _ => trivial) hr hk
  have h2 := step_1c_rel (fun _ _ => trivial) h1
  have h3 := step_2_rel (fun _ _ => trivial) h2
  have h4 := step_3_rel (fun _ _ => trivial) h3
  have h5 := step_4_rel h4
  have h6 := step_5_rel h5
  intro y hy
  unfold stage_states at hy
  rcases List.mem_cons.mp hy with h | hy
  · rw [h]; exact ⟨h1.2.1, h1.2.2.1⟩
  rcases List.mem_cons.mp hy with h | hy
  · rw [h]; exact ⟨h2.2.1, h2.2.2.1⟩
  rcases List.mem_cons.mp hy with h | hy
  · rw [h]; exact ⟨h3.2.1, h3.2.2.1⟩
  rcases List.mem_cons.mp hy with h | hy
  · rw [h]; exact ⟨h4.2.1, h4.2.2.1⟩
  rcases List.mem_cons.mp hy with h | hy
  · rw [h]; exact ⟨h5.2.1, h5.2.2.1⟩
  rcases List.mem_cons.mp hy with h | hy
  · rw [h]; exact ⟨h6.2.1, h6.2.2.1⟩
  · exact absurd hy (List.not_mem_nil _)

/-! ## Index bounds, terminal y, capacity, the examples of `step_1ab`: C11, C12, C13, C15 -/

theorem stem_snd_k_nonneg (z : stemmer) (fresh : Int → Char) (w : List Char) (hne : w ≠ []) :
    0 ≤ (stem z fresh w).2.k := by
  have hlen : 0 < w.length := List.length_pos.mpr hne
  cases hsp : search_pool (stem_load z fresh w).irregulars ((stem_load z fresh w).k + 1)
      (stem_load z fresh w).p with
  | some t =>
    rw [stem_of_some z fresh w t hsp]
    simp only [stem_load_k]; omega
  | none =>
    rw [stem_of_none z fresh w hsp]
    exact (stem_steps_rel (L := fun _ => True) (fun _ _ => trivial)
      (stem_load_rel (L := fun _ => True) z z fresh fresh w (fun _ _ => trivial) hne)).2.1

/-- C11, as stated, fails.  On "ies" the suffix match of `step_1ab` succeeds
with `j = -1`, and `j` is still -1 after the stage; on "agreed" `step_5`
leaves `j = 4` above `k = 3`. -/
theorem C11_counterexample :
    (ends (stem_load setup_stemmer setup_stemmer.p "ies".toList) "ies".toList).1 = true ∧
      (ends (stem_load setup_stemmer setup_stemmer.p "ies".toList) "ies".toList).2.j = -1 ∧
      (step_1ab (stem_load setup_stemmer setup_stemmer.p "ies".toList)).j = -1 ∧
      (step_5 (step_4 (step_3 (step_2 (step_1c (step_1ab
        (stem_load setup_stemmer setup_stemmer.p "agreed".toList))))))).j = 4 ∧
      (step_5 (step_4 (step_3 (step_2 (step_1c (step_1ab
        (stem_load setup_stemmer setup_stemmer.p "agreed".toList))))))).k = 3 := by
  decide

/-- C11, amended: during a `stem` call on a non-empty lowercase word, `k`
satisfies `0 <= k < capacity` once the word is loaded, after every pipeline
stage (where `k` is also at most the `k` of the loaded word) and when `stem`
returns (where `k + 1`, the place of the terminator, is inside the buffer
too); every successful suffix match (`ends`, on a state with `0 <= k` and a
non-empty suffix) leaves `-1 <= j < k` with `j = k - length`; every rewrite
(`setto`) leaves `j <= k` with `k = j + length`.  The boundary `j` itself is
not kept within `0..k`. -/
theorem C11_index_bounds (z : stemmer) (fresh : Int → Char) (w : List Char)
    (hne : w ≠ []) (_hw : ∀ c ∈ w, c.isLower = true) :
    (0 ≤ (stem_load z fresh w).k ∧ (stem_load z fresh w).k < (stem_load z fresh w).p_size) ∧
      ((stem_load z fresh w).k > 1 → ∀ y ∈ stage_states (stem_load z fresh w),
        0 ≤ y.k ∧ y.k ≤ (stem_load z fresh w).k ∧ y.k < y.p_size) ∧
      (0 ≤ (stem z fresh w).2.k ∧ (stem z fresh w).2.k + 1 < (stem z fresh w).2.p_size) ∧
      (∀ (y : stemmer) (s : List Char), 0 ≤ y.k → s ≠ [] → (ends y s).1 = true →
        (ends y s).2.j = y.k - s.length ∧ -1 ≤ (ends y s).2.j ∧
          (ends y s).2.j < (ends y s).2.k ∧ (ends y s).2.k = y.k ∧
          (ends y s).2.p_size = y.p_size) ∧
      (∀ (y : stemmer) (t : List Char),
        (setto y t).j = y.j ∧ (setto y t).k = y.j + t.length ∧ (setto y t).j ≤ (setto y t).k ∧
          (setto y t).p_size = y.p_size) := by
  have hlen : 0 < w.length := List.length_pos.mpr hne
  have hcap := (stem_load_p_size z fresh w).2
  have hs := stem_snd z fresh w
  refine ⟨⟨by rw [stem_load_k]; omega, by rw [stem_load_k]; omega⟩, fun hk y hy => ?_,
    ⟨stem_snd_k_nonneg z fresh w hne, by omega⟩, fun y s hy hs' he => ?_, fun y t => ?_⟩
  · have h1 := stage_states_k _ (by omega) y hy
    have h2 := (stage_states_frame _ y hy).2
    rw [stem_load_k] at h1
    rw [stem_load_k]
    exact ⟨h1.1, h1.2, by omega⟩
  · have e := ends_true y s he
    have hl : 0 < s.length := List.length_pos.mpr hs'
    rw [ends_k, ends_p_size, e.1]
    simp only
    exact ⟨trivial, by omega, by omega, trivial, trivial⟩
  · simp only [setto]
    exact ⟨trivial, trivial, by omega, trivial⟩

/-- Witness of the amended C11 at the word "ies". -/
theorem C11_index_bounds_witness :
    "ies".toList ≠ [] ∧ (∀ c ∈ "ies".toList, c.isLower = true) ∧
      0 ≤ (stem setup_stemmer setup_stemmer.p "ies".toList).2.k ∧
      (stem setup_stemmer setup_stemmer.p "ies".toList).2.k + 1
        < (stem setup_stemmer setup_stemmer.p "ies".toList).2.p_size :=
  ⟨by decide, by decide,
    (C11_index_bounds setup_stemmer setup_stemmer.p "ies".toList (by decide) (by decide)).2.2.1⟩

/-- C12: terminal-y conflation for the full `stem` operation, in every context
that carries the irregular-forms table: happy gives happi and enjoy gives
enjoy; spy, fly, try give spi, fli, tri; and spied, tried, flies give the same
stems as spy, try, fly. -/
theorem C12_terminal_y (z : stemmer) (fresh : Int → Char)
    (hz : z.irregulars = create_pool irregular_forms) :
    (stem z fresh "happy".toList).1 = "happi".toList ∧
      (stem z fresh "enjoy".toList).1 = "enjoy".toList ∧
      (stem z fresh "spy".toList).1 = "spi".toList ∧
      (stem z fresh "fly".toList).1 = "fli".toList ∧
      (stem z fresh "try".toList).1 = "tri".toList ∧
      (stem z fresh "spied".toList).1 = (stem z fresh "spy".toList).1 ∧
      (stem z fresh "tried".toList).1 = (stem z fresh "try".toList).1 ∧
      (stem z fresh "flies".toList).1 = (stem z fresh "fly".toList).1 := by
  have h1 := stem_fst_of_setup z fresh "spy".toList "spi".toList hz (by decide)
  have h2 := stem_fst_of_setup z fresh "fly".toList "fli".toList hz (by decide)
  have h3 := stem_fst_of_setup z fresh "try".toList "tri".toList hz (by decide)
  refine ⟨stem_fst_of_setup z fresh _ _ hz (by decide),
    stem_fst_of_setup z fresh _ _ hz (by decide), h1, h2, h3, ?_, ?_, ?_⟩
  · rw [h1]; exact stem_fst_of_setup z fresh _ _ hz (by decide)
  · rw [h3]; exact stem_fst_of_setup z fresh _ _ hz (by decide)
  · rw [h2]; exact stem_fst_of_setup z fresh _ _ hz (by decide)

/-- Witness of C12 at the context made by `setup_stemmer`. -/
theorem C12_terminal_y_witness :
    setup_stemmer.irregulars = create_pool irregular_forms ∧
      (stem setup_stemmer setup_stemmer.p "happy".toList).1 = "happi".toList :=
  ⟨rfl, (C12_terminal_y setup_stemmer setup_stemmer.p rfl).1⟩

/-- C13: the buffer capacity is grow-only and always sufficient.  For every
context state and every input word of length `n`, after `stem` the capacity
`p_size` is at least its value before the call and at least `n + 49`; the
stages leave it as `stem` set it on loading; so the copied word (`n` bytes)
and the terminator at index `k + 1`, with `0 <= k + 1 <= n`, lie inside the
buffer. -/
theorem C13_capacity (z : stemmer) (fresh : Int → Char) (w : List Char) :
    z.p_size ≤ (stem z fresh w).2.p_size ∧
      (w.length : Int) + 49 ≤ (stem z fresh w).2.p_size ∧
      (stem z fresh w).2.p_size = (stem_load z fresh w).p_size ∧
      (w.length : Int) < (stem z fresh w).2.p_size ∧
      0 ≤ (stem z fresh w).2.k + 1 ∧ (stem z fresh w).2.k + 1 ≤ (w.length : Int) ∧
      (stem z fresh w).2.k + 1 < (stem z fresh w).2.p_size := by
  have hcap := stem_load_p_size z fresh w
  have hs := stem_snd z fresh w
  refine ⟨by omega, by omega, hs.1, by omega, by omega, by omega, by omega⟩

/-- C15: `step_1ab` alone maps each example documented in the source to the
documented result, for every state whose active word is the example. -/
theorem C15_step_1ab_examples (z : stemmer) :
    (active z = "caresses".toList → active (step_1ab z) = "caress".toList) ∧
      (active z = "ponies".toList → active (step_1ab z) = "poni".toList) ∧
      (active z = "sties".toList → active (step_1ab z) = "sti".toList) ∧
      (active z = "tie".toList → active (step_1ab z) = "tie".toList) ∧
      (active z = "caress".toList → active (step_1ab z) = "caress".toList) ∧
      (active z = "cats".toList → active (step_1ab z) = "cat".toList) ∧
      (active z = "feed".toList → active (step_1ab z) = "feed".toList) ∧
      (active z = "agreed".toList → active (step_1ab z) = "agree".toList) ∧
      (active z = "disabled".toList → active (step_1ab z) = "disable".toList) ∧
      (active z = "matting".toList → active (step_1ab z) = "mat".toList) ∧
      (active z = "mating".toList → active (step_1ab z) = "mate".toList) ∧
      (active z = "meeting".toList → active (step_1ab z) = "meet".toList) ∧
      (active z = "milling".toList → active (step_1ab z) = "mill".toList) ∧
      (active z = "messing".toList → active (step_1ab z) = "mess".toList) ∧
      (active z = "meetings".toList → active (step_1ab z) = "meet".toList) :=
  ⟨step_1ab_active z _ _ (by decide) (by decide), step_1ab_active z _ _ (by decide) (by decide),
    step_1ab_active z _ _ (by decide) (by decide), step_1ab_active z _ _ (by decide) (by decide),
    step_1ab_active z _ _ (by decide) (by decide), step_1ab_active z _ _ (by decide) (by decide),
    step_1ab_active z _ _ (by decide) (by decide), step_1ab_active z _ _ (by decide) (by decide),
    step_1ab_active z _ _ (by decide) (by decide), step_1ab_active z _ _ (by decide) (by decide),
    step_1ab_active z _ _ (by decide) (by decide), step_1ab_active z _ _ (by decide) (by decide),
    step_1ab_active z _ _ (by decide) (by decide), step_1ab_active z _ _ (by decide) (by decide),
    step_1ab_active z _ _ (by decide) (by decide)⟩

/-- Witness of C15 at the state that holds the loaded word "disabled". -/
theorem C15_step_1ab_examples_witness :
    active (stem_load setup_stemmer setup_stemmer.p "disabled".toList) = "disabled".toList ∧
      active (step_1ab (stem_load setup_stemmer setup_stemmer.p "disabled".toList))
        = "disable".toList :=
  ⟨by decide,
    (C15_step_1ab_examples (stem_load setup_stemmer setup_stemmer.p "disabled".toList)
      ).2.2.2.2.2.2.2.2.1 (by decide)⟩

/-! ## The measure counts vowel-consonant steps: C14 -/

theorem vc_from_zero (z : stemmer) (t : Nat) : vc_from z t 0 = 0 := rfl

theorem vc_from_succ (z : stemmer) (t r : Nat) :
    vc_from z t (r + 1) = (if (!cons z t && cons z (t + 1)) = true then 1 else 0)
      + vc_from z (t + 1) r := by
  unfold vc_from
  rw [List.range'_succ, List.filter_cons]
  split_ifs
  · simp; omega
  · simp

theorem vc_from_skip (z : stemmer) (t r : Nat) (h : cons z t = true) :
    vc_from z t r = vc_from z (t + 1) (r - 1) := by
  cases r with
  | zero => rfl
  | succ r' => rw [vc_from_succ]; simp [h]

theorem m_from_count (z : stemmer) (r : Nat) :
    ∀ (fuel i : Nat) (n : Int), (i : Int) + r = z.j + 1 → r < fuel →
      (∀ ph, ph ≠ mloop.vowels → (i = 0 ∨ cons z (i - 1) = true) →
        m_from z fuel ph i n = n + vc_from z i (r - 1)) ∧
      (1 ≤ i → cons z (i - 1) = false →
        m_from z fuel mloop.vowels i n = n + vc_from z (i - 1) r) := by
  induction r with
  | zero =>
    intro fuel i n hi hf
    have hp : ∀ ph, m_from z fuel ph i n = n := fun ph =>
      m_from_past z fuel ph i n (by omega)
    exact ⟨fun ph _ _ => by rw [hp]; simp [vc_from_zero],
      fun _ _ => by rw [hp]; simp [vc_from_zero]⟩
  | succ r ih =>
    intro fuel i n hi hf
    obtain ⟨f, rfl⟩ : ∃ f, fuel = f + 1 := ⟨fuel - 1, by omega⟩
    have hij : ¬ (i : Int) > z.j := by push_cast at hi; omega
    have ih1 := fun n => ih f (i + 1) n (by push_cast at hi ⊢; omega) (by omega)
    simp only [Nat.add_sub_cancel] at ih1
    constructor
    · intro ph hph hpre
      rw [m_from_succ]
      simp only [hij, if_false, Nat.add_sub_cancel]
      by_cases hc : cons z i = true
      · have e := fun q hq => ((ih1 n).1 q hq (Or.inr hc))
        rw [vc_from_skip z i r hc]
        cases ph with
        | lead => simp only [hc]; exact e _ (by decide)
        | vowels => exact absurd rfl hph
        | consonants => simp only [hc]; exact e _ (by decide)
      · have hc' : cons z i = false := by simpa using hc
        have e := (ih1 n).2 (by omega) hc'
        cases ph with
        | lead => simp only [hc']; exact e
        | vowels => exact absurd rfl hph
        | consonants => simp only [hc']; exact e
    · intro hi1 hpre
      obtain ⟨i', rfl⟩ : ∃ i', i = i' + 1 := ⟨i - 1, by omega⟩
      simp only [Nat.add_sub_cancel] at hpre ⊢
      rw [m_from_succ]
      simp only [hij, if_false]
      rw [vc_from_succ]
      by_cases hc : cons z (i' + 1) = true
      · have e := (ih1 (n + 1)).1 mloop.consonants (by decide) (Or.inr hc)
        simp only [hc, if_true, hpre]
        rw [e, vc_from_skip z (i' + 1) r hc]
        simp
        ring
      · have hc' : cons z (i' + 1) = false := by simpa using hc
        have e := (ih1 n).2 (by omega) hc'
        simp only [hc', hpre]
        rw [e]
        simp

theorem m_eq_vc_count (z : stemmer) : m z = vc_count z := by
  by_cases hj : z.j ≤ 0
  · rw [m_of_j_le_zero z hj]
    have : z.j.toNat = 0 := by omega
    simp [vc_count, this]
  · have h := (m_from_count z (z.j + 1).toNat (z.j + 2).toNat 0 0 (by push_cast; omega)
      (by omega)).1 mloop.lead (by decide) (Or.inl rfl)
    unfold m
    rw [h]
    have e : (z.j + 1).toNat - 1 = z.j.toNat := by omega
    rw [e]
    simp [vc_from, vc_count, List.range_eq_range']

theorem vc_pairs_range (z : stemmer) (t r : Nat) :
    vc_pairs ((List.range' t (r + 1)).map fun (i : Nat) => cons z i) = vc_from z t r := by
  induction r generalizing t with
  | zero => rfl
  | succ r ih =>
    rw [List.range'_succ, List.range'_succ, vc_from_succ, ← ih (t + 1)]
    rw [List.range'_succ]
    rfl

theorem vc_count_eq_pairs (z : stemmer) : vc_count z = vc_pairs (cons_pattern z) := by
  unfold cons_pattern vc_count
  by_cases hj : 0 ≤ z.j
  · have e : (z.j + 1).toNat = z.j.toNat + 1 := by omega
    rw [e, List.range_eq_range', List.range_eq_range', vc_pairs_range]
    rfl
  · have e : (z.j + 1).toNat = 0 := by omega
    have e2 : z.j.toNat = 0 := by omega
    rw [e, e2]
    rfl

theorem vc_pairs_true (a : Nat) (l : List Bool) :
    vc_pairs (List.replicate a true ++ l) = vc_pairs l := by
  induction a with
  | zero => rfl
  | succ a ih =>
    rw [List.replicate_succ, List.cons_append]
    cases h : List.replicate a true ++ l with
    | nil =>
      have : l = [] := by
        have := congrArg List.length h
        simp at this
        exact this.2
      subst this
      rfl
    | cons b rest =>
      rw [h] at ih
      simp only [vc_pairs]
      rw [ih]
      simp

theorem vc_pairs_false_nil (d : Nat) : vc_pairs (List.replicate d false) = 0 := by
  induction d with
  | zero => rfl
  | succ d ih =>
    rw [List.replicate_succ]
    cases h : List.replicate d false with
    | nil => rfl
    | cons b rest =>
      rw [h] at ih
      have hb : b = false := by
        have : b ∈ List.replicate d false := by rw [h]; exact List.mem_cons_self _ _
        exact (List.mem_replicate.mp this).2
      subst hb
      simp only [vc_pairs]
      rw [ih]
      simp

theorem vc_pairs_false_true (b : Nat) (l : List Bool) :
    vc_pairs (List.replicate (b + 1) false ++ true :: l) = 1 + vc_pairs (true :: l) := by
  induction b with
  | zero => simp [vc_pairs]
  | succ b ih =>
    rw [List.replicate_succ, List.cons_append]
    rw [List.replicate_succ, List.cons_append] at ih ⊢
    simp only [vc_pairs] at ih ⊢
    rw [ih]
    simp

theorem vc_pairs_shape (a : Nat) (blocks : List (Nat × Nat)) (d : Nat) :
    vc_pairs (vc_shape a blocks d) = blocks.length := by
  unfold vc_shape
  rw [List.append_assoc, vc_pairs_true]
  induction blocks with
  | nil => simpa using vc_pairs_false_nil d
  | cons bc rest ih =>
    rw [List.flatMap_cons, List.append_assoc, List.append_assoc, List.replicate_succ (n := bc.2),
      List.cons_append, vc_pairs_false_true, ← List.cons_append, ← List.replicate_succ,
      vc_pairs_true, ih]
    simp
    omega

/-! ## Pieces of `step_1ab` and `step_1c` on words: C14, C16, C17, C18 -/

theorem cons_with (z y : stemmer) (hp : y.p = z.p) (i : Nat) : cons y i = cons z i :=
  cons_congr y z i (fun _ _ => by rw [hp])

theorem cons_of_vowel (z : stemmer) (i : Nat)
    (h : z.p i = 'a' ∨ z.p i = 'e' ∨ z.p i = 'i' ∨ z.p i = 'o' ∨ z.p i = 'u') :
    cons z i = false := by
  unfold cons
  simp only [h, if_true]

theorem last_of_active (z : stemmer) (a : List Char) (c : Char) (h : active z = a ++ [c]) :
    z.p z.k = c ∧ z.k = a.length := by
  obtain ⟨hl, hm⟩ := (active_eq_iff z _).mp h
  rw [memeq_append] at hm
  simp only [List.length_append, List.length_singleton] at hl
  simp only [memeq, zero_add, Bool.and_eq_true] at hm
  have hk : z.k = a.length := by omega
  rw [hk]
  by_cases hc : z.p a.length = c
  · exact ⟨hc, rfl⟩
  · simp [hc] at hm

theorem active_k (z : stemmer) (w : List Char) (h : active z = w) (hw : w ≠ []) :
    z.k + 1 = w.length := by
  have hl := (active_eq_iff z _).mp h
  have : 0 < w.length := List.length_pos.mpr hw
  omega

theorem vowelinstem_from_false (z : stemmer) (fuel i : Nat)
    (h : ∀ n : Nat, (n : Int) ≤ z.j → cons z n = true) : vowelinstem_from z fuel i = false := by
  induction fuel generalizing i with
  | zero => rfl
  | succ f ih =>
    rw [vowelinstem_from_succ]
    by_cases hi : (i : Int) ≤ z.j
    · simp only [hi, if_true, h i hi, Bool.not_true, Bool.false_eq_true, if_false]
      exact ih (i + 1)
    · simp only [hi, if_false]

theorem vowelinstem_false (z : stemmer) (h : ∀ n : Nat, (n : Int) ≤ z.j → cons z n = true) :
    vowelinstem z = false :=
  vowelinstem_from_false z _ _ h

theorem vowelinstem_from_true (z : stemmer) (fuel i : Nat) (h : z.j - i < fuel)
    (hv : vowelinstem_from z fuel i = true) : ∃ n : Nat, (n : Int) ≤ z.j ∧ cons z n = false := by
  induction fuel generalizing i with
  | zero => simp [vowelinstem_from] at hv
  | succ f ih =>
    rw [vowelinstem_from_succ] at hv
    by_cases hi : (i : Int) ≤ z.j
    · simp only [hi, if_true] at hv
      by_cases hc : cons z i = true
      · simp only [hc, Bool.not_true, Bool.false_eq_true, if_false] at hv
        exact ih (i + 1) (by push_cast at h ⊢; omega) hv
      · exact ⟨i, hi, by simpa using hc⟩
    · simp [hi] at hv

theorem vowelinstem_iff (z : stemmer) :
    vowelinstem z = true ↔ ∃ n : Nat, (n : Int) ≤ z.j ∧ cons z n = false := by
  constructor
  · intro h
    have h' : vowelinstem_from z ((z.j + 1).toNat + 1) 0 = true := by
      rw [vowelinstem_from_fuel z _ _ (by push_cast; omega)]; exact h
    exact vowelinstem_from_true z _ 0 (by push_cast; omega) h'
  · rintro ⟨n, hn, hc⟩
    cases hv : vowelinstem z with
    | true => rfl
    | false =>
      have : ∀ fuel i, vowelinstem_from z fuel i = false → (i : Int) + fuel > z.j →
          ∀ a : Nat, i ≤ a → (a : Int) ≤ z.j → cons z a = true := by
        intro fuel
        induction fuel with
        | zero => intro i _ hf a h1 h2; push_cast at hf; omega
        | succ f ih =>
          intro i hfalse hf a h1 h2
          rw [vowelinstem_from_succ] at hfalse
          have hi : (i : Int) ≤ z.j := by omega
          simp only [hi, if_true] at hfalse
          by_cases hci : cons z i = true
          · simp only [hci, Bool.not_true, Bool.false_eq_true, if_false] at hfalse
            by_cases hia : i = a
            · subst hia; exact hci
            · exact ih (i + 1) hfalse (by push_cast at hf ⊢; omega) a (by omega) h2
          · simp [hci] at hfalse
      have := this _ 0 hv (by push_cast; omega) n (Nat.zero_le _) hn
      rw [this] at hc
      exact absurd hc (by decide)

theorem step_1ab_s_skip (z : stemmer) (h : z.p z.k ≠ 's') : step_1ab_s z = z := by
  unfold step_1ab_s
  simp only [h, if_false]

theorem step_1ab_s_ies (z : stemmer) (hs : z.p z.k = 's')
    (h1 : (ends z "sses".toList).1 = false) (h2 : (ends z "ies".toList).1 = true) :
    step_1ab_s z =
      if z.k - 3 = 0 then { z with j := z.k - 3, k := z.k - 1 }
      else { z with j := z.k - 3, k := z.k - 2 } := by
  have e := (ends_true z _ h2).1
  have l3 : (("ies".toList.length : Nat) : Int) = 3 := by decide
  unfold step_1ab_s
  simp only [hs, if_true, h1, ends_false _ _ h1, Bool.false_eq_true, if_false, h2, e, l3]

theorem step_1ab_ed_none (z : stemmer) (h1 : (ends z "ied".toList).1 = false)
    (h2 : (ends z "eed".toList).1 = false) (h3 : (ends z "ed".toList).1 = false)
    (h4 : (ends z "ing".toList).1 = false) : step_1ab_ed z = z := by
  unfold step_1ab_ed
  simp only [h1, ends_false _ _ h1, h2, ends_false _ _ h2, h3, ends_false _ _ h3, h4,
    ends_false _ _ h4, Bool.false_eq_true, if_false, Bool.false_and]

theorem step_1ab_ed_ied (z : stemmer) (h1 : (ends z "ied".toList).1 = true) :
    step_1ab_ed z =
      if z.k - 3 = 0 then { z with j := z.k - 3, k := z.k - 1 }
      else { z with j := z.k - 3, k := z.k - 2 } := by
  have e := (ends_true z _ h1).1
  have l3 : (("ied".toList.length : Nat) : Int) = 3 := by decide
  unfold step_1ab_ed
  simp only [h1, if_true, e, l3]

theorem step_1ab_ed_gate (z : stemmer) (s : List Char)
    (h1 : (ends z "ied".toList).1 = false) (h2 : (ends z "eed".toList).1 = false)
    (hm : ((ends z "ed".toList).1 = true ∧ s = "ed".toList) ∨
      ((ends z "ed".toList).1 = false ∧ (ends z "ing".toList).1 = true ∧ s = "ing".toList)) :
    step_1ab_ed z =
      if vowelinstem { z with j := z.k - s.length } = true then
        step_1ab_fix { z with j := z.k - s.length, k := z.k - s.length }
      else { z with j := z.k - s.length } := by
  unfold step_1ab_ed
  simp only [h1, ends_false _ _ h1, h2, ends_false _ _ h2, Bool.false_eq_true, if_false]
  rcases hm with ⟨h3, rfl⟩ | ⟨h3, h4, rfl⟩
  · have e := (ends_true z _ h3).1
    simp only [h3, if_true, e, Bool.true_and]
  · have e := (ends_true z _ h4).1
    simp only [h3, ends_false _ _ h3, Bool.false_eq_true, if_false, h4, e, Bool.true_and]

/-- C14: `m(z)` equals the number of indices `i` with `1 <= i <= j` such that
position `i - 1` is a vowel and position `i` is a consonant under `cons`, that
is the number of vowel-to-consonant steps of the consonant pattern of
`p[0..j]`; so a pattern of shape `<c>(vc)^n<v>` gives `n`; and the stems "tree",
"trouble", "troubles" give 0, 1, 2. -/
theorem C14_measure_counts :
    (∀ z : stemmer, m z = vc_count z) ∧
      (∀ z : stemmer, vc_count z = vc_pairs (cons_pattern z)) ∧
      (∀ (z : stemmer) (a : Nat) (blocks : List (Nat × Nat)) (d : Nat),
        cons_pattern z = vc_shape a blocks d → m z = blocks.length) ∧
      m { stem_load setup_stemmer setup_stemmer.p "tree".toList with j := 3 } = 0 ∧
      m { stem_load setup_stemmer setup_stemmer.p "trouble".toList with j := 6 } = 1 ∧
      m { stem_load setup_stemmer setup_stemmer.p "troubles".toList with j := 7 } = 2 := by
  refine ⟨m_eq_vc_count, vc_count_eq_pairs, fun z a blocks d h => ?_, by decide, by decide,
    by decide⟩
  rw [m_eq_vc_count, vc_count_eq_pairs, h, vc_pairs_shape]

/-- Witness of C14 at the stem "troubles": two consonants, then two vowels and
two consonants, then one vowel and one consonant. -/
theorem C14_measure_counts_witness :
    cons_pattern { stem_load setup_stemmer setup_stemmer.p "troubles".toList with j := 7 }
        = vc_shape 2 [(1, 1), (0, 0)] 0 ∧
      m { stem_load setup_stemmer setup_stemmer.p "troubles".toList with j := 7 }
        = ([(1, 1), (0, 0)] : List (Nat × Nat)).length :=
  ⟨by decide, C14_measure_counts.2.2.1 _ 2 [(1, 1), (0, 0)] 0 (by decide)⟩

/-- C16, as stated, fails for a stem of one letter: the active word "by" has
`k = 1` and the consonant b before its y, and `step_1c` leaves it as it is;
the word "bys" reaches `step_1c` in this state, and `stem` returns "by". -/
theorem C16_counterexample :
    active (stem_load setup_stemmer setup_stemmer.p "by".toList) = "by".toList ∧
      (stem_load setup_stemmer setup_stemmer.p "by".toList).k = 1 ∧
      cons (stem_load setup_stemmer setup_stemmer.p "by".toList) 0 = true ∧
      active (step_1c (stem_load setup_stemmer setup_stemmer.p "by".toList)) = "by".toList ∧
      active (step_1ab (stem_load setup_stemmer setup_stemmer.p "bys".toList)) = "by".toList ∧
      (stem setup_stemmer setup_stemmer.p "bys".toList).1 = "by".toList := by
  decide

/-- C16, amended: for every state whose active word is `s` followed by y, where the
part `s` before the y has at least two characters (`k >= 2`) and the
character immediately before the y is a consonant, `step_1c` replaces the
trailing y by i and changes nothing else of the word, the capacity or the
pool; when `s` has at most one character, or the character before the y is a
vowel, the word is unchanged. -/
theorem C16_step_1c (z : stemmer) (s : List Char) (hz : active z = s ++ "y".toList) :
    (2 ≤ s.length → cons z (s.length - 1) = true →
        (step_1c z).p = Function.update z.p z.k 'i' ∧ (step_1c z).k = z.k ∧
        active (step_1c z) = s ++ "i".toList ∧ (step_1c z).p_size = z.p_size ∧
        (step_1c z).irregulars = z.irregulars) ∧
      (s.length ≤ 1 → Same z (step_1c z)) ∧
      (cons z (s.length - 1) = false → Same z (step_1c z)) := by
  have l1 : "y".toList.length = 1 := by decide
  have hk := active_k z _ hz (by simp)
  simp only [List.length_append, l1] at hk
  obtain ⟨he, he2⟩ := ends_of_active z s "y".toList (by omega) hz
  have hc : cons { z with j := (s.length : Int) - 1 } (z.k - 1).toNat = cons z (s.length - 1) := by
    rw [cons_with z { z with j := (s.length : Int) - 1 } rfl]
    congr 1
    omega
  unfold step_1c
  simp only [he, he2, Bool.true_and, hc]
  refine ⟨fun h2 hcs => ?_, fun h1 => ?_, fun hcs => ?_⟩
  · have hj : ((s.length : Int) - 1 > 0) := by omega
    simp only [hj, decide_True, Bool.true_and, hcs, if_true, true_and, and_true]
    refine (active_eq_iff _ _).mpr ⟨?_, ?_⟩
    · have : "i".toList.length = 1 := by decide
      simp only [List.length_append, this]; omega
    obtain ⟨_, hm⟩ := (active_eq_iff z _).mp hz
    rw [memeq_append] at hm ⊢
    simp only [Bool.and_eq_true] at hm ⊢
    constructor
    · rw [memeq_congr s _ z.p 0 (fun i h0 h1 => Function.update_noteq (by omega) _ _)]
      exact hm.1
    · have : (0 : Int) + s.length = z.k := by omega
      rw [this]
      show memeq _ z.k ['i'] = true
      simp [memeq]
  · have hj : ¬ ((s.length : Int) - 1 > 0) := by omega
    simp only [hj, decide_False, Bool.false_and, Bool.false_eq_true, if_false]
    exact ⟨rfl, rfl⟩
  · simp only [hcs, Bool.and_false, Bool.false_eq_true, if_false]
    exact ⟨rfl, rfl⟩

/-- Witness of the amended C16 at the active word "happy". -/
theorem C16_step_1c_witness :
    active (stem_load setup_stemmer setup_stemmer.p "happy".toList)
        = "happ".toList ++ "y".toList ∧
      2 ≤ "happ".toList.length ∧
      cons (stem_load setup_stemmer setup_stemmer.p "happy".toList) ("happ".toList.length - 1)
        = true ∧
      active (step_1c (stem_load setup_stemmer setup_stemmer.p "happy".toList))
        = "happ".toList ++ "i".toList :=
  ⟨by decide, by decide, by decide,
    ((C16_step_1c (stem_load setup_stemmer setup_stemmer.p "happy".toList) "happ".toList
      (by decide)).1 (by decide) (by decide)).2.2.1⟩

theorem step_1ab_ies (z : stemmer) (s : List Char) (hz : active z = s ++ "ies".toList) :
    active (step_1ab z) = if s.length = 1 then s ++ "ie".toList else s ++ "i".toList := by
  have hk := active_k z _ hz (by simp)
  simp only [List.length_append] at hk
  have l3 : "ies".toList.length = 3 := by decide
  rw [l3] at hk
  have hs := (last_of_active z (s ++ "ie".toList) 's' (by rw [hz]; simp)).1
  obtain ⟨he, _⟩ := ends_of_active z s _ (by omega) hz
  have h1 := ends_excl z _ "sses".toList (by omega) he (by decide)
  unfold step_1ab
  rw [step_1ab_s_ies z hs h1 he]
  by_cases hl : s.length = 1
  · have hj : z.k - 3 = 0 := by omega
    simp only [hj, if_true, hl]
    have ha : active { z with j := 0, k := z.k - 1 } = s ++ "ie".toList :=
      active_shrink z _ (s ++ "ie".toList) ['s'] (by rw [hz]; simp) rfl rfl
    obtain ⟨hx, _⟩ := ends_of_active _ s "ie".toList (by simp only; omega) ha
    rw [step_1ab_ed_none _ (ends_excl _ _ _ (by simp only; omega) hx (by decide))
      (ends_excl _ _ _ (by simp only; omega) hx (by decide))
      (ends_excl _ _ _ (by simp only; omega) hx (by decide))
      (ends_excl _ _ _ (by simp only; omega) hx (by decide))]
    exact ha
  · have hj : ¬ z.k - 3 = 0 := by omega
    simp only [hj, if_false, hl]
    have ha : active { z with j := z.k - 3, k := z.k - 2 } = s ++ "i".toList :=
      active_shrink z _ (s ++ "i".toList) "es".toList (by rw [hz]; simp) (by simp) rfl
    obtain ⟨hx, _⟩ := ends_of_active _ s "i".toList (by simp only; omega) ha
    rw [step_1ab_ed_none _ (ends_excl _ _ _ (by simp only; omega) hx (by decide))
      (ends_excl _ _ _ (by simp only; omega) hx (by decide))
      (ends_excl _ _ _ (by simp only; omega) hx (by decide))
      (ends_excl _ _ _ (by simp only; omega) hx (by decide))]
    exact ha

theorem step_1ab_ied (z : stemmer) (s : List Char) (hz : active z = s ++ "ied".toList) :
    active (step_1ab z) = if s.length = 1 then s ++ "ie".toList else s ++ "i".toList := by
  have hk := active_k z _ hz (by simp)
  simp only [List.length_append] at hk
  have l3 : "ied".toList.length = 3 := by decide
  rw [l3] at hk
  have hs := (last_of_active z (s ++ "ie".toList) 'd' (by rw [hz]; simp)).1
  obtain ⟨he, _⟩ := ends_of_active z s _ (by omega) hz
  unfold step_1ab
  rw [step_1ab_s_skip z (by rw [hs]; decide), step_1ab_ed_ied z he]
  by_cases hl : s.length = 1
  · have hj : z.k - 3 = 0 := by omega
    simp only [hj, if_true, hl]
    exact active_shrink z _ (s ++ "ie".toList) ['d'] (by rw [hz]; simp) rfl rfl
  · have hj : ¬ z.k - 3 = 0 := by omega
    simp only [hj, if_false, hl]
    exact active_shrink z _ (s ++ "i".toList) "ed".toList (by rw [hz]; simp) (by simp) rfl

/-- C17: -ies / -ied handling in `step_1ab`.  For every state whose active
word is `s ++ "ies"` or `s ++ "ied"`, `step_1ab` as a whole (so with all its
later rules) yields `s ++ "ie"` when `s` is a single letter and `s ++ "i"`
when `s` has two or more letters. -/
theorem C17_ies_ied (z : stemmer) (s : List Char)
    (hz : active z = s ++ "ies".toList ∨ active z = s ++ "ied".toList) :
    (s.length = 1 → active (step_1ab z) = s ++ "ie".toList) ∧
      (2 ≤ s.length → active (step_1ab z) = s ++ "i".toList) := by
  have h : active (step_1ab z) = if s.length = 1 then s ++ "ie".toList else s ++ "i".toList := by
    rcases hz with hz | hz
    · exact step_1ab_ies z s hz
    · exact step_1ab_ied z s hz
  rw [h]
  exact ⟨fun h1 => by simp [h1], fun h2 => by simp [show ¬ s.length = 1 by omega]⟩

/-- Witness of C17 at the active words "dies" and "spied". -/
theorem C17_ies_ied_witness :
    (active (stem_load setup_stemmer setup_stemmer.p "dies".toList) = "d".toList ++ "ies".toList ∧
      "d".toList.length = 1 ∧
      active (step_1ab (stem_load setup_stemmer setup_stemmer.p "dies".toList))
        = "d".toList ++ "ie".toList) ∧
    (active (stem_load setup_stemmer setup_stemmer.p "spied".toList)
        = "sp".toList ++ "ied".toList ∧
      2 ≤ "sp".toList.length ∧
      active (step_1ab (stem_load setup_stemmer setup_stemmer.p "spied".toList))
        = "sp".toList ++ "i".toList) :=
  ⟨⟨by decide, by decide,
    (C17_ies_ied (stem_load setup_stemmer setup_stemmer.p "dies".toList) "d".toList
      (Or.inl (by decide))).1 (by decide)⟩,
   ⟨by decide, by decide,
    (C17_ies_ied (stem_load setup_stemmer setup_stemmer.p "spied".toList) "sp".toList
      (Or.inr (by decide))).2 (by decide)⟩⟩

theorem ends_memeq (z : stemmer) (s : List Char) (h : (ends z s).1 = true) :
    memeq z.p (z.k - s.length + 1) s = true := by
  unfold ends at h
  by_cases h1 : (s.length : Int) > z.k + 1
  · simp [h1] at h
  · by_cases h2 : (!memeq z.p (z.k - s.length + 1) s) = true
    · simp [h1, h2] at h
    · simpa using h2

theorem ends_first (z : stemmer) (s : List Char) (h : (ends z s).1 = true)
    (hs : 0 < s.length) : z.p (z.k - s.length + 1) = s[0] := by
  have := (memeq_iff _ _ _).mp (ends_memeq z s h) 0 hs
  simpa using this

theorem step_1ab_novowel (z : stemmer) (s t : List Char)
    (ht : t = "ed".toList ∨ t = "ing".toList) (hz : active z = s ++ t)
    (hv : ∀ i : Nat, i < s.length → cons z i = true) :
    step_1ab z = { z with j := z.k - t.length } := by
  have l2 : "ed".toList.length = 2 := by decide
  have l3 : "ing".toList.length = 3 := by decide
  have hk := active_k z _ hz (by rcases ht with rfl | rfl <;> simp)
  simp only [List.length_append] at hk
  have hk1 : -1 ≤ z.k := by omega
  obtain ⟨he, he2⟩ := ends_of_active z s t hk1 hz
  have hlast : z.p z.k ≠ 's' := by
    rcases ht with rfl | rfl
    · rw [(last_of_active z (s ++ "e".toList) 'd' (by rw [hz]; simp)).1]; decide
    · rw [(last_of_active z (s ++ "in".toList) 'g' (by rw [hz]; simp)).1]; decide
  have hvo : vowelinstem { z with j := z.k - t.length } = false := by
    apply vowelinstem_false
    intro n hn
    rw [cons_with z { z with j := z.k - t.length } rfl]
    exact hv n (by simp only at hn; omega)
  have h1 : (ends z "ied".toList).1 = false := by
    rcases ht with rfl | rfl
    · cases hx : (ends z "ied".toList).1 with
      | false => rfl
      | true =>
        have hl := (ends_true z _ hx).2
        have hf := ends_first z _ hx (by decide)
        have l : (("ied".toList.length : Nat) : Int) = 3 := by decide
        rw [l] at hl hf
        rw [l2] at hk
        have hc := cons_of_vowel z (s.length - 1) (by
          rw [show ((s.length - 1 : Nat) : Int) = z.k - 3 + 1 by omega, hf]
          decide)
        rw [hv _ (by omega)] at hc
        exact absurd hc (by decide)
    · exact ends_excl z _ _ hk1 he (by decide)
  have h2 : (ends z "eed".toList).1 = false := by
    rcases ht with rfl | rfl
    · cases hx : (ends z "eed".toList).1 with
      | false => rfl
      | true =>
        have hl := (ends_true z _ hx).2
        have hf := ends_first z _ hx (by decide)
        have l : (("eed".toList.length : Nat) : Int) = 3 := by decide
        rw [l] at hl hf
        rw [l2] at hk
        have hc := cons_of_vowel z (s.length - 1) (by
          rw [show ((s.length - 1 : Nat) : Int) = z.k - 3 + 1 by omega, hf]
          decide)
        rw [hv _ (by omega)] at hc
        exact absurd hc (by decide)
    · exact ends_excl z _ _ hk1 he (by decide)
  have hm : ((ends z "ed".toList).1 = true ∧ t = "ed".toList) ∨
      ((ends z "ed".toList).1 = false ∧ (ends z "ing".toList).1 = true ∧ t = "ing".toList) := by
    rcases ht with rfl | rfl
    · exact Or.inl ⟨he, rfl⟩
    · exact Or.inr ⟨ends_excl z _ _ hk1 he (by decide), he, rfl⟩
  unfold step_1ab
  rw [step_1ab_s_skip z hlast, step_1ab_ed_gate z t h1 h2 hm]
  simp only [hvo, Bool.false_eq_true, if_false]

/-- C18: -ed / -ing stripping in `step_1ab` is gated on a vowel in the
remaining stem.  For every state whose active word is `s ++ "ed"` or
`s ++ "ing"` where no position of `s` is a vowel under `cons`, `step_1ab`
leaves the word unchanged (as for "sing" and "bled"); and in every state, when
the -ed or -ing test of `step_1ab` is reached and matches, the suffix is taken
off (`k = j`, then the cleanup) when `vowelinstem` holds for the stem that
remains, and nothing is changed when it does not; `vowelinstem` holds exactly
when some position `0..j` is a vowel under `cons`. -/
theorem C18_ed_ing_gate :
    (∀ (z : stemmer) (s : List Char),
        (active z = s ++ "ed".toList ∨ active z = s ++ "ing".toList) →
        (∀ i : Nat, i < s.length → cons z i = true) →
        Same z (step_1ab z) ∧ active (step_1ab z) = active z) ∧
      active (step_1ab (stem_load setup_stemmer setup_stemmer.p "sing".toList)) = "sing".toList ∧
      active (step_1ab (stem_load setup_stemmer setup_stemmer.p "bled".toList)) = "bled".toList ∧
      (∀ (z : stemmer) (t : List Char),
        (ends (step_1ab_s z) "ied".toList).1 = false →
        (ends (step_1ab_s z) "eed".toList).1 = false →
        (((ends (step_1ab_s z) "ed".toList).1 = true ∧ t = "ed".toList) ∨
          ((ends (step_1ab_s z) "ed".toList).1 = false ∧
            (ends (step_1ab_s z) "ing".toList).1 = true ∧ t = "ing".toList)) →
        (vowelinstem { step_1ab_s z with j := (step_1ab_s z).k - t.length } = true →
          step_1ab z = step_1ab_fix { step_1ab_s z with
            j := (step_1ab_s z).k - t.length, k := (step_1ab_s z).k - t.length }) ∧
        (vowelinstem { step_1ab_s z with j := (step_1ab_s z).k - t.length } = false →
          step_1ab z = { step_1ab_s z with j := (step_1ab_s z).k - t.length })) ∧
      (∀ y : stemmer, vowelinstem y = true ↔ ∃ n : Nat, (n : Int) ≤ y.j ∧ cons y n = false) := by
  refine ⟨fun z s hz hv => ?_, by decide, by decide, fun z t h1 h2 hm => ?_, vowelinstem_iff⟩
  · have h : ∃ t, (t = "ed".toList ∨ t = "ing".toList) ∧ active z = s ++ t := by
      rcases hz with hz | hz
      · exact ⟨_, Or.inl rfl, hz⟩
      · exact ⟨_, Or.inr rfl, hz⟩
    obtain ⟨t, ht, hzt⟩ := h
    have hsame : Same z (step_1ab z) := by
      rw [step_1ab_novowel z s t ht hzt hv]; exact ⟨rfl, rfl⟩
    exact ⟨hsame, active_of_same hsame⟩
  · have hg : step_1ab z = _ := step_1ab_ed_gate (step_1ab_s z) t h1 h2 hm
    constructor
    · intro hv; rw [hg]; simp only [hv, if_true]
    · intro hv; rw [hg]; simp only [hv, Bool.false_eq_true, if_false]

/-- Witness of C18 at the active words "bled" (no vowel before -ed: nothing
is taken off) and "matting" (a vowel before -ing: -ing is taken off). -/
theorem C18_ed_ing_gate_witness :
    (active (stem_load setup_stemmer setup_stemmer.p "bled".toList)
        = "bl".toList ++ "ed".toList ∧
      (∀ i : Nat, i < "bl".toList.length →
        cons (stem_load setup_stemmer setup_stemmer.p "bled".toList) i = true) ∧
      active (step_1ab (stem_load setup_stemmer setup_stemmer.p "bled".toList))
        = active (stem_load setup_stemmer setup_stemmer.p "bled".toList)) ∧
    (vowelinstem { step_1ab_s (stem_load setup_stemmer setup_stemmer.p "matting".toList) with
        j := (step_1ab_s (stem_load setup_stemmer setup_stemmer.p "matting".toList)).k
          - "ing".toList.length } = true ∧
      step_1ab (stem_load setup_stemmer setup_stemmer.p "matting".toList)
        = step_1ab_fix { step_1ab_s (stem_load setup_stemmer setup_stemmer.p "matting".toList) with
            j := (step_1ab_s (stem_load setup_stemmer setup_stemmer.p "matting".toList)).k
              - "ing".toList.length,
            k := (step_1ab_s (stem_load setup_stemmer setup_stemmer.p "matting".toList)).k
              - "ing".toList.length }) :=
  ⟨⟨by decide, by decide,
    (C18_ed_ing_gate.1 (stem_load setup_stemmer setup_stemmer.p "bled".toList) "bl".toList
      (Or.inl (by decide)) (by decide)).2⟩,
   ⟨by decide,
    (C18_ed_ing_gate.2.2.2.1 (stem_load setup_stemmer setup_stemmer.p "matting".toList)
      "ing".toList (by decide) (by decide) (Or.inr ⟨by decide, by decide, rfl⟩)).1 (by decide)⟩⟩

/-! ## The `switch` cases of `step_2` and `step_4` as tables: C19, C20 -/

theorem step_2_table (z : stemmer) :
    step_2 z = first_rule z (step_2_rules.filter fun e => penult e.1 = z.p (z.k - 1)) := by
  have hp : ∀ e ∈ step_2_rules, penult e.1 ∈ ['a', 'c', 'e', 'l', 'o', 's', 't', 'g'] := by
    decide
  unfold step_2
  generalize z.p (z.k - 1) = ch
  simp only []
  by_cases h1 : ch = 'a'
  · subst h1; rfl
  by_cases h2 : ch = 'c'
  · subst h2; rfl
  by_cases h3 : ch = 'e'
  · subst h3; rfl
  by_cases h4 : ch = 'l'
  · subst h4; rfl
  by_cases h5 : ch = 'o'
  · subst h5; rfl
  by_cases h6 : ch = 's'
  · subst h6; rfl
  by_cases h7 : ch = 't'
  · subst h7; rfl
  by_cases h8 : ch = 'g'
  · subst h8; rfl
  have hnil : (step_2_rules.filter fun e => penult e.1 = ch) = [] := by
    rw [List.filter_eq_nil_iff]
    intro e he
    have := hp e he
    simp only [List.mem_cons, List.mem_singleton, List.not_mem_nil, or_false] at this
    simp only [decide_eq_true_eq]
    rcases this with h | h | h | h | h | h | h | h <;> rw [h] <;> intro hh <;>
      first
        | exact h1 hh.symm | exact h2 hh.symm | exact h3 hh.symm | exact h4 hh.symm
        | exact h5 hh.symm | exact h6 hh.symm | exact h7 hh.symm | exact h8 hh.symm
  rw [hnil]
  simp only [h1, h2, h3, h4, h5, h6, h7, h8, if_false]
  rfl

theorem step_4_table (z : stemmer) :
    step_4 z = first_suffix z (step_4_suffixes.filter fun e => penult e = z.p (z.k - 1)) := by
  have hp : ∀ e ∈ step_4_suffixes,
      penult e ∈ ['a', 'c', 'e', 'i', 'l', 'n', 'o', 's', 't', 'u', 'v', 'z'] := by
    decide
  unfold step_4
  generalize z.p (z.k - 1) = ch
  simp only []
  by_cases h1 : ch = 'a'
  · subst h1; rfl
  by_cases h2 : ch = 'c'
  · subst h2; rfl
  by_cases h3 : ch = 'e'
  · subst h3; rfl
  by_cases h4 : ch = 'i'
  · subst h4; rfl
  by_cases h5 : ch = 'l'
  · subst h5; rfl
  by_cases h6 : ch = 'n'
  · subst h6; rfl
  by_cases h7 : ch = 'o'
  · subst h7; rfl
  by_cases h8 : ch = 's'
  · subst h8; rfl
  by_cases h9 : ch = 't'
  · subst h9; rfl
  by_cases h10 : ch = 'u'
  · subst h10; rfl
  by_cases h11 : ch = 'v'
  · subst h11; rfl
  by_cases h12 : ch = 'z'
  · subst h12; rfl
  have hnil : (step_4_suffixes.filter fun e => penult e = ch) = [] := by
    rw [List.filter_eq_nil_iff]
    intro e he
    have := hp e he
    simp only [List.mem_cons, List.mem_singleton, List.not_mem_nil, or_false] at this
    simp only [decide_eq_true_eq]
    rcases this with h | h | h | h | h | h | h | h | h | h | h | h <;> rw [h] <;> intro hh <;>
      first
        | exact h1 hh.symm | exact h2 hh.symm | exact h3 hh.symm | exact h4 hh.symm
        | exact h5 hh.symm | exact h6 hh.symm | exact h7 hh.symm | exact h8 hh.symm
        | exact h9 hh.symm | exact h10 hh.symm | exact h11 hh.symm | exact h12 hh.symm
  rw [hnil]
  simp only [h1, h2, h3, h4, h5, h6, h7, h8, h9, h10, h11, h12, if_false]
  rfl

theorem ends_penult (z : stemmer) (s : List Char) (h : (ends z s).1 = true)
    (hs : 2 ≤ s.length) : z.p (z.k - 1) = penult s := by
  have := (memeq_iff _ _ _).mp (ends_memeq z s h) (s.length - 2) (by omega)
  unfold penult
  rw [List.getD_eq_getElem _ _ (by omega), ← this]
  congr 1
  omega

theorem first_rule_none (z : stemmer) (l : List (List Char × List Char))
    (h : ∀ e ∈ l, (ends z e.1).1 = false) : first_rule z l = z := by
  induction l with
  | nil => rfl
  | cons e rest ih =>
    have he := h e (List.mem_cons_self _ _)
    simp only [first_rule, rule, he, Bool.false_eq_true, if_false, ends_false z _ he]
    exact ih (fun a ha => h a (List.mem_cons_of_mem _ ha))

theorem first_rule_here (z : stemmer) (pre post : List (List Char × List Char))
    (suf rep : List Char) (hpre : ∀ e ∈ pre, (ends z e.1).1 = false)
    (h : (ends z suf).1 = true) :
    first_rule z (pre ++ (suf, rep) :: post) = r { z with j := z.k - suf.length } rep := by
  induction pre with
  | nil =>
    simp only [List.nil_append, first_rule, rule, h, if_true, (ends_true z _ h).1]
  | cons e rest ih =>
    have he := hpre e (List.mem_cons_self _ _)
    simp only [List.cons_append, first_rule, rule, he, Bool.false_eq_true, if_false,
      ends_false z _ he]
    exact ih (fun a ha => hpre a (List.mem_cons_of_mem _ ha))

theorem step_2_rule (z : stemmer) (pre post : List (List Char × List Char))
    (suf rep : List Char) (htab : step_2_rules = pre ++ (suf, rep) :: post)
    (he : (ends z suf).1 = true)
    (hpre : ∀ e ∈ pre, penult e.1 = penult suf → (ends z e.1).1 = false) :
    step_2 z = r { z with j := z.k - suf.length } rep := by
  have hlen : ∀ e ∈ step_2_rules, 2 ≤ e.1.length := by decide
  have hmem : (suf, rep) ∈ step_2_rules := by rw [htab]; simp
  have hpen := ends_penult z suf he (hlen _ hmem)
  rw [step_2_table, htab, List.filter_append, List.filter_cons]
  simp only [hpen, decide_True, if_true]
  apply first_rule_here _ _ _ _ _ _ he
  intro e hmem'
  rw [List.mem_filter] at hmem'
  exact hpre e hmem'.1 (by simpa using hmem'.2)

theorem step_2_none (z : stemmer) (h : ∀ e ∈ step_2_rules, (ends z e.1).1 = false) :
    step_2 z = z := by
  rw [step_2_table]
  exact first_rule_none z _ (fun e he => h e (List.mem_filter.mp he).1)

theorem ends_fst_with (y z : stemmer) (s : List Char) (hk : y.k = z.k) (hp : y.p = z.p) :
    (ends y s).1 = (ends z s).1 := by
  unfold ends
  rw [hk, hp]
  split_ifs <;> rfl

theorem m_with (y z : stemmer) (hp : y.p = z.p) (a : Int) :
    m { y with j := a } = m { z with j := a } :=
  m_congr _ _ rfl (fun i _ _ => by simp only [hp])

theorem first_suffix_none (z : stemmer) (l : List (List Char))
    (h : ∀ e ∈ l, (ends z e).1 = false) : first_suffix z l = z := by
  induction l with
  | nil => rfl
  | cons e rest ih =>
    have he := h e (List.mem_cons_self _ _)
    have ih' := ih (fun a ha => h a (List.mem_cons_of_mem _ ha))
    by_cases hs : e = "ion".toList
    · subst hs
      simp only [first_suffix, if_true, he, Bool.false_and, Bool.false_eq_true, if_false,
        ends_false z _ he]
      exact ih'
    · simp only [first_suffix, hs, if_false, rule4, he, Bool.false_eq_true, ends_false z _ he]
      exact ih'

theorem first_suffix_here (z : stemmer) (pre post : List (List Char)) (suf : List Char)
    (hpre : ∀ e ∈ pre, (ends z e).1 = false) (h : (ends z suf).1 = true) :
    first_suffix z (pre ++ suf :: post) =
      if suf = "ion".toList then
        if z.p (z.k - suf.length) = 's' ∨ z.p (z.k - suf.length) = 't' then
          step_4_strip { z with j := z.k - suf.length }
        else first_suffix { z with j := z.k - suf.length } post
      else step_4_strip { z with j := z.k - suf.length } := by
  induction pre with
  | nil =>
    by_cases hs : suf = "ion".toList
    · subst hs
      simp only [List.nil_append, first_suffix, if_true, h, (ends_true z _ h).1, Bool.true_and,
        Bool.or_eq_true, decide_eq_true_eq]
    · simp only [List.nil_append, first_suffix, hs, if_false, rule4, h, if_true,
        (ends_true z _ h).1]
  | cons e rest ih =>
    have he := hpre e (List.mem_cons_self _ _)
    have ih' := ih (fun a ha => hpre a (List.mem_cons_of_mem _ ha))
    by_cases hs : e = "ion".toList
    · subst hs
      simp only [List.cons_append, first_suffix, if_true, he, Bool.false_and,
        Bool.false_eq_true, if_false, ends_false z _ he]
      exact ih'
    · simp only [List.cons_append, first_suffix, hs, if_false, rule4, he, Bool.false_eq_true,
        ends_false z _ he]
      exact ih'

theorem step_4_strip_cases (z : stemmer) :
    (1 < m z → step_4_strip z = { z with k := z.j }) ∧ (¬ 1 < m z → step_4_strip z = z) := by
  unfold step_4_strip
  constructor
  · intro h; simp only [gt_iff_lt, h, if_true]
  · intro h; simp only [gt_iff_lt, h, if_false]

theorem first_suffix_cases (l : List (List Char)) :
    ∀ z : stemmer, Same z (first_suffix z l) ∨
      ∃ suf ∈ l, (ends z suf).1 = true ∧ 1 < m { z with j := z.k - suf.length } ∧
        (suf = "ion".toList →
          z.p (z.k - suf.length) = 's' ∨ z.p (z.k - suf.length) = 't') ∧
        (first_suffix z l).k = z.k - suf.length ∧ (first_suffix z l).p = z.p := by
  induction l with
  | nil => intro z; exact Or.inl ⟨rfl, rfl⟩
  | cons s rest ih =>
    intro z
    -- what the rest of the case gives, carried from a state with the same word
    have carry : ∀ y : stemmer, y.k = z.k → y.p = z.p →
        Same z (first_suffix y rest) ∨
          ∃ suf ∈ s :: rest, (ends z suf).1 = true ∧ 1 < m { z with j := z.k - suf.length } ∧
            (suf = "ion".toList →
              z.p (z.k - suf.length) = 's' ∨ z.p (z.k - suf.length) = 't') ∧
            (first_suffix y rest).k = z.k - suf.length ∧ (first_suffix y rest).p = z.p := by
      intro y hk hp
      rcases ih y with h | ⟨suf, hm, h1, h2, h3, h4, h5⟩
      · exact Or.inl ⟨by rw [h.1, hk], by rw [h.2, hp]⟩
      · refine Or.inr ⟨suf, List.mem_cons_of_mem _ hm, ?_, ?_, ?_, ?_, ?_⟩
        · rw [← ends_fst_with y z suf hk hp]; exact h1
        · rw [← m_with y z hp, ← hk]; exact h2
        · intro hs; rw [← hk, ← hp]; exact h3 hs
        · rw [h4, hk]
        · rw [h5, hp]
    -- what a match of `s` followed by the last line of `step_4` gives
    have strip : (ends z s).1 = true →
        (s = "ion".toList → z.p (z.k - s.length) = 's' ∨ z.p (z.k - s.length) = 't') →
        Same z (step_4_strip { z with j := z.k - s.length }) ∨
          ∃ suf ∈ s :: rest, (ends z suf).1 = true ∧ 1 < m { z with j := z.k - suf.length } ∧
            (suf = "ion".toList →
              z.p (z.k - suf.length) = 's' ∨ z.p (z.k - suf.length) = 't') ∧
            (step_4_strip { z with j := z.k - s.length }).k = z.k - suf.length ∧
            (step_4_strip { z with j := z.k - s.length }).p = z.p := by
      intro he hst
      by_cases hm : 1 < m { z with j := z.k - s.length }
      · rw [(step_4_strip_cases _).1 hm]
        exact Or.inr ⟨s, List.mem_cons_self _ _, he, hm, hst, rfl, rfl⟩
      · rw [(step_4_strip_cases _).2 hm]
        exact Or.inl ⟨rfl, rfl⟩
    by_cases he : (ends z s).1 = true
    · have e2 := (ends_true z s he).1
      by_cases hs : s = "ion".toList
      · have hh := first_suffix_here z [] rest s (fun _ h => absurd h (List.not_mem_nil _)) he
        rw [if_pos hs, List.nil_append] at hh
        by_cases hc : z.p (z.k - s.length) = 's' ∨ z.p (z.k - s.length) = 't'
        · rw [if_pos hc] at hh
          rw [hh]
          exact strip he (fun _ => hc)
        · rw [if_neg hc] at hh
          rw [hh]
          exact carry _ rfl rfl
      · have hh := first_suffix_here z [] rest s (fun _ h => absurd h (List.not_mem_nil _)) he
        rw [if_neg hs, List.nil_append] at hh
        rw [hh]
        exact strip he (fun h => absurd h hs)
    · have he' : (ends z s).1 = false := by simpa using he
      have : first_suffix z (s :: rest) = first_suffix z rest := by
        by_cases hs : s = "ion".toList
        · subst hs
          simp only [first_suffix, if_true, he', Bool.false_and, Bool.false_eq_true, if_false,
            ends_false z _ he']
        · simp only [first_suffix, hs, if_false, rule4, he', Bool.false_eq_true,
            ends_false z _ he']
      rw [this]
      exact carry z rfl rfl

theorem step_4_first (z : stemmer) (pre post : List (List Char)) (suf : List Char)
    (htab : step_4_suffixes = pre ++ suf :: post) (he : (ends z suf).1 = true)
    (hpre : ∀ e ∈ pre, penult e = penult suf → (ends z e).1 = false) :
    ((1 < m { z with j := z.k - suf.length } ∧
        (suf = "ion".toList → z.p (z.k - suf.length) = 's' ∨ z.p (z.k - suf.length) = 't')) →
      step_4 z = { z with j := z.k - suf.length, k := z.k - suf.length }) ∧
    (¬ (1 < m { z with j := z.k - suf.length } ∧
        (suf = "ion".toList → z.p (z.k - suf.length) = 's' ∨ z.p (z.k - suf.length) = 't')) →
      Same z (step_4 z)) := by
  have hlen : ∀ e ∈ step_4_suffixes, 2 ≤ e.length := by decide
  have hmem : suf ∈ step_4_suffixes := by rw [htab]; simp
  have hpen := ends_penult z suf he (hlen _ hmem)
  have hk : -1 ≤ z.k := by have := (ends_true z suf he).2; omega
  have h4 : step_4 z = first_suffix z
      ((pre.filter fun e => penult e = z.p (z.k - 1)) ++
        suf :: (post.filter fun e => penult e = z.p (z.k - 1))) := by
    rw [step_4_table, htab, List.filter_append, List.filter_cons]
    simp only [hpen, decide_True, if_true]
  rw [h4, first_suffix_here z _ _ suf (fun e hm => by
    rw [List.mem_filter] at hm
    exact hpre e hm.1 (by simpa [hpen] using hm.2)) he]
  have hstrip := step_4_strip_cases { z with j := z.k - suf.length }
  by_cases hs : suf = "ion".toList
  · rw [if_pos hs]
    by_cases hc : z.p (z.k - suf.length) = 's' ∨ z.p (z.k - suf.length) = 't'
    · rw [if_pos hc]
      constructor
      · intro hg; rw [hstrip.1 hg.1]
      · intro hg
        rw [hstrip.2 (fun hm => hg ⟨hm, fun _ => hc⟩)]
        exact ⟨rfl, rfl⟩
    · rw [if_neg hc]
      have hnone : first_suffix { z with j := z.k - suf.length }
          (post.filter fun e => penult e = z.p (z.k - 1)) = { z with j := z.k - suf.length } := by
        apply first_suffix_none
        intro e hm
        rw [List.mem_filter] at hm
        have he_mem : e ∈ step_4_suffixes := by
          rw [htab]; exact List.mem_append_right _ (List.mem_cons_of_mem _ hm.1)
        have hnd : (pre ++ suf :: post).Nodup := by rw [← htab]; decide
        have hne : e ≠ suf := by
          intro h
          have := (List.nodup_cons.mp (List.nodup_append.mp hnd).2.1).1
          exact this (h ▸ hm.1)
        have hdec : ∀ e ∈ step_4_suffixes, penult e = penult "ion".toList →
            e = "ion".toList ∨ e = "ou".toList := by decide
        have hpe : penult e = penult "ion".toList := by
          rw [← hs, ← hpen]; simpa using hm.2
        rcases hdec e he_mem hpe with h | h
        · exact absurd (h.trans hs.symm) hne
        · rw [ends_fst_with { z with j := z.k - suf.length } z e rfl rfl, h]
          exact ends_excl z suf _ hk he (by rw [hs]; decide)
      rw [hnone]
      exact ⟨fun hg => absurd (hg.2 hs) hc, fun _ => ⟨rfl, rfl⟩⟩
  · rw [if_neg hs]
    constructor
    · intro hg; rw [hstrip.1 hg.1]
    · intro hg
      rw [hstrip.2 (fun hm => hg ⟨hm, fun h => absurd h hs⟩)]
      exact ⟨rfl, rfl⟩

theorem active_getLast (y : stemmer) (hk : 0 ≤ y.k) : (active y).getLast? = some (y.p y.k) := by
  unfold active
  have : (y.k + 1).toNat = y.k.toNat + 1 := by omega
  rw [this, List.range_succ, List.map_append, List.map_singleton, List.getLast?_concat]
  congr 2
  omega

theorem active_stem (z : stemmer) (s suf : List Char) (h : active z = s ++ suf) :
    active { z with k := z.k - suf.length } = s ∧
      active { z with j := z.k - suf.length, k := z.k - suf.length } = s :=
  ⟨active_shrink z _ s suf h rfl rfl, active_shrink z _ s suf h rfl rfl⟩

theorem ends_false_of_not_suffix (z : stemmer) (s : List Char) (hk : -1 ≤ z.k)
    (h : ¬ s <:+ active z) : (ends z s).1 = false := by
  cases hx : (ends z s).1 with
  | false => rfl
  | true => exact absurd ((ends_iff_suffix z s hk).mp hx) h

theorem step_2_word (z : stemmer) (hk : -1 ≤ z.k) (pre post : List (List Char × List Char))
    (suf rep s : List Char) (htab : step_2_rules = pre ++ (suf, rep) :: post)
    (hz : active z = s ++ suf)
    (hpre : ∀ e ∈ pre, penult e.1 = penult suf → ¬ e.1 <:+ active z) :
    (0 < m { z with j := (s.length : Int) - 1 } →
        step_2 z = setto { z with j := (s.length : Int) - 1 } rep ∧
        active (step_2 z) = s ++ rep) ∧
      (m { z with j := (s.length : Int) - 1 } = 0 →
        Same z (step_2 z) ∧ active (step_2 z) = s ++ suf) := by
  obtain ⟨he, he2⟩ := ends_of_active z s suf hk hz
  have hj : z.k - (suf.length : Int) = (s.length : Int) - 1 := by
    have := congrArg stemmer.j ((ends_true z suf he).1.symm.trans he2)
    exact this
  have hrule := step_2_rule z pre post suf rep htab he
    (fun e hm hp => ends_false_of_not_suffix z e.1 hk (hpre e hm hp))
  rw [hrule, hj]
  obtain ⟨_, hmem⟩ := (active_eq_iff z _).mp hz
  rw [memeq_append] at hmem
  simp only [Bool.and_eq_true] at hmem
  unfold r
  constructor
  · intro hm
    simp only [gt_iff_lt, hm, if_true, true_and]
    exact active_setto _ s rep (by simp only; omega) hmem.1
  · intro hm
    simp only [hm, gt_iff_lt, lt_self_iff_false, if_false]
    have hsame : Same z { z with j := (s.length : Int) - 1 } := ⟨rfl, rfl⟩
    exact ⟨hsame, (active_of_same hsame).trans hz⟩

/-- C19: `step_2` is first-match-wins and measure-gated.  For every state with
`k >= 1` and every rule (suffix, replacement) of the table of `step_2`: if the
active word is `s ++ suffix` and no rule listed earlier in the same dispatch
case (the same last but one character) matches, then `step_2` yields
`s ++ replacement` when `m(s) > 0` and leaves the word unchanged when
`m(s) = 0`; and if no rule of the table matches, the state is unchanged.  At
most one rule is applied: the result is that of the first matching rule. -/
theorem C19_step_2 (z : stemmer) (hk : 1 ≤ z.k) :
    (∀ (pre post : List (List Char × List Char)) (suf rep s : List Char),
        step_2_rules = pre ++ (suf, rep) :: post → active z = s ++ suf →
        (∀ e ∈ pre, penult e.1 = penult suf → ¬ e.1 <:+ active z) →
        (0 < m { z with j := (s.length : Int) - 1 } →
          step_2 z = setto { z with j := (s.length : Int) - 1 } rep ∧
          active (step_2 z) = s ++ rep) ∧
        (m { z with j := (s.length : Int) - 1 } = 0 →
          Same z (step_2 z) ∧ active (step_2 z) = s ++ suf)) ∧
      ((∀ e ∈ step_2_rules, ¬ e.1 <:+ active z) → step_2 z = z) :=
  ⟨fun pre post suf rep s htab hz hpre =>
      step_2_word z (by omega) pre post suf rep s htab hz hpre,
    fun h => step_2_none z
      (fun e he => ends_false_of_not_suffix z e.1 (by omega) (h e he))⟩

/-- Witness of C19 at the active word "relational": -ational is the first
rule of its case, `m("rel") = 1`, and the word becomes "relate". -/
theorem C19_step_2_witness :
    1 ≤ (stem_load setup_stemmer setup_stemmer.p "relational".toList).k ∧
      step_2_rules = [] ++ ("ational".toList, "ate".toList) :: step_2_rules.tail ∧
      active (stem_load setup_stemmer setup_stemmer.p "relational".toList)
        = "rel".toList ++ "ational".toList ∧
      0 < m { stem_load setup_stemmer setup_stemmer.p "relational".toList with
        j := ("rel".toList.length : Int) - 1 } ∧
      active (step_2 (stem_load setup_stemmer setup_stemmer.p "relational".toList))
        = "rel".toList ++ "ate".toList :=
  ⟨by decide, by decide, by decide, by decide,
    (((C19_step_2 (stem_load setup_stemmer setup_stemmer.p "relational".toList) (by decide)).1
      [] step_2_rules.tail "ational".toList "ate".toList "rel".toList (by decide) (by decide)
      (fun _ h => absurd h (List.not_mem_nil _))).1 (by decide)).2⟩

theorem step_4_word (z : stemmer) (hk : -1 ≤ z.k) (pre post : List (List Char))
    (suf s : List Char) (htab : step_4_suffixes = pre ++ suf :: post)
    (hz : active z = s ++ suf)
    (hpre : ∀ e ∈ pre, penult e = penult suf → ¬ e <:+ active z) :
    ((1 < m { z with j := (s.length : Int) - 1 } ∧
        (suf = "ion".toList → s.getLast? = some 's' ∨ s.getLast? = some 't')) →
      active (step_4 z) = s) ∧
    (¬ (1 < m { z with j := (s.length : Int) - 1 } ∧
        (suf = "ion".toList → s.getLast? = some 's' ∨ s.getLast? = some 't')) →
      Same z (step_4 z)) := by
  obtain ⟨he, he2⟩ := ends_of_active z s suf hk hz
  have hj : z.k - (suf.length : Int) = (s.length : Int) - 1 :=
    congrArg stemmer.j ((ends_true z suf he).1.symm.trans he2)
  have hfirst := step_4_first z pre post suf htab he
    (fun e hm hp => ends_false_of_not_suffix z e hk (hpre e hm hp))
  rw [hj] at hfirst
  have hpref := active_stem z s suf hz
  rw [hj] at hpref
  have hiff : (1 < m { z with j := (s.length : Int) - 1 } ∧
        (suf = "ion".toList → s.getLast? = some 's' ∨ s.getLast? = some 't')) ↔
      (1 < m { z with j := (s.length : Int) - 1 } ∧
        (suf = "ion".toList → z.p ((s.length : Int) - 1) = 's' ∨
          z.p ((s.length : Int) - 1) = 't')) := by
    constructor
    · rintro ⟨hm, hg⟩
      refine ⟨hm, fun hs => ?_⟩
      have h1 := m_pos_j _ (lt_trans Int.zero_lt_one hm)
      have hl := active_getLast { z with k := (s.length : Int) - 1 } (by simp only at h1 ⊢; omega)
      rw [hpref.1] at hl
      rw [hl] at hg
      simpa using hg hs
    · rintro ⟨hm, hg⟩
      refine ⟨hm, fun hs => ?_⟩
      have h1 := m_pos_j _ (lt_trans Int.zero_lt_one hm)
      have hl := active_getLast { z with k := (s.length : Int) - 1 } (by simp only at h1 ⊢; omega)
      rw [hpref.1] at hl
      rw [hl]
      simpa using hg hs
  constructor
  · intro hg
    rw [hfirst.1 (hiff.mp hg)]
    exact hpref.2
  · intro hg
    exact hfirst.2 (fun h => hg (hiff.mpr h))

/-- C20: `step_4` removes a suffix only under the measure gate.  For every
state with `k >= 1`, `step_4` either leaves the active word unchanged or
shortens it to a prefix `s` such that the old word is `s ++ suffix` for a
suffix of the table of `step_4`, with `m(s) > 1`, and with `s` ending in s or
t when the suffix is -ion.  Only the first matching suffix of the dispatch
case is considered: the word becomes `s` when its gate holds and is unchanged
when its gate fails; so a word ending in -ement becomes the part before
-ement or stays as it is. -/
theorem C20_step_4 (z : stemmer) (hk : 1 ≤ z.k) :
    (active (step_4 z) = active z ∨
        ∃ s suf, suf ∈ step_4_suffixes ∧ active z = s ++ suf ∧ active (step_4 z) = s ∧
          1 < m { z with j := (s.length : Int) - 1 } ∧
          (suf = "ion".toList → s.getLast? = some 's' ∨ s.getLast? = some 't')) ∧
      (∀ (pre post : List (List Char)) (suf s : List Char),
        step_4_suffixes = pre ++ suf :: post → active z = s ++ suf →
        (∀ e ∈ pre, penult e = penult suf → ¬ e <:+ active z) →
        ((1 < m { z with j := (s.length : Int) - 1 } ∧
            (suf = "ion".toList → s.getLast? = some 's' ∨ s.getLast? = some 't')) →
          active (step_4 z) = s) ∧
        (¬ (1 < m { z with j := (s.length : Int) - 1 } ∧
            (suf = "ion".toList → s.getLast? = some 's' ∨ s.getLast? = some 't')) →
          Same z (step_4 z))) ∧
      (∀ s : List Char, active z = s ++ "ement".toList →
        active (step_4 z) = s ∨ Same z (step_4 z)) := by
  have hk1 : -1 ≤ z.k := by omega
  refine ⟨?_, fun pre post suf s htab hz hpre => step_4_word z hk1 pre post suf s htab hz hpre,
    fun s hz => ?_⟩
  · rcases first_suffix_cases (step_4_suffixes.filter fun e => penult e = z.p (z.k - 1)) z with
      h | ⟨suf, hm, he, hmm, hion, hk', hp'⟩
    · rw [← step_4_table] at h
      exact Or.inl (active_of_same h)
    · rw [← step_4_table] at hk' hp'
      obtain ⟨s, hs⟩ := (ends_iff_suffix z suf hk1).mp he
      have hz : active z = s ++ suf := hs.symm
      have hj : z.k - (suf.length : Int) = (s.length : Int) - 1 := by
        have := (active_eq_iff z _).mp hz
        have hl := (ends_true z suf he).2
        simp only [List.length_append] at this
        omega
      have hpos := m_pos_j _ (lt_trans Int.zero_lt_one hmm)
      simp only at hpos
      have hl := active_getLast { z with k := z.k - suf.length } (by simp only; omega)
      rw [(active_stem z s suf hz).1] at hl
      refine Or.inr ⟨s, suf, (List.mem_filter.mp hm).1, hz,
        active_shrink z _ s suf hz hk' hp', hj ▸ hmm, fun hs' => ?_⟩
      rw [hl]
      simpa using hion hs'
  · have htab : step_4_suffixes
        = ["al", "ance", "ence", "er", "ic", "able", "ible", "ant"].map String.toList
          ++ "ement".toList :: ["ment", "ent", "ion", "ou", "ism", "ate", "iti", "ous", "ive",
            "ize"].map String.toList := by decide
    have hex : ∀ e ∈ ["al", "ance", "ence", "er", "ic", "able", "ible", "ant"].map String.toList,
        penult e = penult "ement".toList → ¬ (e <:+ "ement".toList ∨ "ement".toList <:+ e) := by
      decide
    have hw := step_4_word z hk1 _ _ _ s htab hz (fun e hm hp hsuf =>
      hex e hm hp (List.suffix_or_suffix_of_suffix hsuf ⟨s, hz.symm⟩))
    by_cases hg : 1 < m { z with j := (s.length : Int) - 1 } ∧
        ("ement".toList = "ion".toList → s.getLast? = some 's' ∨ s.getLast? = some 't')
    · exact Or.inl (hw.1 hg)
    · exact Or.inr (hw.2 hg)

/-- Witness of C20 at the active word "replacement": -ement is the first
matching suffix of its case, `m("replac") = 2`, and the word becomes
"replac". -/
theorem C20_step_4_witness :
    1 ≤ (stem_load setup_stemmer setup_stemmer.p "replacement".toList).k ∧
      step_4_suffixes
        = ["al", "ance", "ence", "er", "ic", "able", "ible", "ant"].map String.toList
          ++ "ement".toList :: ["ment", "ent", "ion", "ou", "ism", "ate", "iti", "ous", "ive",
            "ize"].map String.toList ∧
      active (stem_load setup_stemmer setup_stemmer.p "replacement".toList)
        = "replac".toList ++ "ement".toList ∧
      1 < m { stem_load setup_stemmer setup_stemmer.p "replacement".toList with
        j := ("replac".toList.length : Int) - 1 } ∧
      active (step_4 (stem_load setup_stemmer setup_stemmer.p "replacement".toList))
        = "replac".toList :=
  ⟨by decide, by decide, by decide, by decide,
    ((C20_step_4 (stem_load setup_stemmer setup_stemmer.p "replacement".toList) (by decide)).2.1
      (["al", "ance", "ence", "er", "ic", "able", "ible", "ant"].map String.toList)
      (["ment", "ent", "ion", "ou", "ism", "ate", "iti", "ous", "ive", "ize"].map String.toList)
      "ement".toList "replac".toList (by decide) (by decide) (by decide)).1
      ⟨by decide, by decide⟩⟩

/-! ## The two tests of `step_5`: C21 -/

theorem vc_count_final_vowel (z : stemmer) (hj : 0 ≤ z.j) (hv : cons z z.j.toNat = false) :
    vc_count z = vc_count { z with j := z.j - 1 } := by
  have hfun : (fun t => !cons { z with j := z.j - 1 } t && cons { z with j := z.j - 1 } (t + 1))
      = (fun t => !cons z t && cons z (t + 1)) := by
    funext t
    rw [cons_with z { z with j := z.j - 1 } rfl t, cons_with z { z with j := z.j - 1 } rfl (t + 1)]
  unfold vc_count
  rw [hfun]
  show (List.filter _ (List.range z.j.toNat)).length
    = (List.filter _ (List.range (z.j - 1).toNat)).length
  by_cases h0 : z.j = 0
  · simp [h0]
  · obtain ⟨n, hn⟩ : ∃ n : Nat, z.j.toNat = n + 1 := ⟨z.j.toNat - 1, by omega⟩
    have e : (z.j - 1).toNat = n := by omega
    rw [hn] at hv
    rw [e, hn, List.range_succ, List.filter_append]
    simp [hv]

theorem m_final_vowel (z : stemmer) (hj : 0 ≤ z.j) (hv : cons z z.j.toNat = false) :
    m z = m { z with j := z.j - 1 } := by
  rw [m_eq_vc_count, m_eq_vc_count, vc_count_final_vowel z hj hv]

theorem cons_of_l (z : stemmer) (i : Nat) (h : z.p i = 'l') : cons z i = true := by
  unfold cons
  simp [h]

theorem doublec_l (z : stemmer) (i : Int) (h : z.p i = 'l') :
    doublec z i = true ↔ 1 ≤ i ∧ z.p (i - 1) = 'l' := by
  unfold doublec
  by_cases hi : i < 1
  · simp only [hi, if_true]
    constructor
    · intro hf; exact absurd hf (by decide)
    · intro hf; omega
  · have hc : cons z i.toNat = true := cons_of_l z _ (by
      have : ((i.toNat : Nat) : Int) = i := by omega
      rw [this]; exact h)
    simp only [hi, if_false, hc, h]
    constructor
    · intro hf
      refine ⟨by omega, ?_⟩
      by_contra hne
      have : ('l' : Char) ≠ z.p (i - 1) := fun e => hne e.symm
      simp [this] at hf
    · rintro ⟨_, hl⟩
      simp [hl]

theorem ends_ll (z : stemmer) :
    (ends z "ll".toList).1 = true ↔ 1 ≤ z.k ∧ z.p (z.k - 1) = 'l' ∧ z.p z.k = 'l' := by
  have hl : ("ll".toList.length : Int) = 2 := by decide
  constructor
  · intro h
    have e := ends_true z _ h
    have hm := (memeq_iff _ _ _).mp (ends_memeq z _ h)
    have h0 := hm 0 (by decide)
    have h1 := hm 1 (by decide)
    rw [hl] at h0 h1 e
    refine ⟨by omega, ?_, ?_⟩
    · have e0 : z.k - 2 + 1 + ((0 : Nat) : Int) = z.k - 1 := by push_cast; omega
      rw [e0] at h0
      exact h0
    · have e1 : z.k - 2 + 1 + ((1 : Nat) : Int) = z.k := by push_cast; omega
      rw [e1] at h1
      exact h1
  · rintro ⟨hk, ha, hb⟩
    unfold ends
    have h1 : ¬ ("ll".toList.length : Int) > z.k + 1 := by rw [hl]; omega
    have h2 : memeq z.p (z.k - ("ll".toList.length : Int) + 1) "ll".toList = true := by
      rw [hl]
      show memeq z.p (z.k - 2 + 1) ['l', 'l'] = true
      have e0 : z.k - 2 + 1 = z.k - 1 := by omega
      have e1 : z.k - 1 + 1 = z.k := by omega
      simp [memeq, e0, e1, ha, hb]
    simp only [h1, h2, if_false, Bool.not_true, Bool.false_eq_true]

theorem step_5_e_cases (z : stemmer) :
    (z.p z.k = 'e' ∧ (1 < m z ∨ (m z = 1 ∧ cvc z (z.k - 1) = false)) ∧
        step_5_e z = { z with k := z.k - 1 }) ∨
      (¬ (z.p z.k = 'e' ∧ (1 < m z ∨ (m z = 1 ∧ cvc z (z.k - 1) = false))) ∧
        step_5_e z = z) := by
  unfold step_5_e
  by_cases he : z.p z.k = 'e'
  · by_cases h1 : 1 < m z
    · left; simp [he, h1]
    · by_cases h2 : m z = 1
      · cases hc : cvc z (z.k - 1) with
        | false => left; simp [he, h2, hc]
        | true => right; simp [he, h2, hc]
      · right; simp [he, h1, h2]
  · right; simp [he]

theorem step_5_l_cases (z : stemmer) :
    (z.p z.k = 'l' ∧ doublec z z.k = true ∧ 1 < m z ∧ step_5_l z = { z with k := z.k - 1 }) ∨
      (¬ (z.p z.k = 'l' ∧ doublec z z.k = true ∧ 1 < m z) ∧ step_5_l z = z) := by
  unfold step_5_l
  by_cases hl : z.p z.k = 'l'
  · cases hd : doublec z z.k with
    | false => right; simp [hl, hd]
    | true =>
      by_cases h1 : 1 < m z
      · left; simp [hl, hd, h1]
      · right; simp [hl, hd, h1]
  · right; simp [hl]

theorem active_drop_last (z y : stemmer) (hk : 0 ≤ z.k) (hy : y.k = z.k - 1) (hp : y.p = z.p) :
    active z = active y ++ [z.p z.k] := by
  refine (active_eq_iff z _).mpr ⟨?_, ?_⟩
  · simp only [List.length_append, active_length, List.length_singleton]; omega
  · rw [memeq_append, ← hp, active_memeq y]
    simp only [Bool.true_and, active_length, zero_add, memeq]
    have e : (((y.k + 1).toNat : Nat) : Int) = z.k := by omega
    rw [e, hp]
    simp

theorem cons_iff (z : stemmer) (i : Nat) :
    cons z i = true ↔
      (z.p i ≠ 'a' ∧ z.p i ≠ 'e' ∧ z.p i ≠ 'i' ∧ z.p i ≠ 'o' ∧ z.p i ≠ 'u') ∧
        (z.p i = 'y' → i = 0 ∨ cons z (i - 1) = false) := by
  by_cases hv : z.p i = 'a' ∨ z.p i = 'e' ∨ z.p i = 'i' ∨ z.p i = 'o' ∨ z.p i = 'u'
  · rw [cons_of_vowel z i hv]
    constructor
    · intro h; exact absurd h (by decide)
    · rintro ⟨⟨ha, he, hi, ho, hu⟩, _⟩
      rcases hv with h | h | h | h | h
      · exact absurd h ha
      · exact absurd h he
      · exact absurd h hi
      · exact absurd h ho
      · exact absurd h hu
  · have hv' := hv
    simp only [not_or] at hv'
    by_cases hy : z.p i = 'y'
    · cases i with
      | zero =>
        unfold cons
        simp [hv, hy]
      | succ n =>
        have e : cons z (n + 1) = !cons z n := by
          rw [cons]
          simp only [hy, if_true]
          rw [if_neg (by decide)]
        rw [e]
        constructor
        · intro h
          refine ⟨hv', fun _ => Or.inr ?_⟩
          show cons z n = false
          simpa using h
        · rintro ⟨_, h⟩
          rcases h hy with h0 | h0
          · omega
          · have h1 : cons z n = false := h0
            simp [h1]
    · have hc : cons z i = true := by
        cases i with
        | zero => unfold cons; simp only [hv, hy, if_false]
        | succ n => unfold cons; simp only [hv, hy, if_false]
      rw [hc]
      exact ⟨fun _ => ⟨hv', fun h => absurd h hy⟩, fun _ => rfl⟩

theorem cvc_iff (z : stemmer) (i : Int) :
    cvc z i = true ↔
      2 ≤ i ∧ cons z (i - 2).toNat = true ∧ cons z (i - 1).toNat = false ∧
        cons z i.toNat = true ∧ z.p i ≠ 'w' ∧ z.p i ≠ 'x' ∧ z.p i ≠ 'y' := by
  unfold cvc
  by_cases hi : i < 2
  · simp only [hi, decide_True, Bool.true_or, if_true]
    constructor
    · intro h; exact absurd h (by decide)
    · intro h; omega
  · cases h0 : cons z i.toNat <;> cases h1 : cons z (i - 1).toNat <;>
      cases h2 : cons z (i - 2).toNat <;> (simp [hi]; try omega)

theorem suffix_ll_iff (y : stemmer) (hk : -1 ≤ y.k) :
    "ll".toList <:+ active y ↔ y.p y.k = 'l' ∧ doublec y y.k = true := by
  rw [← ends_iff_suffix y _ hk, ends_ll]
  constructor
  · rintro ⟨h1, ha, hb⟩
    exact ⟨hb, (doublec_l y y.k hb).mpr ⟨h1, ha⟩⟩
  · rintro ⟨hb, hd⟩
    have := (doublec_l y y.k hb).mp hd
    exact ⟨this.1, this.2, hb⟩

theorem step_5_e_word (z : stemmer) (hk : 0 ≤ z.k) :
    (step_5_e { z with j := z.k }).p = z.p ∧ (step_5_e { z with j := z.k }).j = z.k ∧
      0 ≤ (step_5_e { z with j := z.k }).k ∧
      ((step_5_e { z with j := z.k }).k = z.k - 1 ∨ (step_5_e { z with j := z.k }).k = z.k) ∧
      ((step_5_e { z with j := z.k }).k = z.k - 1 ↔
        z.p z.k = 'e' ∧ (1 < m { z with j := z.k } ∨
          (m { z with j := z.k } = 1 ∧ cvc z (z.k - 1) = false))) := by
  have hcvc : cvc { z with j := z.k } (z.k - 1) = cvc z (z.k - 1) :=
    cvc_congr _ _ _ (fun _ _ _ => rfl)
  rcases step_5_e_cases { z with j := z.k } with ⟨he, hc, hy⟩ | ⟨hn, hy⟩
  · rw [hy]
    have hj : 1 ≤ z.k := by
      have : 0 < m { z with j := z.k } := by
        rcases hc with h | h
        · omega
        · omega
      exact m_pos_j { z with j := z.k } this
    refine ⟨rfl, rfl, ?_, Or.inl rfl, fun _ => ⟨he, ?_⟩, fun _ => rfl⟩
    · show 0 ≤ z.k - 1
      omega
    · rw [← hcvc]; exact hc
  · rw [hy]
    refine ⟨rfl, rfl, hk, Or.inr rfl, fun h => ?_, fun h => ?_⟩
    · exact absurd h (by show ¬ z.k = z.k - 1; omega)
    · exact absurd (by rw [hcvc]; exact h) hn

theorem step_5_l_word (y : stemmer) (hk : -1 ≤ y.k) (hm : m y = m { y with j := y.k }) :
    (step_5_l y).p = y.p ∧ ((step_5_l y).k = y.k - 1 ∨ (step_5_l y).k = y.k) ∧
      ((step_5_l y).k = y.k - 1 ↔ "ll".toList <:+ active y ∧ 1 < m { y with j := y.k }) := by
  rw [suffix_ll_iff y hk, ← hm]
  rcases step_5_l_cases y with ⟨hl, hd, h1, hy⟩ | ⟨hn, hy⟩
  · rw [hy]
    exact ⟨rfl, Or.inl rfl, fun _ => ⟨⟨hl, hd⟩, h1⟩, fun _ => rfl⟩
  · rw [hy]
    refine ⟨rfl, Or.inr rfl, fun h => ?_, fun h => ?_⟩
    · exact absurd h (by omega)
    · exact absurd ⟨h.1.1, h.1.2, h.2⟩ hn

theorem step_5_measure (z : stemmer) (hk : 0 ≤ z.k) :
    m (step_5_e { z with j := z.k })
      = m { step_5_e { z with j := z.k } with j := (step_5_e { z with j := z.k }).k } := by
  obtain ⟨hp, hj, _, hkk, hiff⟩ := step_5_e_word z hk
  rcases hkk with h | h
  · have he := (hiff.mp h).1
    have hv : cons (step_5_e { z with j := z.k }) (step_5_e { z with j := z.k }).j.toNat
        = false := by
      apply cons_of_vowel
      have e : (((step_5_e { z with j := z.k }).j.toNat : Nat) : Int) = z.k := by omega
      rw [e, hp]
      exact Or.inr (Or.inl he)
    rw [m_final_vowel _ (by omega) hv]
    exact m_congr _ _
      (by show (step_5_e { z with j := z.k }).j - 1 = (step_5_e { z with j := z.k }).k; omega)
      (fun _ _ _ => rfl)
  · exact m_congr _ _
      (by show (step_5_e { z with j := z.k }).j = (step_5_e { z with j := z.k }).k; omega)
      (fun _ _ _ => rfl)

/-- C21: `step_5` on a state with `k >= 0`.  Let `y` be the state after the
first `if` of `step_5`.  The first `if` takes one byte off the active word
exactly when that byte is `e` and either `m(w) > 1`, or `m(w) = 1` and `cvc`
at `k - 1` is false, `m(w)` being the measure of the whole active word; the
second `if` then takes one byte off exactly when the word left by the first
ends in "ll" and has measure `> 1`.  The buffer is never written, so no
other byte of the word changes: the word loses its final e, or its final l,
or both, or nothing.  The test `cvc` at `k - 1` holds exactly when the word
without its last byte has at least three bytes, the last three are consonant,
vowel, consonant, and the last one is not w, x or y; a byte is a consonant
exactly when it is not a, e, i, o, u and, if it is y, it is the first byte or
follows a vowel. -/
theorem C21_step_5 (z : stemmer) (hk : 0 ≤ z.k) :
    let y := step_5_e { z with j := z.k }
    step_5 z = step_5_l y ∧ y.p = z.p ∧ (step_5 z).p = z.p ∧ 0 ≤ y.k ∧
      (y.k = z.k - 1 ∨ y.k = z.k) ∧
      (y.k = z.k - 1 ↔
        z.p z.k = 'e' ∧ (1 < m { z with j := z.k } ∨
          (m { z with j := z.k } = 1 ∧ cvc z (z.k - 1) = false))) ∧
      (y.k = z.k - 1 → active z = active y ++ "e".toList) ∧
      (y.k = z.k → active y = active z) ∧
      ((step_5 z).k = y.k - 1 ∨ (step_5 z).k = y.k) ∧
      ((step_5 z).k = y.k - 1 ↔ "ll".toList <:+ active y ∧ 1 < m { y with j := y.k }) ∧
      ((step_5 z).k = y.k - 1 → active y = active (step_5 z) ++ "l".toList) ∧
      ((step_5 z).k = y.k → active (step_5 z) = active y) ∧
      (cvc z (z.k - 1) = true ↔
        3 ≤ z.k ∧ cons z (z.k - 3).toNat = true ∧ cons z (z.k - 2).toNat = false ∧
          cons z (z.k - 1).toNat = true ∧
          z.p (z.k - 1) ≠ 'w' ∧ z.p (z.k - 1) ≠ 'x' ∧ z.p (z.k - 1) ≠ 'y') ∧
      (∀ i : Nat, cons z i = true ↔
        (z.p i ≠ 'a' ∧ z.p i ≠ 'e' ∧ z.p i ≠ 'i' ∧ z.p i ≠ 'o' ∧ z.p i ≠ 'u') ∧
          (z.p i = 'y' → i = 0 ∨ cons z (i - 1) = false)) := by
  intro y
  have hy : y = step_5_e { z with j := z.k } := rfl
  clear_value y
  obtain ⟨hp, hj, hy0, hkk, hiff⟩ := step_5_e_word z hk
  rw [← hy] at hp hj hy0 hkk hiff
  have hm := step_5_measure z hk
  rw [← hy] at hm
  obtain ⟨lp, lkk, liff⟩ := step_5_l_word y (by omega) hm
  have h5 : step_5 z = step_5_l y := by rw [hy]; rfl
  have hcvc := cvc_iff z (z.k - 1)
  have e3 : z.k - 1 - 2 = z.k - 3 := by omega
  have e2 : z.k - 1 - 1 = z.k - 2 := by omega
  rw [e3, e2] at hcvc
  rw [h5]
  refine ⟨rfl, hp, by rw [lp]; exact hp, hy0, hkk, hiff, fun h => ?_,
    fun h => active_of_same ⟨h, hp⟩, lkk, liff, fun h => ?_, fun h => active_of_same ⟨h, lp⟩,
    ?_, cons_iff z⟩
  · rw [active_drop_last z y hk h hp, (hiff.mp h).1]
    rfl
  · rw [active_drop_last y (step_5_l y) hy0 h lp, ((suffix_ll_iff y (by omega)).mp (liff.mp h).1).1]
    rfl
  · rw [hcvc]
    constructor
    · rintro ⟨h1, h2⟩; exact ⟨by omega, h2⟩
    · rintro ⟨h1, h2⟩; exact ⟨by omega, h2⟩

/-- Witness of C21 at three active words.  For "lowe" the measure is 1 and
`cvc` at `k - 1` is false, because "low" ends in w: the e is taken off.  For
"mate" the measure is 1 and `cvc` at `k - 1` is true: the e stays.  For
"controlle" the measure is 2: the e is taken off, then the word ends in "ll"
and becomes "control". -/
theorem C21_step_5_witness :
    (0 ≤ (stem_load setup_stemmer setup_stemmer.p "lowe".toList).k ∧
        m { stem_load setup_stemmer setup_stemmer.p "lowe".toList with
          j := (stem_load setup_stemmer setup_stemmer.p "lowe".toList).k } = 1 ∧
        cvc (stem_load setup_stemmer setup_stemmer.p "lowe".toList)
          ((stem_load setup_stemmer setup_stemmer.p "lowe".toList).k - 1) = false ∧
        (stem_load setup_stemmer setup_stemmer.p "lowe".toList).p
          ((stem_load setup_stemmer setup_stemmer.p "lowe".toList).k - 1) = 'w' ∧
        (step_5_e { stem_load setup_stemmer setup_stemmer.p "lowe".toList with
            j := (stem_load setup_stemmer setup_stemmer.p "lowe".toList).k }).k
          = (stem_load setup_stemmer setup_stemmer.p "lowe".toList).k - 1 ∧
        active (step_5 (stem_load setup_stemmer setup_stemmer.p "lowe".toList))
          = "low".toList) ∧
      (0 ≤ (stem_load setup_stemmer setup_stemmer.p "mate".toList).k ∧
        m { stem_load setup_stemmer setup_stemmer.p "mate".toList with
          j := (stem_load setup_stemmer setup_stemmer.p "mate".toList).k } = 1 ∧
        cvc (stem_load setup_stemmer setup_stemmer.p "mate".toList)
          ((stem_load setup_stemmer setup_stemmer.p "mate".toList).k - 1) = true ∧
        (step_5_e { stem_load setup_stemmer setup_stemmer.p "mate".toList with
            j := (stem_load setup_stemmer setup_stemmer.p "mate".toList).k }).k
          ≠ (stem_load setup_stemmer setup_stemmer.p "mate".toList).k - 1 ∧
        active (step_5 (stem_load setup_stemmer setup_stemmer.p "mate".toList))
          = "mate".toList) ∧
      (0 ≤ (stem_load setup_stemmer setup_stemmer.p "controlle".toList).k ∧
        m { stem_load setup_stemmer setup_stemmer.p "controlle".toList with
          j := (stem_load setup_stemmer setup_stemmer.p "controlle".toList).k } = 2 ∧
        active (step_5 (stem_load setup_stemmer setup_stemmer.p "controlle".toList))
          = "control".toList ∧
        (step_5 (stem_load setup_stemmer setup_stemmer.p "controlle".toList)).p
          = (stem_load setup_stemmer setup_stemmer.p "controlle".toList).p) :=
  ⟨⟨by decide, by decide, by decide, by decide,
      (C21_step_5 (stem_load setup_stemmer setup_stemmer.p "lowe".toList)
        (by decide)).2.2.2.2.2.1.mpr ⟨by decide, Or.inr ⟨by decide, by decide⟩⟩,
      by decide⟩,
    ⟨by decide, by decide, by decide,
      fun h => absurd
        ((C21_step_5 (stem_load setup_stemmer setup_stemmer.p "mate".toList)
          (by decide)).2.2.2.2.2.1.mp h).2 (by decide),
      by decide⟩,
    ⟨by decide, by decide, by decide,
      (C21_step_5 (stem_load setup_stemmer setup_stemmer.p "controlle".toList)
        (by decide)).2.2.1⟩⟩

/-! ## Fixed points of the table, and the bytes before the buffer: C22, C23 -/

/-- C22: every canonical stem of the irregular-forms table is a fixed point
of `stem`, in every context that carries the table: sky, die, lie, tie, news,
inning, outing, canning and howe are returned as they are.  Hence every
surface form of the table has the stem of its base word, and so have dies and
died: dying, die, dies and died all give die. -/
theorem C22_canonical_fixed_points (z : stemmer) (fresh : Int → Char)
    (hz : z.irregulars = create_pool irregular_forms) :
    irregular_forms.map Prod.fst
        = ["sky", "die", "lie", "tie", "news", "inning", "outing", "canning", "howe"] ∧
      (∀ e ∈ irregular_forms, (stem z fresh e.1.toList).1 = e.1.toList) ∧
      (∀ e ∈ create_pool irregular_forms, (stem z fresh e.1).1 = (stem z fresh e.2).1) ∧
      (stem z fresh "dying".toList).1 = (stem z fresh "die".toList).1 ∧
      (stem z fresh "dies".toList).1 = (stem z fresh "die".toList).1 ∧
      (stem z fresh "died".toList).1 = (stem z fresh "die".toList).1 := by
  have hfix : ∀ e ∈ irregular_forms,
      (stem setup_stemmer setup_stemmer.p e.1.toList).1 = e.1.toList := by decide
  have hpool : ∀ e ∈ create_pool irregular_forms,
      (stem setup_stemmer setup_stemmer.p e.1).1
        = (stem setup_stemmer setup_stemmer.p e.2).1 := by decide
  refine ⟨by decide, fun e he => stem_fst_of_setup z fresh _ _ hz (hfix e he), ?_, ?_, ?_, ?_⟩
  · intro e he
    rw [stem_fst_indep z setup_stemmer fresh setup_stemmer.p e.1 hz,
      stem_fst_indep z setup_stemmer fresh setup_stemmer.p e.2 hz]
    exact hpool e he
  · rw [stem_fst_of_setup z fresh "dying".toList "die".toList hz (by decide),
      stem_fst_of_setup z fresh "die".toList "die".toList hz (by decide)]
  · rw [stem_fst_of_setup z fresh "dies".toList "die".toList hz (by decide),
      stem_fst_of_setup z fresh "die".toList "die".toList hz (by decide)]
  · rw [stem_fst_of_setup z fresh "died".toList "die".toList hz (by decide),
      stem_fst_of_setup z fresh "die".toList "die".toList hz (by decide)]

/-- Witness of C22 at the context made by `setup_stemmer`: dying and die. -/
theorem C22_canonical_fixed_points_witness :
    setup_stemmer.irregulars = create_pool irregular_forms ∧
      (stem setup_stemmer setup_stemmer.p "die".toList).1 = "die".toList ∧
      (stem setup_stemmer setup_stemmer.p "dying".toList).1
        = (stem setup_stemmer setup_stemmer.p "die".toList).1 :=
  ⟨rfl, (C22_canonical_fixed_points setup_stemmer setup_stemmer.p rfl).2.1
      ("die", "dying/") (by decide),
    (C22_canonical_fixed_points setup_stemmer setup_stemmer.p rfl).2.2.2.1⟩

theorem active_set_before (z : stemmer) (c : Char) : active (set_before z c) = active z := by
  unfold active set_before
  apply List.map_congr_left
  intro n _
  have h : (n : Int) ≠ -1 := by omega
  show Function.update z.p (-1) c (n : Int) = z.p (n : Int)
  exact Function.update_noteq h c z.p

theorem step_4_small_active (z : stemmer) (hk : z.k ≤ 2) (c : Char) :
    active (step_4 (set_before z c)) = active (step_4 z) := by
  rw [active_of_same (step_4_small (set_before z c) hk), active_of_same (step_4_small z hk)]
  exact active_set_before z c

/-- C23: the reads of `p[-1]` cannot influence the result.  Let the byte
before the buffer be replaced by any `c`.  When `step_2` is entered with
`k = 0` (it dispatches on `p[k - 1] = p[-1]`), the active word after `step_2`
is the same, and it is the word the stage was entered with; so it is for
`step_4` entered with `k = 0`; and so it is for `step_4` when `ends` matches
"ion" with `j = -1` (the test then reads `p[j] = p[-1]`).  Hence the output of
`stem` is the same for every word, whatever lies before the buffer in use and
before a newly allocated one. -/
theorem C23_lookback_harmless (z : stemmer) (c : Char) :
    (z.k = 0 →
        active (step_2 (set_before z c)) = active (step_2 z) ∧ active (step_2 z) = active z) ∧
      (z.k = 0 →
        active (step_4 (set_before z c)) = active (step_4 z) ∧ active (step_4 z) = active z) ∧
      ((ends z "ion".toList).1 = true → (ends z "ion".toList).2.j = -1 →
        active (step_4 (set_before z c)) = active (step_4 z) ∧ active (step_4 z) = active z) ∧
      (∀ (fresh : Int → Char) (d : Char) (w : List Char),
        (stem (set_before z c) (Function.update fresh (-1) d) w).1 = (stem z fresh w).1) := by
  refine ⟨fun hk => ⟨?_, ?_⟩, fun hk => ⟨?_, ?_⟩, fun he hj => ?_, fun fresh d w => ?_⟩
  · rw [step_2_short (set_before z c) hk, step_2_short z hk]
    exact active_set_before z c
  · rw [step_2_short z hk]
  · exact step_4_small_active z (by omega) c
  · exact active_of_same (step_4_small z (by omega))
  · have e := ends_true z _ he
    rw [e.1] at hj
    have hl : ("ion".toList.length : Int) = 3 := by decide
    have hk : z.k ≤ 2 := by
      have : z.k - ("ion".toList.length : Int) = -1 := hj
      omega
    exact ⟨step_4_small_active z hk c, active_of_same (step_4_small z hk)⟩
  · exact stem_fst_indep _ _ _ _ w rfl

/-- Witness of C23: the word "ies", which `step_1ab` turns into "i" with
`k = 0`, and the word "ion", on which `ends` matches with `j = -1`, with the
byte `'s'` put before the buffer. -/
theorem C23_lookback_harmless_witness :
    (step_1c (step_1ab (stem_load setup_stemmer setup_stemmer.p "ies".toList))).k = 0 ∧
      active (step_2 (set_before
          (step_1c (step_1ab (stem_load setup_stemmer setup_stemmer.p "ies".toList))) 's'))
        = active (step_2
            (step_1c (step_1ab (stem_load setup_stemmer setup_stemmer.p "ies".toList)))) ∧
      (ends (stem_load setup_stemmer setup_stemmer.p "ion".toList) "ion".toList).1 = true ∧
      (ends (stem_load setup_stemmer setup_stemmer.p "ion".toList) "ion".toList).2.j = -1 ∧
      active (step_4 (set_before (stem_load setup_stemmer setup_stemmer.p "ion".toList) 's'))
        = active (step_4 (stem_load setup_stemmer setup_stemmer.p "ion".toList)) :=
  ⟨by decide,
    ((C23_lookback_harmless
      (step_1c (step_1ab (stem_load setup_stemmer setup_stemmer.p "ies".toList))) 's').1
      (by decide)).1,
    by decide, by decide,
    ((C23_lookback_harmless (stem_load setup_stemmer setup_stemmer.p "ion".toList) 's').2.2.1
      (by decide) (by decide)).1⟩

end StemEnglish

/-! ## The loop of `clear_text`: C24 -/

namespace HandlerLibetonyek

theorem char_at_end (text : List Int) (i : Nat) (h : text.length ≤ i) : char_at text i = 0 := by
  unfold char_at
  rw [List.getD_eq_default _ _ h]

theorem clear_text_from_run (text : List Int) (n : Nat) (hstop : char_at text n ≤ n) :
    ∀ (d i fuel : Nat) (str : List Int), i + d = n → d < fuel →
      (∀ a : Nat, i ≤ a → a < n → (a : Int) < char_at text a) →
      clear_text_from text fuel i str
        = str ++ ((List.range' i d).filter fun a => !left_out text a).map (char_at text) := by
  intro d
  induction d with
  | zero =>
    intro i fuel str hi hf _
    obtain ⟨f, rfl⟩ : ∃ f, fuel = f + 1 := ⟨fuel - 1, by omega⟩
    have hin : i = n := by omega
    subst hin
    have hc : ¬ (i : Int) < char_at text i := by omega
    simp [clear_text_from, hc]
  | succ d ih =>
    intro i fuel str hi hf h
    obtain ⟨f, rfl⟩ : ∃ f, fuel = f + 1 := ⟨fuel - 1, by omega⟩
    have hc : (i : Int) < char_at text i := h i (le_refl _) (by omega)
    have hk : (!isspace (char_at text i) || (i != 0 && !isspace (char_at text (i - 1))))
        = !left_out text i := by
      unfold left_out
      cases isspace (char_at text i) <;> cases isspace (char_at text (i - 1)) <;>
        cases hi0 : (i == 0) <;> simp [bne, hi0]
    unfold clear_text_from
    simp only [hc, if_true, hk]
    rw [ih (i + 1) f _ (by omega) (by omega) (fun a h1 h2 => h a (by omega) h2),
      List.range'_succ, List.filter_cons]
    cases hl : left_out text i <;> simp

theorem clear_text_scan (str text : List Int) (n : Nat)
    (h : ∀ a : Nat, a < n → (a : Int) < char_at text a) (hstop : char_at text n ≤ n) :
    n ≤ text.length ∧ clear_text str (some text) = str ++ kept_below text n := by
  have hn : n ≤ text.length := by
    by_contra hc
    have := h text.length (by omega)
    rw [char_at_end text _ (le_refl _)] at this
    omega
  refine ⟨hn, ?_⟩
  show clear_text_from text (text.length + 1) 0 str = _
  rw [clear_text_from_run text n hstop n 0 _ str (by omega) (by omega) (fun a _ ha => h a ha)]
  simp [kept_below, List.range_eq_range']

theorem clear_text_whole (str text : List Int)
    (h : ∀ a : Nat, a < text.length → (a : Int) < char_at text a) :
    clear_text str (some text) = clear_text_spec str text :=
  (clear_text_scan str text text.length h (by
    rw [char_at_end text _ (le_refl _)]; omega)).2

theorem clear_text_stop (text : List Int) :
    ∃ n : Nat, n ≤ text.length ∧ (∀ a : Nat, a < n → (a : Int) < char_at text a) ∧
      char_at text n ≤ n := by
  have hex : ∃ n : Nat, char_at text n ≤ n :=
    ⟨text.length, by rw [char_at_end text _ (le_refl _)]; omega⟩
  refine ⟨Nat.find hex, Nat.find_min' hex (by rw [char_at_end text _ (le_refl _)]; omega),
    fun a ha => ?_, Nat.find_spec hex⟩
  have := Nat.find_min hex ha
  omega

theorem clear_text_fuel (str text : List Int) (fuel : Nat) (hf : text.length + 1 ≤ fuel) :
    clear_text_from text fuel 0 str = clear_text str (some text) := by
  obtain ⟨n, hn, h, hstop⟩ := clear_text_stop text
  rw [(clear_text_scan str text n h hstop).2,
    clear_text_from_run text n hstop n 0 fuel str (by omega) (by omega) (fun a _ ha => h a ha)]
  simp [kept_below, List.range_eq_range']

/-- C24, evaluated at the text "Hello world\nbye": the loop of `clear_text`
runs while `i < text[i]`, the newline (code 10) is at index 11, and the loop
ends there.  Only "Hello world" is appended: the newline, which follows a
character that is not whitespace, and the letters b, y, e are missing (the
letter b, code 98, is in the text and not in the result), while the
specification keeps the whole text.  On a text whose bytes are all greater
than their index the two agree, as on "  b  c\td ". -/
theorem C24_clear_text_stops_early :
    clear_text [] (some (bytes "Hello world\nbye")) = bytes "Hello world" ∧
      clear_text_spec [] (bytes "Hello world\nbye") = bytes "Hello world\nbye" ∧
      char_at (bytes "Hello world\nbye") 11 = 10 ∧
      isspace 98 = false ∧ (98 : Int) ∈ bytes "Hello world\nbye" ∧
      (98 : Int) ∉ clear_text [] (some (bytes "Hello world\nbye")) ∧
      clear_text (bytes "a") (some (bytes "  b  c\td ")) = bytes "ab c\td " ∧
      clear_text_spec (bytes "a") (bytes "  b  c\td ") = bytes "ab c\td " := by
  decide

end HandlerLibetonyek
